import Mathlib

/-!
# Command buffer encoder (`le_renderer/le_command_buffer_encoder.cpp`)

A shallow embedding of the command stream encoder: the byte arena
`mCommandStream`, the two counters, every `cbe_*` recording operation and the
mip chain generator, followed by the properties proved about them.

Memory is byte addressed (`Mem`); scalar fields are stored little endian at the
offsets of the record structs.  Integers are natural numbers, reduced
modulo `2 ^ 32` or `2 ^ 64` wherever the C code computes in `uint32_t`
or `uint64_t` / `size_t` and the result can wrap.
-/

namespace Island

/-! ## Byte addressed memory -/

/-- Byte addressed memory: the value held at every address. -/
abbrev Mem := Nat → Nat

/-- Read one `uint8_t`. -/
def loadByte (m : Mem) (a : Nat) : Nat := m a % 256

/-- Write one `uint8_t`. -/
def storeByte (m : Mem) (a v : Nat) : Mem :=
  fun i => if i = a then v % 256 else m i

/-- Little endian read of a `w` byte unsigned scalar at address `a`. -/
def loadLE (m : Mem) (a : Nat) : Nat → Nat
  | 0 => 0
  | w + 1 => m a % 256 + 256 * loadLE m (a + 1) w

/-- Little endian write of the `w` low bytes of `v` at address `a`. -/
def storeLE (m : Mem) (a w v : Nat) : Mem :=
  fun i => if a ≤ i ∧ i < a + w then v / 256 ^ (i - a) % 256 else m i

def loadU32 (m : Mem) (a : Nat) : Nat := loadLE m a 4
def loadU64 (m : Mem) (a : Nat) : Nat := loadLE m a 8
def storeU32 (m : Mem) (a v : Nat) : Mem := storeLE m a 4 v
def storeU64 (m : Mem) (a v : Nat) : Mem := storeLE m a 8 v

/-- The `w` bytes of the object representation of an unsigned scalar. -/
def leBytes (w v : Nat) : List Nat := (List.range w).map (fun k => v / 256 ^ k % 256)

/-- Embedding of `memcpy( dst, src, n )`: the source object is given by its bytes `src`. -/
def memcpy (m : Mem) (dst : Nat) (src : List Nat) (n : Nat) : Mem :=
  fun i => if dst ≤ i ∧ i < dst + n then src.getD (i - dst) 0 % 256 else m i

/-- The `n` bytes found at address `a`. -/
def readBytes (m : Mem) (a n : Nat) : List Nat := (List.range n).map (fun k => m (a + k) % 256)

/-! ## Record layout

The record structs are declared in `le_renderer/private/le_renderer_types.h`.
Every record starts with a `CommandHeader` holding the 32 bit type tag and the
32 bit size, followed by the `info` struct of the command. -/

/-- Modelled from the spec: the enumerated command kind stored in the header's type tag
(`le::CommandType`, declared in `le_renderer_types.h`). -/
inductive CommandType
  | eDrawIndexed
  | eDraw
  | eSetLineWidth
  | eSetViewport
  | eSetScissor
  | eSetArgumentUbo
  | eSetArgumentTexture
  | eBindIndexBuffer
  | eBindVertexBuffers
  | eBindPipeline
  | eWriteToBuffer
  | eWriteToImage
deriving DecidableEq, Repr

/-- Modelled from the spec: the numeric value of each command kind (enumerators of
`le::CommandType` in declaration order). -/
def CommandType.tag : CommandType → Nat
  | .eDrawIndexed => 0
  | .eDraw => 1
  | .eSetLineWidth => 2
  | .eSetViewport => 3
  | .eSetScissor => 4
  | .eSetArgumentUbo => 5
  | .eSetArgumentTexture => 6
  | .eBindIndexBuffer => 7
  | .eBindVertexBuffers => 8
  | .eBindPipeline => 9
  | .eWriteToBuffer => 10
  | .eWriteToImage => 11

/-- Modelled from the spec: `sizeof( le::CommandHeader )`, a 32 bit type tag followed by the
32 bit total byte size of the record. -/
def sizeof_CommandHeader : Nat := 8

/-- Modelled from the spec: `sizeof( le_resource_handle_t )`, an opaque 64 bit identifier. -/
def sizeof_le_resource_handle_t : Nat := 8

/-- The value of `sizeof( uint64_t )`. -/
def sizeof_uint64_t : Nat := 8

/-- Modelled from the spec: `sizeof( le::Viewport )`, six `float` members
(x, y, width, height, minDepth, maxDepth). -/
def sizeof_Viewport : Nat := 24

/-- Modelled from the spec: `sizeof( le::Rect2D )`, four 32 bit members (x, y, width, height). -/
def sizeof_Rect2D : Nat := 16

/-- Modelled from the spec: `sizeof( le::CommandWriteToImage::ImageWriteRegion )`, four
`uint32_t` members (srcBufferOffset, dstMipLevel, dstMipLevelExtentW, dstMipLevelExtentH). -/
def sizeof_ImageWriteRegion : Nat := 16

/-- Modelled from the spec: `sizeof( le::CommandX )` for every record struct, header plus
fixed payload (header, then the members of `info` at their natural alignment). -/
def sizeofCommand : CommandType → Nat
  | .eDrawIndexed => 32        -- header, 6 x 32 bit
  | .eDraw => 24               -- header, 4 x 32 bit
  | .eSetLineWidth => 16       -- header, float width, 32 bit reserved
  | .eSetViewport => 16        -- header, firstViewport, viewportCount
  | .eSetScissor => 16         -- header, firstScissor, scissorCount
  | .eSetArgumentUbo => 32     -- header, argument_name_id, buffer_id, offset, range
  | .eSetArgumentTexture => 32 -- header, argument_name_id, texture_id, array_index
  | .eBindIndexBuffer => 32    -- header, buffer, offset, indexType
  | .eBindVertexBuffers => 32  -- header, firstBinding, bindingCount, pBuffers, pOffsets
  | .eBindPipeline => 16       -- header, psoHash
  | .eWriteToBuffer => 48      -- header, src_buffer_id, dst_buffer_id, src_offset, dst_offset, numBytes
  | .eWriteToImage => 48       -- header, src_buffer_id, dst_image_id, numBytes, pRegions, numRegions

/-- A `le::Viewport`; every member is the bit pattern of a `float`. -/
structure Viewport where
  x : Nat
  y : Nat
  width : Nat
  height : Nat
  minDepth : Nat
  maxDepth : Nat
deriving DecidableEq, Repr

/-- A `le::Rect2D`. -/
structure Rect2D where
  x : Nat
  y : Nat
  width : Nat
  height : Nat
deriving DecidableEq, Repr

/-- Object representation of a viewport. -/
def Viewport.toBytes (v : Viewport) : List Nat :=
  leBytes 4 v.x ++ leBytes 4 v.y ++ leBytes 4 v.width ++ leBytes 4 v.height
    ++ leBytes 4 v.minDepth ++ leBytes 4 v.maxDepth

/-- Object representation of a rectangle. -/
def Rect2D.toBytes (r : Rect2D) : List Nat :=
  leBytes 4 r.x ++ leBytes 4 r.y ++ leBytes 4 r.width ++ leBytes 4 r.height

/-- Every member of the viewport is a 32 bit pattern. -/
def Viewport.Valid (v : Viewport) : Prop :=
  v.x < 2 ^ 32 ∧ v.y < 2 ^ 32 ∧ v.width < 2 ^ 32 ∧ v.height < 2 ^ 32
    ∧ v.minDepth < 2 ^ 32 ∧ v.maxDepth < 2 ^ 32

instance (v : Viewport) : Decidable v.Valid := by
  unfold Viewport.Valid; infer_instance

/-! ## The encoder object -/

/-- Capacity of `mCommandStream`: `4096 * 16` bytes, 16 pages of memory. -/
def arenaCapacity : Nat := 4096 * 16

/-- The encoder.  `mCommandStream` holds the bytes of the arena, addressed by
their offset from `&mCommandStream[ 0 ]`; `arenaAddr` is that address, which the
records that keep a pointer to their own trailing array store.  The counters
are `size_t`; they cannot wrap before the arena itself is exhausted. -/
structure le_command_buffer_encoder_o where
  mCommandStream : Mem
  mCommandStreamSize : Nat := 0
  mCommandCount : Nat := 0
  pAllocator : Nat := 0
  pipelineManager : Nat := 0
  stagingAllocator : Nat := 0
  arenaAddr : Nat := 0

/-- Embedding of `cbe_create`: `new le_command_buffer_encoder_o` leaves the arena with whatever
bytes the fresh allocation at address `addr` holds (`arena`), the counters take
their default member initializers, the three collaborators are stored. -/
def cbe_create (arena : Mem) (addr : Nat) (allocator pipelineManager stagingAllocator : Nat) :
    le_command_buffer_encoder_o :=
  { mCommandStream := arena
    mCommandStreamSize := 0
    mCommandCount := 0
    pAllocator := allocator
    pipelineManager := pipelineManager
    stagingAllocator := stagingAllocator
    arenaAddr := addr }

/-- Embedding of `EMPLACE_CMD( x )`: placement new of record struct `x` at the write cursor.
Default initialisation runs the default member initializer of the header (type
tag and `sizeof( x )`); the members of `info` are left as they are. -/
def EMPLACE_CMD (self : le_command_buffer_encoder_o) (x : CommandType) : Mem :=
  storeU32 (storeU32 self.mCommandStream self.mCommandStreamSize x.tag)
    (self.mCommandStreamSize + 4) (sizeofCommand x)

/-- Offset of `cmd->header.info.size` for the record at offset `cmd`. -/
def headerSizeAt (m : Mem) (cmd : Nat) : Nat := loadU32 m (cmd + 4)

/-- Offset of `cmd->header.info.type` for the record at offset `cmd`. -/
def headerTypeAt (m : Mem) (cmd : Nat) : Nat := loadU32 m cmd

/-- Embedding of `cbe_set_line_width`. -/
def cbe_set_line_width (self : le_command_buffer_encoder_o) (lineWidth : Nat) :
    le_command_buffer_encoder_o :=
  let cmd := self.mCommandStreamSize
  let m := EMPLACE_CMD self .eSetLineWidth
  let m := storeU32 m (cmd + 8) lineWidth
  { self with
    mCommandStream := m
    mCommandStreamSize := self.mCommandStreamSize + sizeofCommand .eSetLineWidth
    mCommandCount := self.mCommandCount + 1 }

/-- Embedding of `cbe_draw`. -/
def cbe_draw (self : le_command_buffer_encoder_o)
    (vertexCount instanceCount firstVertex firstInstance : Nat) : le_command_buffer_encoder_o :=
  let cmd := self.mCommandStreamSize
  let m := EMPLACE_CMD self .eDraw
  let m := storeU32 m (cmd + 8) vertexCount
  let m := storeU32 m (cmd + 12) instanceCount
  let m := storeU32 m (cmd + 16) firstVertex
  let m := storeU32 m (cmd + 20) firstInstance
  { self with
    mCommandStream := m
    mCommandStreamSize := self.mCommandStreamSize + sizeofCommand .eDraw
    mCommandCount := self.mCommandCount + 1 }

/-- Embedding of `cbe_draw_indexed`; `vertexOffset` is an `int32_t`, stored in two's complement. -/
def cbe_draw_indexed (self : le_command_buffer_encoder_o)
    (indexCount instanceCount firstIndex : Nat) (vertexOffset : Int) (firstInstance : Nat) :
    le_command_buffer_encoder_o :=
  let cmd := self.mCommandStreamSize
  let m := EMPLACE_CMD self .eDrawIndexed
  let m := storeU32 m (cmd + 8) indexCount
  let m := storeU32 m (cmd + 12) instanceCount
  let m := storeU32 m (cmd + 16) firstIndex
  let m := storeU32 m (cmd + 20) (vertexOffset % 2 ^ 32).toNat
  let m := storeU32 m (cmd + 24) firstInstance
  let m := storeU32 m (cmd + 28) 0 -- padding must be set to zero
  { self with
    mCommandStream := m
    mCommandStreamSize := self.mCommandStreamSize + sizeofCommand .eDrawIndexed
    mCommandCount := self.mCommandCount + 1 }

/-- Embedding of `cbe_set_viewport`: the viewports are stored inline after the record, and the
size in the header grows by their byte size (`size` is a 32 bit field). -/
def cbe_set_viewport (self : le_command_buffer_encoder_o)
    (firstViewport viewportCount : Nat) (pViewports : List Viewport) :
    le_command_buffer_encoder_o :=
  let cmd := self.mCommandStreamSize
  let m := EMPLACE_CMD self .eSetViewport
  let data := cmd + sizeofCommand .eSetViewport
  let dataSize := sizeof_Viewport * viewportCount
  let m := storeU32 m (cmd + 8) firstViewport
  let m := storeU32 m (cmd + 12) viewportCount
  let m := storeU32 m (cmd + 4) ((headerSizeAt m cmd + dataSize) % 2 ^ 32)
  let m := memcpy m data (pViewports.flatMap Viewport.toBytes) dataSize
  { self with
    mCommandStream := m
    mCommandStreamSize := self.mCommandStreamSize + headerSizeAt m cmd
    mCommandCount := self.mCommandCount + 1 }

/-- Embedding of `cbe_set_scissor`. -/
def cbe_set_scissor (self : le_command_buffer_encoder_o)
    (firstScissor scissorCount : Nat) (pScissors : List Rect2D) :
    le_command_buffer_encoder_o :=
  let cmd := self.mCommandStreamSize
  let m := EMPLACE_CMD self .eSetScissor
  let data := cmd + sizeofCommand .eSetScissor
  let dataSize := sizeof_Rect2D * scissorCount
  let m := storeU32 m (cmd + 8) firstScissor
  let m := storeU32 m (cmd + 12) scissorCount
  let m := storeU32 m (cmd + 4) ((headerSizeAt m cmd + dataSize) % 2 ^ 32)
  let m := memcpy m data (pScissors.flatMap Rect2D.toBytes) dataSize
  { self with
    mCommandStream := m
    mCommandStreamSize := self.mCommandStreamSize + headerSizeAt m cmd
    mCommandCount := self.mCommandCount + 1 }

/-- Embedding of `cbe_bind_vertex_buffers`: `bindingCount` handles, then `bindingCount` offsets, are
stored inline after the record; the record keeps the addresses of both arrays. -/
def cbe_bind_vertex_buffers (self : le_command_buffer_encoder_o)
    (firstBinding bindingCount : Nat) (pBuffers pOffsets : List Nat) :
    le_command_buffer_encoder_o :=
  let cmd := self.mCommandStreamSize
  let m := EMPLACE_CMD self .eBindVertexBuffers
  let dataBuffersSize := sizeof_le_resource_handle_t * bindingCount
  let dataOffsetsSize := sizeof_uint64_t * bindingCount
  let dataBuffers := cmd + sizeofCommand .eBindVertexBuffers
  let dataOffsets := dataBuffers + dataBuffersSize
  let m := storeU32 m (cmd + 8) firstBinding
  let m := storeU32 m (cmd + 12) bindingCount
  let m := storeU64 m (cmd + 16) (self.arenaAddr + dataBuffers)
  let m := storeU64 m (cmd + 24) (self.arenaAddr + dataOffsets)
  let m := storeU32 m (cmd + 4) ((headerSizeAt m cmd + (dataBuffersSize + dataOffsetsSize)) % 2 ^ 32)
  let m := memcpy m dataBuffers (pBuffers.flatMap (leBytes 8)) dataBuffersSize
  let m := memcpy m dataOffsets (pOffsets.flatMap (leBytes 8)) dataOffsetsSize
  { self with
    mCommandStream := m
    mCommandStreamSize := self.mCommandStreamSize + headerSizeAt m cmd
    mCommandCount := self.mCommandCount + 1 }

/-- Embedding of `cbe_bind_index_buffer`; `indexType == 0` means uint16, `indexType == 1` means uint32. -/
def cbe_bind_index_buffer (self : le_command_buffer_encoder_o)
    (buffer offset indexType : Nat) : le_command_buffer_encoder_o :=
  let cmd := self.mCommandStreamSize
  let m := EMPLACE_CMD self .eBindIndexBuffer
  let m := storeU64 m (cmd + 8) buffer
  let m := storeU64 m (cmd + 16) offset
  let m := storeU32 m (cmd + 24) (indexType % 2 ^ 32)
  { self with
    mCommandStream := m
    mCommandStreamSize := self.mCommandStreamSize + headerSizeAt m cmd
    mCommandCount := self.mCommandCount + 1 }

/-- Outcome of a successful `le_allocator_linear_i.allocate`: the writable address and
the offset into the allocator's buffer. -/
structure Allocation where
  memAddr : Nat
  bufferOffset : Nat
deriving DecidableEq, Repr

/-- Outcome of a successful `le_staging_allocator_i.map`: the writable address and the
handle of the staging buffer. -/
structure Mapping where
  memAddr : Nat
  srcResourceId : Nat
deriving DecidableEq, Repr

/-- Embedding of `cbe_set_vertex_data`.  `alloc` is what `allocate` answered (`none` when it returned
false), `allocatorBufferId` what `get_le_resource_id` answers, `host` the memory the
allocator hands out. -/
def cbe_set_vertex_data (self : le_command_buffer_encoder_o) (host : Mem)
    (alloc : Option Allocation) (allocatorBufferId : Nat)
    (data : List Nat) (numBytes bindingIndex : Nat) : le_command_buffer_encoder_o × Mem :=
  match alloc with
  | some a =>
    let host := memcpy host a.memAddr data numBytes
    (cbe_bind_vertex_buffers self bindingIndex 1 [allocatorBufferId] [a.bufferOffset], host)
  | none => (self, host)

/-- Embedding of `cbe_set_index_data`. -/
def cbe_set_index_data (self : le_command_buffer_encoder_o) (host : Mem)
    (alloc : Option Allocation) (allocatorBufferId : Nat)
    (data : List Nat) (numBytes indexType : Nat) : le_command_buffer_encoder_o × Mem :=
  match alloc with
  | some a =>
    let host := memcpy host a.memAddr data numBytes
    (cbe_bind_index_buffer self allocatorBufferId a.bufferOffset indexType, host)
  | none => (self, host)

/-- Embedding of `cbe_set_argument_ubo_data`: the record is emplaced before the allocation is tried. -/
def cbe_set_argument_ubo_data (self : le_command_buffer_encoder_o) (host : Mem)
    (alloc : Option Allocation) (allocatorBufferId : Nat)
    (argumentNameId : Nat) (data : List Nat) (numBytes : Nat) :
    le_command_buffer_encoder_o × Mem :=
  let cmd := self.mCommandStreamSize
  let m := EMPLACE_CMD self .eSetArgumentUbo
  match alloc with
  | some a =>
    let host := memcpy host a.memAddr data numBytes
    let m := storeU64 m (cmd + 8) argumentNameId
    let m := storeU64 m (cmd + 16) allocatorBufferId
    let m := storeU32 m (cmd + 24) (a.bufferOffset % 2 ^ 32)
    let m := storeU32 m (cmd + 28) (numBytes % 2 ^ 32)
    ({ self with
       mCommandStream := m
       mCommandStreamSize := self.mCommandStreamSize + sizeofCommand .eSetArgumentUbo
       mCommandCount := self.mCommandCount + 1 }, host)
  | none => ({ self with mCommandStream := m }, host)

/-- Embedding of `cbe_set_argument_texture`. -/
def cbe_set_argument_texture (self : le_command_buffer_encoder_o)
    (textureId argumentName arrayIndex : Nat) : le_command_buffer_encoder_o :=
  let cmd := self.mCommandStreamSize
  let m := EMPLACE_CMD self .eSetArgumentTexture
  let m := storeU64 m (cmd + 8) argumentName
  let m := storeU64 m (cmd + 16) textureId
  let m := storeU64 m (cmd + 24) arrayIndex
  { self with
    mCommandStream := m
    mCommandStreamSize := self.mCommandStreamSize + sizeofCommand .eSetArgumentTexture
    mCommandCount := self.mCommandCount + 1 }

/-- Embedding of `cbe_bind_pipeline`. -/
def cbe_bind_pipeline (self : le_command_buffer_encoder_o) (psoHash : Nat) :
    le_command_buffer_encoder_o :=
  let cmd := self.mCommandStreamSize
  let m := EMPLACE_CMD self .eBindPipeline
  let m := storeU64 m (cmd + 8) psoHash
  { self with
    mCommandStream := m
    mCommandStreamSize := self.mCommandStreamSize + sizeofCommand .eBindPipeline
    mCommandCount := self.mCommandCount + 1 }

/-- Embedding of `cbe_write_to_buffer`: the record is emplaced before the staging map is tried. -/
def cbe_write_to_buffer (self : le_command_buffer_encoder_o) (host : Mem)
    (map : Option Mapping) (resourceId offset : Nat) (data : List Nat) (numBytes : Nat) :
    le_command_buffer_encoder_o × Mem :=
  let cmd := self.mCommandStreamSize
  let m := EMPLACE_CMD self .eWriteToBuffer
  match map with
  | some s =>
    let host := memcpy host s.memAddr data numBytes
    let m := storeU64 m (cmd + 8) s.srcResourceId
    let m := storeU64 m (cmd + 24) 0
    let m := storeU64 m (cmd + 32) offset
    let m := storeU64 m (cmd + 40) numBytes
    let m := storeU64 m (cmd + 16) resourceId
    ({ self with
       mCommandStream := m
       mCommandStreamSize := self.mCommandStreamSize + sizeofCommand .eWriteToBuffer
       mCommandCount := self.mCommandCount + 1 }, host)
  | none => ({ self with mCommandStream := m }, host)

/-! ## Mip chain generation -/

/-- Arithmetic in `uint32_t`. -/
def u32 (n : Nat) : Nat := n % 2 ^ 32

/-- Arithmetic in `uint64_t` / `size_t`. -/
def u64 (n : Nat) : Nat := n % 2 ^ 64

/-- The four source indices `nSrcIndex[ 0..3 ]` of destination texel `(x, y)`. -/
def nSrcIndex (nSrcWidth y x : Nat) : List Nat :=
  [ u32 (u32 (u32 (u32 (y * 2) * nSrcWidth) + u32 (x * 2)) * 4),
    u32 (u32 (u32 (u32 (y * 2) * nSrcWidth) + u32 (u32 (x * 2) + 1)) * 4),
    u32 (u32 (u32 (u32 (u32 (y * 2) + 1) * nSrcWidth) + u32 (x * 2)) * 4),
    u32 (u32 (u32 (u32 (u32 (y * 2) + 1) * nSrcWidth) + u32 (u32 (x * 2) + 1)) * 4) ]

/-- Channel `c` of one destination texel: the four samples are accumulated in a `float`,
divided by `4.f` and converted back to `uint8_t`.  The sum is at most `4 * 255` and a
multiple of a quarter, so both `float` operations are exact, and the conversion to
`uint8_t` discards the fraction. -/
def averageChannel (m : Mem) (pSrc : Nat) (idx : List Nat) (c : Nat) : Nat :=
  (idx.map (fun i => loadByte m (pSrc + u32 (i + c)))).sum / 4

/-- Body of the two loops of `generate_mipmap` for destination texel `(x, y)`: the four
channels are summed and averaged first, then stored. -/
def generate_mipmap_texel (m : Mem) (pSrc pDst nSrcWidth dstWidth y x : Nat) : Mem :=
  let idx := nSrcIndex nSrcWidth y x
  let channel := (List.range 4).map (averageChannel m pSrc idx)
  (List.range 4).foldl
    (fun mem c =>
      storeByte mem (pDst + u64 (u64 (u32 (u32 (y * dstWidth) + x) * 4) + c)) (channel.getD c 0))
    m

/-- Row `y` of `generate_mipmap`: `for ( x = 0; x != *pDstWidthOut; x++ )`. -/
def generate_mipmap_row (m : Mem) (pSrc pDst nSrcWidth dstWidth y : Nat) : Mem :=
  (List.range dstWidth).foldl
    (fun mem x => generate_mipmap_texel mem pSrc pDst nSrcWidth dstWidth y x) m

/-- Embedding of `generate_mipmap< uint8_t, 4 >`: returns the memory after the call and the two
out parameters `*pDstWidthOut`, `*pDstHeightOut`. -/
def generate_mipmap (m : Mem) (pSrc pDst nSrcWidth nSrcHeight : Nat) : Mem × Nat × Nat :=
  let dstWidth := if nSrcWidth / 2 ≤ 0 then 1 else nSrcWidth / 2
  let dstHeight := if nSrcHeight / 2 ≤ 0 then 1 else nSrcHeight / 2
  let m := (List.range dstHeight).foldl
    (fun mem y => generate_mipmap_row mem pSrc pDst nSrcWidth dstWidth y) m
  (m, dstWidth, dstHeight)

/-- Modelled from the spec: the pixel formats of `le::Format` that the byte width table
lists (8 bit and 16 bit four channel formats); every other format is `eOther`. -/
inductive Format
  | eR8G8B8A8Unorm | eR8G8B8A8Snorm | eR8G8B8A8Uscaled | eR8G8B8A8Sscaled
  | eR8G8B8A8Uint | eR8G8B8A8Sint | eR8G8B8A8Srgb
  | eB8G8R8A8Unorm | eB8G8R8A8Snorm | eB8G8R8A8Uscaled | eB8G8R8A8Sscaled
  | eB8G8R8A8Uint | eB8G8R8A8Sint | eB8G8R8A8Srgb
  | eR16G16B16A16Unorm | eR16G16B16A16Snorm | eR16G16B16A16Uscaled | eR16G16B16A16Sscaled
  | eR16G16B16A16Uint | eR16G16B16A16Sint | eR16G16B16A16Sfloat
  | eOther (raw : Nat)
deriving DecidableEq, Repr

/-- Modelled from the spec: the tag of the resource descriptor union (`LeResourceType`). -/
inductive LeResourceType
  | eUndefined
  | eBuffer
  | eImage
deriving DecidableEq, Repr

/-- The image variant of `le_resource_info_t`: pixel format, extent and mip level count. -/
structure ImageInfo where
  format : Format
  width : Nat
  height : Nat
  mipLevels : Nat
deriving DecidableEq, Repr

/-- The resource descriptor `le_resource_info_t`. -/
structure le_resource_info_t where
  type : LeResourceType
  image : ImageInfo
deriving DecidableEq, Repr

/-- The `switch` of `getNumBytesRequiredForMipchain`; `none` is the failing assertion. -/
def numBytesPerTexel : Format → Option Nat
  | .eR8G8B8A8Unorm | .eR8G8B8A8Snorm | .eR8G8B8A8Uscaled | .eR8G8B8A8Sscaled
  | .eR8G8B8A8Uint | .eR8G8B8A8Sint | .eR8G8B8A8Srgb
  | .eB8G8R8A8Unorm | .eB8G8R8A8Snorm | .eB8G8R8A8Uscaled | .eB8G8R8A8Sscaled
  | .eB8G8R8A8Uint | .eB8G8R8A8Sint | .eB8G8R8A8Srgb => some (4 * 1)
  | .eR16G16B16A16Unorm | .eR16G16B16A16Snorm | .eR16G16B16A16Uscaled | .eR16G16B16A16Sscaled
  | .eR16G16B16A16Uint | .eR16G16B16A16Sint | .eR16G16B16A16Sfloat => some (4 * 2)
  | .eOther _ => none

/-- The loop of `getNumBytesRequiredForMipchain`, `n` iterations still to run. -/
def mipchainLoop (bytesPerTexel : Nat) : Nat → Nat → Nat → Nat → Nat
  | 0, _, _, totalBytes => totalBytes
  | n + 1, width, height, totalBytes =>
    mipchainLoop bytesPerTexel n
      (if width > 2 then width / 2 else 1)
      (if height > 2 then height / 2 else 1)
      (u64 (totalBytes + u64 (u64 (bytesPerTexel * width) * height)))

/-- Embedding of `getNumBytesRequiredForMipchain`; `none` when an assertion fails. -/
def getNumBytesRequiredForMipchain (imageInfo : ImageInfo) : Option Nat :=
  match numBytesPerTexel imageInfo.format with
  | none => none
  | some bpt =>
    if bpt = 0 then none
    else some (mipchainLoop bpt imageInfo.mipLevels imageInfo.width imageInfo.height 0)

/-- State of the region loop of `cbe_write_to_image`: the arena, the staging memory, the
index of `region` counted from `regions_begin`, and the loop variables. -/
structure RegionLoop where
  arena : Mem
  host : Mem
  region : Nat
  mipLevel : Nat
  dstRegionOffsetInBytes : Nat
  srcRegionOffsetInBytes : Nat
  srcWidth : Nat
  srcHeight : Nat

/-- One iteration of `for ( uint32_t mipLevel = 1; region != regions_end; mipLevel++ )`.
`regions_begin` is the arena offset of the first region descriptor, `memAddr` the
address of the staging memory. -/
def regionLoopBody (regions_begin memAddr : Nat) (s : RegionLoop) : RegionLoop :=
  let region := regions_begin + sizeof_ImageWriteRegion * s.region
  let arena := storeU32 s.arena (region + 4) s.mipLevel
  let r := generate_mipmap s.host (memAddr + s.srcRegionOffsetInBytes)
    (memAddr + s.dstRegionOffsetInBytes) s.srcWidth s.srcHeight
  let dstWidth := r.2.1
  let dstHeight := r.2.2
  let arena := storeU32 arena (region + 8) dstWidth
  let arena := storeU32 arena (region + 12) dstHeight
  let arena := storeU32 arena region (u32 s.dstRegionOffsetInBytes)
  { arena := arena
    host := r.1
    region := s.region + 1
    mipLevel := u32 (s.mipLevel + 1)
    dstRegionOffsetInBytes := u64 (s.dstRegionOffsetInBytes + u64 (u64 (u32 (dstWidth * dstHeight) * 1) * 4))
    srcRegionOffsetInBytes := s.dstRegionOffsetInBytes
    srcWidth := dstWidth
    srcHeight := dstHeight }

/-- The region loop: it runs until `region` equals `regions_end`; `none` when the fuel
runs out before that. -/
def regionLoop (regions_begin memAddr mipLevels : Nat) : Nat → RegionLoop → Option RegionLoop
  | fuel, s =>
    if s.region = mipLevels then some s
    else match fuel with
      | 0 => none
      | fuel + 1 => regionLoop regions_begin memAddr mipLevels fuel
          (regionLoopBody regions_begin memAddr s)

/-- Embedding of `cbe_write_to_image`.  `map` is what `le_staging_allocator_i.map` answered
(`none` when it returned false) and `host` the memory it hands out.  The result is
`none` when an assertion fails or when `fuel` does not suffice for the region loop. -/
def cbe_write_to_image (fuel : Nat) (self : le_command_buffer_encoder_o) (host : Mem)
    (map : Option Mapping) (resourceId : Nat) (resourceInfo : le_resource_info_t)
    (data : List Nat) (numBytes : Nat) : Option (le_command_buffer_encoder_o × Mem) :=
  if resourceInfo.type ≠ LeResourceType.eImage then none
  else
    let imageInfo := resourceInfo.image
    let cmd := self.mCommandStreamSize
    let m := EMPLACE_CMD self .eWriteToImage
    match getNumBytesRequiredForMipchain imageInfo with
    | none => none
    | some numBytesForRequestedMipchain =>
      match map with
      | none => some ({ self with mCommandStream := m }, host)
      | some s =>
        let host := memcpy host s.memAddr data numBytes
        let regions_begin := cmd + sizeofCommand .eWriteToImage
        let m := storeU32 m (regions_begin + 4) 0
        let m := storeU32 m (regions_begin + 8) imageInfo.width
        let m := storeU32 m (regions_begin + 12) imageInfo.height
        let m := storeU32 m regions_begin 0
        match regionLoop regions_begin s.memAddr imageInfo.mipLevels fuel
          { arena := m
            host := host
            region := 1
            mipLevel := 1
            dstRegionOffsetInBytes := numBytes
            srcRegionOffsetInBytes := 0
            srcWidth := imageInfo.width
            srcHeight := imageInfo.height } with
        | none => none
        | some l =>
          let m := l.arena
          let m := storeU64 m (cmd + 8) s.srcResourceId
          let m := storeU64 m (cmd + 24) numBytesForRequestedMipchain
          let m := storeU64 m (cmd + 16) resourceId
          let m := storeU64 m (cmd + 32) (self.arenaAddr + regions_begin)
          let m := storeU32 m (cmd + 40) imageInfo.mipLevels
          let m := storeU32 m (cmd + 4)
            ((headerSizeAt m cmd + u64 (sizeof_ImageWriteRegion * loadU32 m (cmd + 40))) % 2 ^ 32)
          some ({ self with
                  mCommandStream := m
                  mCommandStreamSize := self.mCommandStreamSize + headerSizeAt m cmd
                  mCommandCount := self.mCommandCount + 1 }, l.host)

/-- Embedding of `cbe_get_encoded_data`: the arena, `*numBytes` and `*numCommands`. -/
def cbe_get_encoded_data (self : le_command_buffer_encoder_o) : Mem × Nat × Nat :=
  (self.mCommandStream, self.mCommandStreamSize, self.mCommandCount)

/-- Embedding of `cbe_get_pipeline_manager`. -/
def cbe_get_pipeline_manager (self : le_command_buffer_encoder_o) : Nat :=
  self.pipelineManager

/-! ## The recording interface as a whole -/

/-- One call of the recording interface (the function table filled in by
`register_le_command_buffer_encoder_api`), with its arguments and, for the calls that
go through an allocator, what the allocator answers. -/
inductive Call
  | set_line_width (lineWidth : Nat)
  | draw (vertexCount instanceCount firstVertex firstInstance : Nat)
  | draw_indexed (indexCount instanceCount firstIndex : Nat) (vertexOffset : Int)
      (firstInstance : Nat)
  | set_viewport (firstViewport viewportCount : Nat) (pViewports : List Viewport)
  | set_scissor (firstScissor scissorCount : Nat) (pScissors : List Rect2D)
  | bind_vertex_buffers (firstBinding bindingCount : Nat) (pBuffers pOffsets : List Nat)
  | bind_index_buffer (buffer offset indexType : Nat)
  | set_index_data (alloc : Option Allocation) (allocatorBufferId : Nat) (data : List Nat)
      (numBytes indexType : Nat)
  | set_vertex_data (alloc : Option Allocation) (allocatorBufferId : Nat) (data : List Nat)
      (numBytes bindingIndex : Nat)
  | set_argument_ubo_data (alloc : Option Allocation) (allocatorBufferId : Nat)
      (argumentNameId : Nat) (data : List Nat) (numBytes : Nat)
  | set_argument_texture (textureId argumentName arrayIndex : Nat)
  | bind_graphics_pipeline (psoHash : Nat)
  | write_to_buffer (map : Option Mapping) (resourceId offset : Nat) (data : List Nat)
      (numBytes : Nat)
  | write_to_image (fuel : Nat) (map : Option Mapping) (resourceId : Nat)
      (resourceInfo : le_resource_info_t) (data : List Nat) (numBytes : Nat)

/-- Run one call on the encoder and the memory behind the allocators; `none` when the
call does not return (failed assertion, or not enough fuel for the region loop). -/
def Call.run (c : Call) (s : le_command_buffer_encoder_o × Mem) :
    Option (le_command_buffer_encoder_o × Mem) :=
  match c with
  | .set_line_width lineWidth => some (cbe_set_line_width s.1 lineWidth, s.2)
  | .draw vertexCount instanceCount firstVertex firstInstance =>
    some (cbe_draw s.1 vertexCount instanceCount firstVertex firstInstance, s.2)
  | .draw_indexed indexCount instanceCount firstIndex vertexOffset firstInstance =>
    some (cbe_draw_indexed s.1 indexCount instanceCount firstIndex vertexOffset firstInstance, s.2)
  | .set_viewport firstViewport viewportCount pViewports =>
    some (cbe_set_viewport s.1 firstViewport viewportCount pViewports, s.2)
  | .set_scissor firstScissor scissorCount pScissors =>
    some (cbe_set_scissor s.1 firstScissor scissorCount pScissors, s.2)
  | .bind_vertex_buffers firstBinding bindingCount pBuffers pOffsets =>
    some (cbe_bind_vertex_buffers s.1 firstBinding bindingCount pBuffers pOffsets, s.2)
  | .bind_index_buffer buffer offset indexType =>
    some (cbe_bind_index_buffer s.1 buffer offset indexType, s.2)
  | .set_index_data alloc allocatorBufferId data numBytes indexType =>
    some (cbe_set_index_data s.1 s.2 alloc allocatorBufferId data numBytes indexType)
  | .set_vertex_data alloc allocatorBufferId data numBytes bindingIndex =>
    some (cbe_set_vertex_data s.1 s.2 alloc allocatorBufferId data numBytes bindingIndex)
  | .set_argument_ubo_data alloc allocatorBufferId argumentNameId data numBytes =>
    some (cbe_set_argument_ubo_data s.1 s.2 alloc allocatorBufferId argumentNameId data numBytes)
  | .set_argument_texture textureId argumentName arrayIndex =>
    some (cbe_set_argument_texture s.1 textureId argumentName arrayIndex, s.2)
  | .bind_graphics_pipeline psoHash => some (cbe_bind_pipeline s.1 psoHash, s.2)
  | .write_to_buffer map resourceId offset data numBytes =>
    some (cbe_write_to_buffer s.1 s.2 map resourceId offset data numBytes)
  | .write_to_image fuel map resourceId resourceInfo data numBytes =>
    cbe_write_to_image fuel s.1 s.2 map resourceId resourceInfo data numBytes

/-- Whether the allocation of the call succeeded (calls without an allocator always do). -/
def Call.allocated : Call → Bool
  | .set_index_data alloc _ _ _ _ => alloc.isSome
  | .set_vertex_data alloc _ _ _ _ => alloc.isSome
  | .set_argument_ubo_data alloc _ _ _ _ => alloc.isSome
  | .write_to_buffer map _ _ _ _ => map.isSome
  | .write_to_image _ map _ _ _ _ => map.isSome
  | _ => true

/-- The kind of record the call emits. -/
def Call.kind : Call → CommandType
  | .set_line_width _ => .eSetLineWidth
  | .draw _ _ _ _ => .eDraw
  | .draw_indexed _ _ _ _ _ => .eDrawIndexed
  | .set_viewport _ _ _ => .eSetViewport
  | .set_scissor _ _ _ => .eSetScissor
  | .bind_vertex_buffers _ _ _ _ => .eBindVertexBuffers
  | .bind_index_buffer _ _ _ => .eBindIndexBuffer
  | .set_index_data _ _ _ _ _ => .eBindIndexBuffer
  | .set_vertex_data _ _ _ _ _ => .eBindVertexBuffers
  | .set_argument_ubo_data _ _ _ _ _ => .eSetArgumentUbo
  | .set_argument_texture _ _ _ => .eSetArgumentTexture
  | .bind_graphics_pipeline _ => .eBindPipeline
  | .write_to_buffer _ _ _ _ _ => .eWriteToBuffer
  | .write_to_image _ _ _ _ _ _ => .eWriteToImage

/-- Byte size of the trailing inline array of the record the call emits: element count
times element size, zero for the commands without a trailing array. -/
def Call.trailingBytes : Call → Nat
  | .set_viewport _ viewportCount _ => viewportCount * sizeof_Viewport
  | .set_scissor _ scissorCount _ => scissorCount * sizeof_Rect2D
  | .bind_vertex_buffers _ bindingCount _ _ =>
    bindingCount * sizeof_le_resource_handle_t + bindingCount * sizeof_uint64_t
  | .set_vertex_data _ _ _ _ _ => 1 * sizeof_le_resource_handle_t + 1 * sizeof_uint64_t
  | .write_to_image _ _ _ resourceInfo _ _ => resourceInfo.image.mipLevels * sizeof_ImageWriteRegion
  | _ => 0

/-- Header, fixed payload and trailing array of the record the call emits. -/
def Call.recordBytes (c : Call) : Nat := sizeofCommand c.kind + c.trailingBytes

/-- The record of the call lies inside the arena. -/
def Call.fits (c : Call) (self : le_command_buffer_encoder_o) : Prop :=
  self.mCommandStreamSize + c.recordBytes ≤ arenaCapacity

instance (c : Call) (self : le_command_buffer_encoder_o) : Decidable (c.fits self) := by
  unfold Call.fits; infer_instance

/-- Run a sequence of calls in order; `none` as soon as one call does not return. -/
def runCalls : List Call → le_command_buffer_encoder_o × Mem →
    Option (le_command_buffer_encoder_o × Mem)
  | [], s => some s
  | c :: cs, s =>
    match c.run s with
    | none => none
    | some s1 => runCalls cs s1

/-- Every call of the sequence succeeds and fits: its allocation succeeds, it returns, and
its record lies inside the arena. -/
def allSucceed : List Call → le_command_buffer_encoder_o × Mem → Prop
  | [], _ => True
  | c :: cs, s =>
    c.allocated = true ∧ c.fits s.1 ∧ ∃ s1, c.run s = some s1 ∧ allSucceed cs s1

/-! ## Reading the stream back

The backend that replays the stream is not part of these sources; the readers below
follow the record layout and the description of the stream in the specification. -/

/-- Modelled from the spec: a reader skips to the next record by adding the size field of
the header; `walk m off n` is the offset reached from `off` after `n` records. -/
def walk (m : Mem) : Nat → Nat → Nat
  | off, 0 => off
  | off, n + 1 => walk m (off + headerSizeAt m off) n

/-- Modelled from the spec: the declared sizes of the `n` records found from `off` on. -/
def declaredSizes (m : Mem) : Nat → Nat → List Nat
  | _, 0 => []
  | off, n + 1 => headerSizeAt m off :: declaredSizes m (off + headerSizeAt m off) n

/-- A decoded record: draw and pipeline binding with their fields, any other kind by
its type tag. -/
inductive Record
  | draw (vertexCount instanceCount firstVertex firstInstance : Nat)
  | bindPipeline (psoHash : Nat)
  | other (tag : Nat)
deriving DecidableEq, Repr

/-- Modelled from the spec: decode the record at offset `cmd` from its type tag. -/
def decodeRecord (m : Mem) (cmd : Nat) : Record :=
  if headerTypeAt m cmd = CommandType.eDraw.tag then
    .draw (loadU32 m (cmd + 8)) (loadU32 m (cmd + 12)) (loadU32 m (cmd + 16))
      (loadU32 m (cmd + 20))
  else if headerTypeAt m cmd = CommandType.eBindPipeline.tag then
    .bindPipeline (loadU64 m (cmd + 8))
  else .other (headerTypeAt m cmd)

/-- Modelled from the spec: decode `n` records front to back, starting at offset `off`. -/
def decodeStream (m : Mem) : Nat → Nat → List Record
  | _, 0 => []
  | off, n + 1 => decodeRecord m off :: decodeStream m (off + headerSizeAt m off) n

/-- Read the `le::Viewport` stored at address `a`. -/
def loadViewport (m : Mem) (a : Nat) : Viewport :=
  { x := loadU32 m a
    y := loadU32 m (a + 4)
    width := loadU32 m (a + 8)
    height := loadU32 m (a + 12)
    minDepth := loadU32 m (a + 16)
    maxDepth := loadU32 m (a + 20) }

/-- Modelled from the spec: decode a viewport record at offset `cmd`: `firstViewport`,
`viewportCount`, and the trailing array read immediately after the fixed payload. -/
def decodeSetViewport (m : Mem) (cmd : Nat) : Nat × Nat × List Viewport :=
  let viewportCount := loadU32 m (cmd + 12)
  (loadU32 m (cmd + 8), viewportCount,
    (List.range viewportCount).map
      (fun k => loadViewport m (cmd + sizeofCommand .eSetViewport + sizeof_Viewport * k)))

/-- The `n` records found from offset `off` on are well formed and end at offset `e`:
each header carries the tag of a command kind and a size that covers at least the
header and fixed payload of that kind. -/
def StreamOK (m : Mem) : Nat → Nat → Nat → Prop
  | off, 0, e => off = e
  | off, n + 1, e =>
    (∃ t : CommandType, headerTypeAt m off = t.tag ∧ sizeofCommand t ≤ headerSizeAt m off)
      ∧ StreamOK m (off + headerSizeAt m off) n e

/-! ## Concrete inputs used to exercise the theorems -/

/-- Memory holding zero everywhere. -/
def zeroMem : Mem := fun _ => 0

/-- A freshly created encoder over zeroed memory. -/
def freshEncoder : le_command_buffer_encoder_o := cbe_create zeroMem 4096 1 2 3

/-- Two viewports. -/
def exampleViewports : List Viewport :=
  [ { x := 0, y := 0, width := 1149239296, height := 1142292480, minDepth := 0,
      maxDepth := 1065353216 },
    { x := 1065353216, y := 1073741824, width := 1132462080, height := 1124073472,
      minDepth := 1056964608, maxDepth := 1065353216 } ]

/-- A short recording session: bind a pipeline, set two viewports, draw. -/
def exampleSession : List Call :=
  [ .bind_graphics_pipeline 48879, .set_viewport 0 2 exampleViewports, .draw 3 1 0 0 ]

/-- The call is a pipeline binding or a draw, with arguments in the range of their C
types (`uint64_t` hash, `uint32_t` counts). -/
def Call.isBindOrDraw : Call → Prop
  | .bind_graphics_pipeline psoHash => psoHash < 2 ^ 64
  | .draw vertexCount instanceCount firstVertex firstInstance =>
    vertexCount < 2 ^ 32 ∧ instanceCount < 2 ^ 32 ∧ firstVertex < 2 ^ 32 ∧ firstInstance < 2 ^ 32
  | _ => False

/-- The record a reader is expected to find for a call: same kind, same arguments. -/
def Call.toRecord : Call → Record
  | .draw vertexCount instanceCount firstVertex firstInstance =>
    .draw vertexCount instanceCount firstVertex firstInstance
  | .bind_graphics_pipeline psoHash => .bindPipeline psoHash
  | c => .other c.kind.tag

/-- The ordering scenario: two pipelines, each followed by a draw. -/
def orderingScenario : List Call :=
  [ .bind_graphics_pipeline 2748, .draw 3 1 0 0, .bind_graphics_pipeline 3567, .draw 6 1 0 0 ]

/-- Extent (width or height) of mip level `k` for a base extent `d`, as `generate_mipmap`
computes it level by level: halved, and set to 1 when the half is 0. -/
def mipExtent (d : Nat) : Nat → Nat
  | 0 => d
  | k + 1 => if mipExtent d k / 2 ≤ 0 then 1 else mipExtent d k / 2

/-- One `le::CommandWriteToImage::ImageWriteRegion`. -/
structure ImageWriteRegion where
  srcBufferOffset : Nat
  dstMipLevel : Nat
  dstMipLevelExtentW : Nat
  dstMipLevelExtentH : Nat
deriving DecidableEq, Repr

/-- Read the region descriptor stored at arena offset `a`. -/
def loadRegion (m : Mem) (a : Nat) : ImageWriteRegion :=
  { srcBufferOffset := loadU32 m a
    dstMipLevel := loadU32 m (a + 4)
    dstMipLevelExtentW := loadU32 m (a + 8)
    dstMipLevelExtentH := loadU32 m (a + 12) }

/-- Modelled from the spec: region descriptor `k` of the write-to-image record at offset
`cmd`, read from the trailing array that follows the fixed payload. -/
def regionAt (m : Mem) (cmd k : Nat) : ImageWriteRegion :=
  loadRegion m (cmd + sizeofCommand .eWriteToImage + sizeof_ImageWriteRegion * k)

/-- A four by four image with three mip levels. -/
def exampleImage : le_resource_info_t :=
  { type := .eImage
    image := { format := .eR8G8B8A8Unorm, width := 4, height := 4, mipLevels := 3 } }

/-- A one by one image with two mip levels. -/
def exampleTinyImage : le_resource_info_t :=
  { type := .eImage
    image := { format := .eR8G8B8A8Unorm, width := 1, height := 1, mipLevels := 2 } }

/-- Progress of `generate_mipmap` over a destination level of `dw` by `dh` texels at `pDst`,
started on memory `m0`: memory outside the destination level is still that of `m0`, and
every destination texel before `(n, y)` in row major order holds the average of its
source samples as read from `m0`. -/
def MipDone (m0 : Mem) (pSrc pDst sw dw dh : Nat) (mem : Mem) (y n : Nat) : Prop :=
  (∀ a, a < pDst ∨ pDst + 4 * (dw * dh) ≤ a → mem a = m0 a)
  ∧ ∀ y1 x1 c, x1 < dw → c < 4 → (y1 < y ∨ (y1 = y ∧ x1 < n)) →
      loadByte mem (pDst + 4 * (y1 * dw + x1) + c)
        = averageChannel m0 pSrc (nSrcIndex sw y1 x1) c

/-- Channel `c` of texel `(x, y)` of an image level of width `w` stored row by row, four
bytes per texel, at address `base`. -/
def texelChannel (m : Mem) (base w x y c : Nat) : Nat := loadByte m (base + 4 * (y * w + x) + c)

/-- Byte offset of mip level `k` in the staged data when the levels lie one after another,
four bytes per texel: level 0 at offset 0, every level at the end of the previous one. -/
def mipOffset (w h : Nat) : Nat → Nat
  | 0 => 0
  | k + 1 => mipOffset w h k + 4 * (mipExtent w k * mipExtent h k)

/-- Every texel of mip level `k` of a `w` by `h` image staged at address `base` has the
channel values `r`, `g`, `b`, `a`. -/
def UniformLevel (m : Mem) (base w h r g b a k : Nat) : Prop :=
  ∀ x y c, x < mipExtent w k → y < mipExtent h k → c < 4 →
    texelChannel m (base + mipOffset w h k) (mipExtent w k) x y c = [r, g, b, a].getD c 0

/-- Modelled from the spec: the integer nearest to `s / 4` (a tie rounds up). -/
def roundedQuarter (s : Nat) : Nat := (s + 2) / 4

/-- A two by two source level at address 0 whose four red values are 0, 0, 0 and 3. -/
def exampleLevel : Mem := fun i => if i = 12 then 3 else 0

/-- A uniform image of 131074 by 131072 texels with two mip levels: its first mip level,
65537 by 65536 texels, has more than `2 ^ 32` texels. -/
def hugeImage : le_resource_info_t :=
  { type := .eImage
    image := { format := .eR8G8B8A8Unorm, width := 131074, height := 131072, mipLevels := 2 } }

/-- The pixel data of `hugeImage`: every channel of every texel is 7. -/
def hugeImageData : List Nat := List.replicate (4 * (131074 * 131072)) 7

/-- A four by two source level at address 0 whose texel `(2, 0)` has red value 4. -/
def overlapLevel : Mem := fun i => if i = 8 then 4 else 0

/-- A source level at address 0 whose texel `(0, 0)` has red value 4. -/
def wrapLevel : Mem := fun i => if i = 0 then 4 else 0

/-! ## Readers for the fixed payload of the records -/

/-- Two's complement read of an `int32_t`. -/
def loadI32 (m : Mem) (a : Nat) : Int :=
  if loadU32 m a < 2 ^ 31 then (loadU32 m a : Int) else (loadU32 m a : Int) - 2 ^ 32

/-- The `info` of a `le::CommandDraw`. -/
structure DrawInfo where
  vertexCount : Nat
  instanceCount : Nat
  firstVertex : Nat
  firstInstance : Nat
deriving DecidableEq, Repr

/-- The `info` of a `le::CommandDrawIndexed`. -/
structure DrawIndexedInfo where
  indexCount : Nat
  instanceCount : Nat
  firstIndex : Nat
  vertexOffset : Int
  firstInstance : Nat
  reserved : Nat
deriving DecidableEq, Repr

/-- The `info` of a `le::CommandSetArgumentUbo`. -/
structure SetArgumentUboInfo where
  argument_name_id : Nat
  buffer_id : Nat
  offset : Nat
  range : Nat
deriving DecidableEq, Repr

/-- The `info` of a `le::CommandWriteToBuffer`. -/
structure WriteToBufferInfo where
  src_buffer_id : Nat
  dst_buffer_id : Nat
  src_offset : Nat
  dst_offset : Nat
  numBytes : Nat
deriving DecidableEq, Repr

/-- The `info` of a `le::CommandWriteToImage`. -/
structure WriteToImageInfo where
  src_buffer_id : Nat
  dst_image_id : Nat
  numBytes : Nat
  pRegions : Nat
  numRegions : Nat
deriving DecidableEq, Repr

/-- The `info` of a `le::CommandBindVertexBuffers` together with the two arrays that
follow the record. -/
structure BindVertexBuffersInfo where
  firstBinding : Nat
  bindingCount : Nat
  buffers : List Nat
  offsets : List Nat
deriving DecidableEq, Repr

/-- Modelled from the spec: the fixed payload of the draw record at offset `cmd`. -/
def decodeDraw (m : Mem) (cmd : Nat) : DrawInfo :=
  { vertexCount := loadU32 m (cmd + 8)
    instanceCount := loadU32 m (cmd + 12)
    firstVertex := loadU32 m (cmd + 16)
    firstInstance := loadU32 m (cmd + 20) }

/-- Modelled from the spec: the fixed payload of the indexed draw record at offset `cmd`. -/
def decodeDrawIndexed (m : Mem) (cmd : Nat) : DrawIndexedInfo :=
  { indexCount := loadU32 m (cmd + 8)
    instanceCount := loadU32 m (cmd + 12)
    firstIndex := loadU32 m (cmd + 16)
    vertexOffset := loadI32 m (cmd + 20)
    firstInstance := loadU32 m (cmd + 24)
    reserved := loadU32 m (cmd + 28) }

/-- Modelled from the spec: the fixed payload of the uniform block record at offset `cmd`
(argument name hash, backing resource handle, offset, byte range). -/
def decodeSetArgumentUbo (m : Mem) (cmd : Nat) : SetArgumentUboInfo :=
  { argument_name_id := loadU64 m (cmd + 8)
    buffer_id := loadU64 m (cmd + 16)
    offset := loadU32 m (cmd + 24)
    range := loadU32 m (cmd + 28) }

/-- Modelled from the spec: the fixed payload of the write-to-buffer record at offset `cmd`
(source handle and offset, destination handle and offset, byte count). -/
def decodeWriteToBuffer (m : Mem) (cmd : Nat) : WriteToBufferInfo :=
  { src_buffer_id := loadU64 m (cmd + 8)
    dst_buffer_id := loadU64 m (cmd + 16)
    src_offset := loadU64 m (cmd + 24)
    dst_offset := loadU64 m (cmd + 32)
    numBytes := loadU64 m (cmd + 40) }

/-- Modelled from the spec: the fixed payload of the write-to-image record at offset `cmd`
(staging source handle, destination handle, staged byte count, region pointer and count). -/
def decodeWriteToImage (m : Mem) (cmd : Nat) : WriteToImageInfo :=
  { src_buffer_id := loadU64 m (cmd + 8)
    dst_image_id := loadU64 m (cmd + 16)
    numBytes := loadU64 m (cmd + 24)
    pRegions := loadU64 m (cmd + 32)
    numRegions := loadU32 m (cmd + 40) }

/-- Modelled from the spec: the bind-vertex-buffers record at offset `cmd`: the fixed
payload, then `bindingCount` handles read immediately after it, then `bindingCount`
64 bit offsets read immediately after the handles. -/
def decodeBindVertexBuffers (m : Mem) (cmd : Nat) : BindVertexBuffersInfo :=
  let bindingCount := loadU32 m (cmd + 12)
  let dataBuffers := cmd + sizeofCommand .eBindVertexBuffers
  let dataOffsets := dataBuffers + sizeof_le_resource_handle_t * bindingCount
  { firstBinding := loadU32 m (cmd + 8)
    bindingCount := bindingCount
    buffers := (List.range bindingCount).map
      (fun k => loadU64 m (dataBuffers + sizeof_le_resource_handle_t * k))
    offsets := (List.range bindingCount).map
      (fun k => loadU64 m (dataOffsets + sizeof_uint64_t * k)) }

/-! ## The allocators as the encoder calls them -/

/-- Modelled from the spec: the two borrowed allocators at their interface
(`allocate(allocator, numBytes)`, `get_resource_id(allocator)`, `map(allocator, numBytes)`):
what each answers to a request for a given number of bytes, `none` for failure. -/
structure Backend where
  allocate : Nat → Option Allocation
  get_le_resource_id : Nat
  map : Nat → Option Mapping

/-- The call `cbe_set_vertex_data` makes on the scratch allocator:
`le_allocator_linear_i.allocate( self->pAllocator, numBytes, &memAddr, &bufferOffset )`. -/
def Backend.set_vertex_data (be : Backend) (self : le_command_buffer_encoder_o) (host : Mem)
    (data : List Nat) (numBytes bindingIndex : Nat) : le_command_buffer_encoder_o × Mem :=
  cbe_set_vertex_data self host (be.allocate numBytes) be.get_le_resource_id data numBytes
    bindingIndex

/-- The call `cbe_write_to_buffer` makes on the staging allocator:
`le_staging_allocator_i.map( self->stagingAllocator, numBytes, &memAddr, &srcResourceId )`. -/
def Backend.write_to_buffer (be : Backend) (self : le_command_buffer_encoder_o) (host : Mem)
    (resourceId offset : Nat) (data : List Nat) (numBytes : Nat) :
    le_command_buffer_encoder_o × Mem :=
  cbe_write_to_buffer self host (be.map numBytes) resourceId offset data numBytes

/-! ## The sizes of a mip chain as the specification words them -/

/-- Modelled from the spec: the standard mip size halving series, `d_0 = d` and
`d_(k+1) = max(1, floor(d_k / 2))`. -/
def chainExtent (d : Nat) : Nat → Nat
  | 0 => d
  | k + 1 => max 1 (chainExtent d k / 2)

/-- Modelled from the spec: the number of texels of the first `L` levels of the chain,
the sum over `k < L` of `w_k * h_k`. -/
def chainTexels (w h : Nat) : Nat → Nat
  | 0 => 0
  | L + 1 => chainTexels w h L + chainExtent w L * chainExtent h L

/-- The listed 8 bit four channel formats. -/
def formats8 : List Format :=
  [ .eR8G8B8A8Unorm, .eR8G8B8A8Snorm, .eR8G8B8A8Uscaled, .eR8G8B8A8Sscaled, .eR8G8B8A8Uint,
    .eR8G8B8A8Sint, .eR8G8B8A8Srgb, .eB8G8R8A8Unorm, .eB8G8R8A8Snorm, .eB8G8R8A8Uscaled,
    .eB8G8R8A8Sscaled, .eB8G8R8A8Uint, .eB8G8R8A8Sint, .eB8G8R8A8Srgb ]

/-- The listed 16 bit four channel formats. -/
def formats16 : List Format :=
  [ .eR16G16B16A16Unorm, .eR16G16B16A16Snorm, .eR16G16B16A16Uscaled, .eR16G16B16A16Sscaled,
    .eR16G16B16A16Uint, .eR16G16B16A16Sint, .eR16G16B16A16Sfloat ]

/-- A backend whose allocators always succeed. -/
def exampleBackend : Backend :=
  { allocate := fun _ => some ⟨1000, 256⟩
    get_le_resource_id := 77
    map := fun _ => some ⟨2000, 88⟩ }

/-- The call is a draw call. -/
def Call.isDraw : Call → Prop
  | .draw _ _ _ _ => True
  | _ => False

/-! ## The two halving rules -/

/-- The step of the budget loop of `getNumBytesRequiredForMipchain`:
`width > 2 ? width >> 1 : 1`. -/
def budgetStep (d : Nat) : Nat := if d > 2 then d >>> 1 else 1

/-- The step of `generate_mipmap`: `nSrcWidth / 2`, replaced by 1 when that is `<= 0`. -/
def generatorStep (d : Nat) : Nat := if d / 2 ≤ 0 then 1 else d / 2

/-- A source level at address 0 whose texel `(0, 0)` has green value 8. -/
def wrapLevelGreen : Mem := fun i => if i = 1 then 8 else 0


/-- The pixel data of a one by one image whose four channels are all 200. -/
def tinyImageData : List Nat := [200, 200, 200, 200]

/-- Staging memory that is 0 everywhere except at byte 8, which holds 100. -/
def strayByteMem : Mem := fun i => if i = 8 then 100 else 0


/-- State of the region loop of `cbe_write_to_image` after `j` executions of its body,
started in state `s`. -/
def regionLoopAfter (regions_begin memAddr : Nat) (s : RegionLoop) (j : Nat) : RegionLoop :=
  (regionLoopBody regions_begin memAddr)^[j] s

/-! ## Memory lemmas -/

theorem loadLE_congr {m m1 : Mem} (a w : Nat)
    (h : ∀ i, a ≤ i → i < a + w → m i = m1 i) : loadLE m a w = loadLE m1 a w := by
  induction w generalizing a with
  | zero => rfl
  | succ w ih =>
    simp only [loadLE]
    rw [h a (le_refl _) (by omega), ih (a + 1) (fun i h1 h2 => h i (by omega) (by omega))]

theorem loadLE_lt (m : Mem) (a w : Nat) : loadLE m a w < 256 ^ w := by
  induction w generalizing a with
  | zero => simp [loadLE]
  | succ w ih =>
    simp only [loadLE]
    have h1 := ih (a + 1)
    have h2 : m a % 256 < 256 := Nat.mod_lt _ (by norm_num)
    rw [pow_succ]
    nlinarith

theorem loadLE_storeLE_same (m : Mem) (a w v : Nat) :
    loadLE (storeLE m a w v) a w = v % 256 ^ w := by
  induction w generalizing a v with
  | zero => simp [loadLE, Nat.mod_one]
  | succ w ih =>
    simp only [loadLE]
    have h1 : storeLE m a (w + 1) v a = v % 256 := by simp [storeLE]
    have h2 : loadLE (storeLE m a (w + 1) v) (a + 1) w
        = loadLE (storeLE m (a + 1) w (v / 256)) (a + 1) w := by
      apply loadLE_congr
      intro i hi1 hi2
      simp only [storeLE]
      rw [if_pos (by omega), if_pos (by omega)]
      have h3 : i - a = (i - (a + 1)) + 1 := by omega
      rw [h3, pow_succ, Nat.div_div_eq_div_mul, mul_comm]
    rw [h1, h2, ih, Nat.mod_mod, pow_succ', Nat.mod_mul]

theorem loadLE_storeLE_disj (m : Mem) (a w v b w1 : Nat) (h : b + w1 ≤ a ∨ a + w ≤ b) :
    loadLE (storeLE m a w v) b w1 = loadLE m b w1 := by
  apply loadLE_congr
  intro i h1 h2
  simp only [storeLE]
  rw [if_neg (by omega)]

theorem loadLE_memcpy_disj (m : Mem) (dst : Nat) (src : List Nat) (n b w1 : Nat)
    (h : b + w1 ≤ dst ∨ dst + n ≤ b) :
    loadLE (memcpy m dst src n) b w1 = loadLE m b w1 := by
  apply loadLE_congr
  intro i h1 h2
  simp only [memcpy]
  rw [if_neg (by omega)]

theorem storeLE_of_lt (m : Mem) (a w v i : Nat) (h : i < a) : storeLE m a w v i = m i := by
  simp only [storeLE]
  rw [if_neg (by omega)]

theorem memcpy_of_lt (m : Mem) (dst : Nat) (src : List Nat) (n i : Nat) (h : i < dst) :
    memcpy m dst src n i = m i := by
  simp only [memcpy]
  rw [if_neg (by omega)]

theorem storeByte_of_lt (m : Mem) (a v i : Nat) (h : i < a) : storeByte m a v i = m i := by
  simp only [storeByte]
  rw [if_neg (by omega)]

/-- A scalar read inside a copied block reads the bytes of the source. -/
theorem loadLE_memcpy_inside (m : Mem) (dst : Nat) (src : List Nat) (n k w : Nat)
    (h : k + w ≤ n) :
    loadLE (memcpy m dst src n) (dst + k) w = loadLE (fun i => src.getD i 0) k w := by
  induction w generalizing k with
  | zero => rfl
  | succ w ih =>
    simp only [loadLE]
    have h1 : memcpy m dst src n (dst + k) = src.getD k 0 % 256 := by
      simp only [memcpy]
      rw [if_pos (by omega)]
      simp
    rw [h1, Nat.mod_mod, Nat.add_assoc, ih (k + 1) (by omega)]

/-! ## What one call does to the encoder -/

/-- The region loop only stores at or above `regions_begin + 16`. -/
theorem regionLoop_frame (rb ma L : Nat) (fuel : Nat) (s l : RegionLoop)
    (h : regionLoop rb ma L fuel s = some l) (hr : 1 ≤ s.region) :
    (∀ i, i < rb + 16 → l.arena i = s.arena i) ∧ s.region ≤ l.region ∧ l.region = L := by
  induction fuel generalizing s with
  | zero =>
    unfold regionLoop at h
    split at h
    · cases h
      exact ⟨fun _ _ => rfl, le_refl _, by assumption⟩
    · cases h
  | succ fuel ih =>
    unfold regionLoop at h
    split at h
    · cases h
      exact ⟨fun _ _ => rfl, le_refl _, by assumption⟩
    · have h1 := ih (regionLoopBody rb ma s) h (by simp only [regionLoopBody]; omega)
      refine ⟨fun i hi => ?_, ?_, h1.2.2⟩
      · rw [h1.1 i hi]
        simp only [regionLoopBody, storeU32, sizeof_ImageWriteRegion]
        rw [storeLE_of_lt _ _ _ _ _ (by omega), storeLE_of_lt _ _ _ _ _ (by omega),
          storeLE_of_lt _ _ _ _ _ (by omega), storeLE_of_lt _ _ _ _ _ (by omega)]
      · have := h1.2.1
        simp only [regionLoopBody] at this
        omega

theorem regionLoop_loadLE (rb ma L : Nat) (fuel : Nat) (s l : RegionLoop)
    (h : regionLoop rb ma L fuel s = some l) (hr : 1 ≤ s.region) (b w : Nat)
    (hb : b + w ≤ rb + 16) : loadLE l.arena b w = loadLE s.arena b w := by
  apply loadLE_congr
  intro i _ h2
  exact (regionLoop_frame rb ma L fuel s l h hr).1 i (by omega)

/-- A call whose allocation succeeds appends one record: the record count grows by one,
the byte counter by the size field of the header written at the old cursor, and that
header carries the type tag of the call and, as size, header plus fixed payload plus
trailing array. -/
theorem Call.run_emits (c : Call) (s s1 : le_command_buffer_encoder_o × Mem)
    (h : c.run s = some s1) (ha : c.allocated = true) (hf : c.recordBytes < 2 ^ 32) :
    s1.1.mCommandCount = s.1.mCommandCount + 1
    ∧ s1.1.mCommandStreamSize
        = s.1.mCommandStreamSize + headerSizeAt s1.1.mCommandStream s.1.mCommandStreamSize
    ∧ headerSizeAt s1.1.mCommandStream s.1.mCommandStreamSize = c.recordBytes
    ∧ headerTypeAt s1.1.mCommandStream s.1.mCommandStreamSize = c.kind.tag := by
  cases c with
  | set_line_width lineWidth =>
    simp only [Call.run, Option.some.injEq] at h
    subst h
    simp (disch := omega) [cbe_set_line_width, EMPLACE_CMD, headerSizeAt, headerTypeAt, loadU32,
      storeU32, loadLE_storeLE_disj, loadLE_storeLE_same, sizeofCommand, CommandType.tag,
      Call.recordBytes, Call.kind, Call.trailingBytes]
  | draw a b c d =>
    simp only [Call.run, Option.some.injEq] at h
    subst h
    simp (disch := omega) [cbe_draw, EMPLACE_CMD, headerSizeAt, headerTypeAt, loadU32,
      storeU32, loadLE_storeLE_disj, loadLE_storeLE_same, sizeofCommand, CommandType.tag,
      Call.recordBytes, Call.kind, Call.trailingBytes]
  | draw_indexed a b c d e =>
    simp only [Call.run, Option.some.injEq] at h
    subst h
    simp (disch := omega) [cbe_draw_indexed, EMPLACE_CMD, headerSizeAt, headerTypeAt, loadU32,
      storeU32, loadLE_storeLE_disj, loadLE_storeLE_same, sizeofCommand, CommandType.tag,
      Call.recordBytes, Call.kind, Call.trailingBytes]
  | set_viewport a n vs =>
    simp only [Call.run, Option.some.injEq] at h
    subst h
    simp only [Call.recordBytes, Call.kind, Call.trailingBytes, sizeofCommand,
      sizeof_Viewport] at hf
    simp (disch := omega) [cbe_set_viewport, EMPLACE_CMD, headerSizeAt, headerTypeAt, loadU32,
      storeU32, loadLE_storeLE_disj, loadLE_storeLE_same, loadLE_memcpy_disj, sizeofCommand,
      CommandType.tag, Call.recordBytes, Call.kind, Call.trailingBytes, sizeof_Viewport]
    omega
  | set_scissor a n vs =>
    simp only [Call.run, Option.some.injEq] at h
    subst h
    simp only [Call.recordBytes, Call.kind, Call.trailingBytes, sizeofCommand,
      sizeof_Rect2D] at hf
    simp (disch := omega) [cbe_set_scissor, EMPLACE_CMD, headerSizeAt, headerTypeAt, loadU32,
      storeU32, loadLE_storeLE_disj, loadLE_storeLE_same, loadLE_memcpy_disj, sizeofCommand,
      CommandType.tag, Call.recordBytes, Call.kind, Call.trailingBytes, sizeof_Rect2D]
    omega
  | bind_vertex_buffers a n bs os =>
    simp only [Call.run, Option.some.injEq] at h
    subst h
    simp only [Call.recordBytes, Call.kind, Call.trailingBytes, sizeofCommand,
      sizeof_le_resource_handle_t, sizeof_uint64_t] at hf
    simp (disch := omega) [cbe_bind_vertex_buffers, EMPLACE_CMD, headerSizeAt, headerTypeAt,
      loadU32, storeU32, storeU64, loadLE_storeLE_disj, loadLE_storeLE_same, loadLE_memcpy_disj,
      sizeofCommand, CommandType.tag, Call.recordBytes, Call.kind, Call.trailingBytes,
      sizeof_le_resource_handle_t, sizeof_uint64_t]
    omega
  | bind_index_buffer a b c =>
    simp only [Call.run, Option.some.injEq] at h
    subst h
    simp (disch := omega) [cbe_bind_index_buffer, EMPLACE_CMD, headerSizeAt, headerTypeAt,
      loadU32, storeU32, storeU64, loadLE_storeLE_disj, loadLE_storeLE_same, sizeofCommand,
      CommandType.tag, Call.recordBytes, Call.kind, Call.trailingBytes]
  | set_index_data alloc id data n t =>
    cases alloc with
    | none => simp [Call.allocated] at ha
    | some al =>
      simp only [Call.run, Option.some.injEq] at h
      subst h
      simp (disch := omega) [cbe_set_index_data, cbe_bind_index_buffer, EMPLACE_CMD,
        headerSizeAt, headerTypeAt,
        loadU32, storeU32, storeU64, loadLE_storeLE_disj, loadLE_storeLE_same, sizeofCommand,
        CommandType.tag, Call.recordBytes, Call.kind, Call.trailingBytes]
  | set_vertex_data alloc id data n t =>
    cases alloc with
    | none => simp [Call.allocated] at ha
    | some al =>
      simp only [Call.run, Option.some.injEq] at h
      subst h
      simp (disch := omega) [cbe_set_vertex_data, cbe_bind_vertex_buffers, EMPLACE_CMD,
        headerSizeAt, headerTypeAt,
        loadU32, storeU32, storeU64, loadLE_storeLE_disj, loadLE_storeLE_same,
        loadLE_memcpy_disj, sizeofCommand, CommandType.tag, Call.recordBytes, Call.kind,
        Call.trailingBytes, sizeof_le_resource_handle_t, sizeof_uint64_t]
  | set_argument_ubo_data alloc id name data n =>
    cases alloc with
    | none => simp [Call.allocated] at ha
    | some al =>
      simp only [Call.run, Option.some.injEq] at h
      subst h
      simp (disch := omega) [cbe_set_argument_ubo_data, EMPLACE_CMD,
        headerSizeAt, headerTypeAt,
        loadU32, storeU32, storeU64, loadLE_storeLE_disj, loadLE_storeLE_same,
        sizeofCommand, CommandType.tag, Call.recordBytes, Call.kind,
        Call.trailingBytes]
  | set_argument_texture a b c =>
    simp only [Call.run, Option.some.injEq] at h
    subst h
    simp (disch := omega) [cbe_set_argument_texture, EMPLACE_CMD, headerSizeAt, headerTypeAt,
      loadU32, storeU32, storeU64, loadLE_storeLE_disj, loadLE_storeLE_same, sizeofCommand,
      CommandType.tag, Call.recordBytes, Call.kind, Call.trailingBytes]
  | bind_graphics_pipeline a =>
    simp only [Call.run, Option.some.injEq] at h
    subst h
    simp (disch := omega) [cbe_bind_pipeline, EMPLACE_CMD, headerSizeAt, headerTypeAt,
      loadU32, storeU32, storeU64, loadLE_storeLE_disj, loadLE_storeLE_same, sizeofCommand,
      CommandType.tag, Call.recordBytes, Call.kind, Call.trailingBytes]
  | write_to_buffer map id off data n =>
    cases map with
    | none => simp [Call.allocated] at ha
    | some al =>
      simp only [Call.run, Option.some.injEq] at h
      subst h
      simp (disch := omega) [cbe_write_to_buffer, EMPLACE_CMD,
        headerSizeAt, headerTypeAt,
        loadU32, storeU32, storeU64, loadLE_storeLE_disj, loadLE_storeLE_same,
        sizeofCommand, CommandType.tag, Call.recordBytes, Call.kind,
        Call.trailingBytes]
  | write_to_image fuel map id info data n =>
    cases map with
    | none => simp [Call.allocated] at ha
    | some al =>
      simp only [Call.run, cbe_write_to_image] at h
      split at h
      · cases h
      · split at h
        · cases h
        · split at h
          · cases h
          · rename_i nb hnb l hl
            simp only [Option.some.injEq] at h
            subst h
            simp only [Call.recordBytes, Call.kind, Call.trailingBytes, sizeofCommand,
              sizeof_ImageWriteRegion] at hf
            have hh := fun b w hb =>
              regionLoop_loadLE _ _ _ _ _ _ hl (by simp) b w hb
            simp (disch := omega) [EMPLACE_CMD, headerSizeAt, headerTypeAt,
              loadU32, storeU32, storeU64, loadLE_storeLE_disj, loadLE_storeLE_same,
              sizeofCommand, CommandType.tag, Call.recordBytes, Call.kind,
              Call.trailingBytes, sizeof_ImageWriteRegion, hh, u64]
            omega

/-- No call stores below the write cursor. -/
theorem Call.run_frame (c : Call) (s s1 : le_command_buffer_encoder_o × Mem)
    (h : c.run s = some s1) (i : Nat) (hi : i < s.1.mCommandStreamSize) :
    s1.1.mCommandStream i = s.1.mCommandStream i := by
  cases c with
  | write_to_image fuel map id info data n =>
    simp only [Call.run, cbe_write_to_image] at h
    split at h
    · cases h
    · split at h
      · cases h
      · split at h
        · simp only [Option.some.injEq] at h
          subst h
          simp (disch := omega) [EMPLACE_CMD, storeU32, storeLE_of_lt]
        · split at h
          · cases h
          · rename_i nb hnb al l hl
            simp only [Option.some.injEq] at h
            subst h
            have hh := (regionLoop_frame _ _ _ _ _ _ hl (by simp)).1 i (by omega)
            simp (disch := omega) [EMPLACE_CMD, storeU32, storeU64, storeLE_of_lt, hh]
  | set_index_data alloc id data n t =>
    simp only [Call.run, Option.some.injEq] at h
    subst h
    cases alloc <;>
      simp (disch := omega) [cbe_set_index_data, cbe_bind_index_buffer, EMPLACE_CMD, storeU32,
        storeU64, storeLE_of_lt]
  | set_vertex_data alloc id data n t =>
    simp only [Call.run, Option.some.injEq] at h
    subst h
    cases alloc <;>
      simp (disch := omega) [cbe_set_vertex_data, cbe_bind_vertex_buffers, EMPLACE_CMD,
        storeU32, storeU64, storeLE_of_lt, memcpy_of_lt]
  | set_argument_ubo_data alloc id name data n =>
    simp only [Call.run, Option.some.injEq] at h
    subst h
    cases alloc <;>
      simp (disch := omega) [cbe_set_argument_ubo_data, EMPLACE_CMD, storeU32, storeU64,
        storeLE_of_lt]
  | write_to_buffer map id off data n =>
    simp only [Call.run, Option.some.injEq] at h
    subst h
    cases map <;>
      simp (disch := omega) [cbe_write_to_buffer, EMPLACE_CMD, storeU32, storeU64,
        storeLE_of_lt]
  | _ =>
    simp only [Call.run, Option.some.injEq] at h
    subst h
    simp (disch := omega) [cbe_set_line_width, cbe_draw, cbe_draw_indexed, cbe_set_viewport,
      cbe_set_scissor, cbe_bind_vertex_buffers, cbe_bind_index_buffer, cbe_set_argument_texture,
      cbe_bind_pipeline, EMPLACE_CMD, storeU32, storeU64, storeLE_of_lt, memcpy_of_lt]

/-- A call whose allocation fails leaves both counters as they were. -/
theorem Call.run_dropped (c : Call) (s s1 : le_command_buffer_encoder_o × Mem)
    (h : c.run s = some s1) (ha : c.allocated = false) :
    s1.1.mCommandCount = s.1.mCommandCount
    ∧ s1.1.mCommandStreamSize = s.1.mCommandStreamSize := by
  cases c with
  | write_to_image fuel map id info data n =>
    cases map with
    | some al => simp [Call.allocated] at ha
    | none =>
      simp only [Call.run, cbe_write_to_image] at h
      split at h
      · cases h
      · split at h
        · cases h
        · simp only [Option.some.injEq] at h
          subst h
          exact ⟨rfl, rfl⟩
  | set_index_data alloc id data n t =>
    cases alloc with
    | some al => simp [Call.allocated] at ha
    | none =>
      simp only [Call.run, Option.some.injEq] at h
      subst h
      exact ⟨rfl, rfl⟩
  | set_vertex_data alloc id data n t =>
    cases alloc with
    | some al => simp [Call.allocated] at ha
    | none =>
      simp only [Call.run, Option.some.injEq] at h
      subst h
      exact ⟨rfl, rfl⟩
  | set_argument_ubo_data alloc id name data n =>
    cases alloc with
    | some al => simp [Call.allocated] at ha
    | none =>
      simp only [Call.run, Option.some.injEq] at h
      subst h
      exact ⟨rfl, rfl⟩
  | write_to_buffer map id off data n =>
    cases map with
    | some al => simp [Call.allocated] at ha
    | none =>
      simp only [Call.run, Option.some.injEq] at h
      subst h
      exact ⟨rfl, rfl⟩
  | _ => simp [Call.allocated] at ha

/-! ## Well formed streams -/

theorem sizeofCommand_ge (t : CommandType) : 16 ≤ sizeofCommand t := by
  cases t <;> simp [sizeofCommand]

theorem tag_injective (t u : CommandType) (h : t.tag = u.tag) : t = u := by
  cases t <;> cases u <;> simp [CommandType.tag] at h <;> rfl

theorem StreamOK_le (m : Mem) (off n e : Nat) (h : StreamOK m off n e) : off ≤ e := by
  induction n generalizing off with
  | zero => simp only [StreamOK] at h; omega
  | succ n ih =>
    simp only [StreamOK] at h
    have := ih _ h.2
    omega

theorem StreamOK_first (m : Mem) (off n e : Nat) (h : StreamOK m off (n + 1) e) :
    off + headerSizeAt m off ≤ e ∧ 16 ≤ headerSizeAt m off := by
  simp only [StreamOK] at h
  obtain ⟨⟨t, _, h2⟩, h3⟩ := h
  have := StreamOK_le _ _ _ _ h3
  have := sizeofCommand_ge t
  omega

theorem header_agree (m m1 : Mem) (off e : Nat) (hag : ∀ i, i < e → m1 i = m i)
    (h : off + 8 ≤ e) :
    headerSizeAt m1 off = headerSizeAt m off ∧ headerTypeAt m1 off = headerTypeAt m off := by
  constructor
  · exact loadLE_congr _ _ (fun i _ h2 => hag i (by omega))
  · exact loadLE_congr _ _ (fun i _ h2 => hag i (by omega))

theorem StreamOK_agree (m m1 : Mem) (off n e : Nat) (hag : ∀ i, i < e → m1 i = m i)
    (h : StreamOK m off n e) : StreamOK m1 off n e := by
  induction n generalizing off with
  | zero => exact h
  | succ n ih =>
    have h1 := StreamOK_first _ _ _ _ h
    have h2 := header_agree m m1 off e hag (by omega)
    simp only [StreamOK] at h ⊢
    rw [h2.1, h2.2]
    exact ⟨h.1, ih _ h.2⟩

theorem StreamOK_snoc (m : Mem) (off n e : Nat) (t : CommandType)
    (h : StreamOK m off n e) (ht : headerTypeAt m e = t.tag)
    (hs : sizeofCommand t ≤ headerSizeAt m e) :
    StreamOK m off (n + 1) (e + headerSizeAt m e) := by
  induction n generalizing off with
  | zero =>
    simp only [StreamOK] at h
    subst h
    exact ⟨⟨t, ht, hs⟩, rfl⟩
  | succ n ih =>
    simp only [StreamOK] at h
    exact ⟨h.1, ih _ h.2⟩

theorem StreamOK_walk (m : Mem) (off n e : Nat) (h : StreamOK m off n e) :
    walk m off n = e := by
  induction n generalizing off with
  | zero => simp only [StreamOK] at h; simpa [walk] using h
  | succ n ih =>
    simp only [StreamOK] at h
    simpa [walk] using ih _ h.2

theorem StreamOK_walk_lt (m : Mem) (off n e : Nat) (h : StreamOK m off n e) (k : Nat)
    (hk : k < n) : walk m off k < e := by
  induction n generalizing off k with
  | zero => omega
  | succ n ih =>
    have h1 := StreamOK_first _ _ _ _ h
    cases k with
    | zero => simp only [walk]; omega
    | succ k =>
      simp only [StreamOK] at h
      simpa [walk] using ih _ h.2 k (by omega)

theorem StreamOK_sum (m : Mem) (off n e : Nat) (h : StreamOK m off n e) :
    off + (declaredSizes m off n).sum = e := by
  induction n generalizing off with
  | zero => simp only [StreamOK] at h; simpa [declaredSizes] using h
  | succ n ih =>
    simp only [StreamOK] at h
    have := ih _ h.2
    simp only [declaredSizes, List.sum_cons]
    omega

/-- A call that succeeds and fits extends a well formed stream by one record. -/
theorem Call.run_StreamOK (c : Call) (s s1 : le_command_buffer_encoder_o × Mem)
    (h : c.run s = some s1) (ha : c.allocated = true) (hf1 : c.recordBytes < 2 ^ 32)
    (hs : StreamOK s.1.mCommandStream 0 s.1.mCommandCount s.1.mCommandStreamSize) :
    StreamOK s1.1.mCommandStream 0 s1.1.mCommandCount s1.1.mCommandStreamSize := by
  obtain ⟨h1, h2, h3, h4⟩ := Call.run_emits c s s1 h ha hf1
  rw [h1, h2]
  apply StreamOK_snoc _ _ _ _ c.kind _ h4
  · rw [h3]
    simp only [Call.recordBytes]
    omega
  · exact StreamOK_agree _ _ _ _ _ (fun i hi => Call.run_frame c s s1 h i hi) hs

/-- A sequence of calls that all succeed and fit runs to the end, emits one record per
call and keeps the stream well formed. -/
theorem runCalls_StreamOK (cs : List Call) (s : le_command_buffer_encoder_o × Mem)
    (hok : allSucceed cs s)
    (hs : StreamOK s.1.mCommandStream 0 s.1.mCommandCount s.1.mCommandStreamSize) :
    ∃ s1, runCalls cs s = some s1
      ∧ s1.1.mCommandCount = s.1.mCommandCount + cs.length
      ∧ StreamOK s1.1.mCommandStream 0 s1.1.mCommandCount s1.1.mCommandStreamSize := by
  induction cs generalizing s with
  | nil => exact ⟨s, rfl, rfl, hs⟩
  | cons c cs ih =>
    obtain ⟨ha, hf, s1, hr, hrest⟩ := hok
    have hf0 : c.recordBytes < 2 ^ 32 := by
      simp only [Call.fits, arenaCapacity] at hf
      omega
    have h1 := Call.run_StreamOK c s s1 hr ha hf0 hs
    obtain ⟨s2, h2, h3, h4⟩ := ih s1 hrest h1
    refine ⟨s2, ?_, ?_, h4⟩
    · simp only [runCalls, hr, h2]
    · have hf1 : c.recordBytes < 2 ^ 32 := by
        simp only [Call.fits, arenaCapacity] at hf
        omega
      have := (Call.run_emits c s s1 hr ha hf1).1
      simp only [List.length_cons]
      omega

/-! ## Decoding a well formed stream -/

theorem decodeRecord_agree (m m1 : Mem) (off e : Nat) (hag : ∀ i, i < e → m1 i = m i)
    (ht : ∃ t : CommandType, headerTypeAt m off = t.tag ∧ sizeofCommand t ≤ headerSizeAt m off)
    (hle : off + headerSizeAt m off ≤ e) : decodeRecord m1 off = decodeRecord m off := by
  obtain ⟨t, ht1, ht2⟩ := ht
  have h16 := sizeofCommand_ge t
  have hh := header_agree m m1 off e hag (by omega)
  unfold decodeRecord
  rw [hh.2]
  by_cases h1 : headerTypeAt m off = CommandType.eDraw.tag
  · have : t = CommandType.eDraw := tag_injective _ _ (by rw [← ht1, h1])
    subst this
    simp only [sizeofCommand] at ht2
    simp only [h1, if_true, loadU32]
    rw [loadLE_congr (off + 8) 4 (fun i _ _ => hag i (by omega)),
      loadLE_congr (off + 12) 4 (fun i _ _ => hag i (by omega)),
      loadLE_congr (off + 16) 4 (fun i _ _ => hag i (by omega)),
      loadLE_congr (off + 20) 4 (fun i _ _ => hag i (by omega))]
  · by_cases h2 : headerTypeAt m off = CommandType.eBindPipeline.tag
    · rw [if_neg h1, if_neg h1, if_pos h2, if_pos h2]
      simp only [loadU64]
      rw [loadLE_congr (off + 8) 8 (fun i _ _ => hag i (by omega))]
    · simp only [h1, h2, if_false]

theorem decodeStream_agree (m m1 : Mem) (off n e : Nat) (hag : ∀ i, i < e → m1 i = m i)
    (h : StreamOK m off n e) : decodeStream m1 off n = decodeStream m off n := by
  induction n generalizing off with
  | zero => rfl
  | succ n ih =>
    have h1 := StreamOK_first _ _ _ _ h
    have h2 := header_agree m m1 off e hag (by omega)
    simp only [StreamOK] at h
    simp only [decodeStream]
    rw [h2.1, ih _ h.2, decodeRecord_agree m m1 off e hag h.1 h1.1]

theorem decodeStream_snoc (m : Mem) (off n e : Nat) (h : StreamOK m off n e) :
    decodeStream m off (n + 1) = decodeStream m off n ++ [decodeRecord m e] := by
  induction n generalizing off with
  | zero =>
    simp only [StreamOK] at h
    subst h
    rfl
  | succ n ih =>
    simp only [StreamOK] at h
    have := ih _ h.2
    simp only [decodeStream, List.cons_append] at this ⊢
    rw [this]

theorem isBindOrDraw_allocated (c : Call) (h : c.isBindOrDraw) :
    c.allocated = true ∧ c.recordBytes < 2 ^ 32 := by
  cases c <;> simp [Call.isBindOrDraw] at h <;>
    simp [Call.allocated, Call.recordBytes, Call.kind, Call.trailingBytes, sizeofCommand]

theorem isBindOrDraw_run (c : Call) (s : le_command_buffer_encoder_o × Mem)
    (h : c.isBindOrDraw) :
    ∃ s1, c.run s = some s1 ∧ decodeRecord s1.1.mCommandStream s.1.mCommandStreamSize = c.toRecord := by
  cases c with
  | bind_graphics_pipeline psoHash =>
    simp only [Call.isBindOrDraw] at h
    refine ⟨_, rfl, ?_⟩
    simp (disch := omega) [decodeRecord, cbe_bind_pipeline, EMPLACE_CMD, headerTypeAt, loadU32,
      loadU64, storeU32, storeU64, loadLE_storeLE_disj, loadLE_storeLE_same, sizeofCommand,
      CommandType.tag, Call.toRecord]
    omega
  | draw a b c d =>
    simp only [Call.isBindOrDraw] at h
    refine ⟨_, rfl, ?_⟩
    simp (disch := omega) [decodeRecord, cbe_draw, EMPLACE_CMD, headerTypeAt, loadU32,
      loadU64, storeU32, storeU64, loadLE_storeLE_disj, loadLE_storeLE_same, sizeofCommand,
      CommandType.tag, Call.toRecord]
    omega
  | _ => simp [Call.isBindOrDraw] at h

theorem runCalls_decode (cs : List Call) (s : le_command_buffer_encoder_o × Mem)
    (hpd : ∀ c, c ∈ cs → c.isBindOrDraw)
    (hs : StreamOK s.1.mCommandStream 0 s.1.mCommandCount s.1.mCommandStreamSize) :
    ∃ s1, runCalls cs s = some s1
      ∧ s1.1.mCommandCount = s.1.mCommandCount + cs.length
      ∧ StreamOK s1.1.mCommandStream 0 s1.1.mCommandCount s1.1.mCommandStreamSize
      ∧ decodeStream s1.1.mCommandStream 0 s1.1.mCommandCount
          = decodeStream s.1.mCommandStream 0 s.1.mCommandCount ++ cs.map Call.toRecord := by
  induction cs generalizing s with
  | nil => exact ⟨s, rfl, rfl, hs, by simp⟩
  | cons c cs ih =>
    have hc := hpd c (List.mem_cons_self _ _)
    obtain ⟨ha, hb⟩ := isBindOrDraw_allocated c hc
    obtain ⟨s1, hr, hd⟩ := isBindOrDraw_run c s hc
    obtain ⟨e1, e2, e3, _⟩ := Call.run_emits c s s1 hr ha hb
    have hfr := fun i hi => Call.run_frame c s s1 hr i hi
    have hs1 := Call.run_StreamOK c s s1 hr ha hb hs
    obtain ⟨s2, h2, h3, h4, h5⟩ := ih s1 (fun d hd => hpd d (List.mem_cons_of_mem _ hd)) hs1
    refine ⟨s2, ?_, ?_, h4, ?_⟩
    · simp only [runCalls, hr, h2]
    · simp only [List.length_cons]
      omega
    · rw [h5, e1, decodeStream_snoc _ _ _ _ (StreamOK_agree _ _ _ _ _ hfr hs),
        decodeStream_agree _ _ _ _ _ hfr hs, hd]
      simp

/-! ## Reading back a copied viewport array -/

theorem Viewport.toBytes_length (v : Viewport) : v.toBytes.length = 24 := by
  simp [Viewport.toBytes, leBytes]

theorem flatMap_toBytes_getD (vs : List Viewport) (k j : Nat) (d : Viewport)
    (hk : k < vs.length) (hj : j < 24) :
    (vs.flatMap Viewport.toBytes).getD (24 * k + j) 0 = ((vs.getD k d).toBytes).getD j 0 := by
  induction vs generalizing k with
  | nil => simp at hk
  | cons v vs ih =>
    rw [List.flatMap_cons]
    cases k with
    | zero =>
      rw [List.getD_append _ _ _ _ (by rw [Viewport.toBytes_length]; omega)]
      simp only [Nat.mul_zero, Nat.zero_add, List.getD_cons_zero]
    | succ k =>
      rw [List.getD_append_right _ _ _ _ (by rw [Viewport.toBytes_length]; omega),
        Viewport.toBytes_length, List.getD_cons_succ]
      have h1 : 24 * (k + 1) + j - 24 = 24 * k + j := by omega
      rw [h1]
      exact ih k (by simpa using hk)

theorem loadViewport_toBytes (v : Viewport) (hv : v.Valid) :
    loadViewport (fun i => v.toBytes.getD i 0) 0 = v := by
  obtain ⟨h1, h2, h3, h4, h5, h6⟩ := hv
  cases v
  simp only [loadViewport, loadU32, loadLE, Viewport.toBytes, leBytes] at *
  simp [List.range_succ]
  omega

theorem loadLE_flatMap_toBytes (vs : List Viewport) (k j w : Nat) (d : Viewport)
    (hk : k < vs.length) (hj : j + w ≤ 24) :
    loadLE (fun i => (vs.flatMap Viewport.toBytes).getD i 0) (24 * k + j) w
      = loadLE (fun i => ((vs.getD k d).toBytes).getD i 0) j w := by
  induction w generalizing j with
  | zero => rfl
  | succ w ih =>
    simp only [loadLE]
    rw [flatMap_toBytes_getD vs k j d hk (by omega), Nat.add_assoc, ih (j + 1) (by omega)]

theorem loadViewport_memcpy (m : Mem) (dst : Nat) (vs : List Viewport) (n k : Nat)
    (d : Viewport) (hn : vs.length = n) (hk : k < n) (hv : (vs.getD k d).Valid) :
    loadViewport (memcpy m dst (vs.flatMap Viewport.toBytes) (sizeof_Viewport * n))
      (dst + sizeof_Viewport * k) = vs.getD k d := by
  have key : ∀ j, j + 4 ≤ 24 →
      loadLE (memcpy m dst (vs.flatMap Viewport.toBytes) (sizeof_Viewport * n))
        (dst + sizeof_Viewport * k + j) 4
      = loadLE (fun i => ((vs.getD k d).toBytes).getD i 0) j 4 := by
    intro j hj
    simp only [sizeof_Viewport]
    rw [Nat.add_assoc, loadLE_memcpy_inside _ _ _ _ _ _ (by omega),
      loadLE_flatMap_toBytes vs k j 4 d (by omega) (by omega)]
  have h0 := key 0 (by omega)
  rw [Nat.add_zero] at h0
  conv => rhs; rw [← loadViewport_toBytes _ hv]
  simp only [loadViewport, loadU32, key _ (show 4 + 4 ≤ 24 by omega),
    key _ (show 8 + 4 ≤ 24 by omega), key _ (show 12 + 4 ≤ 24 by omega),
    key _ (show 16 + 4 ≤ 24 by omega), key _ (show 20 + 4 ≤ 24 by omega), h0, Nat.zero_add]

/-! ## Calls whose allocation fails -/

theorem EMPLACE_CMD_absorb (self : le_command_buffer_encoder_o) (t u : CommandType) :
    EMPLACE_CMD { self with mCommandStream := EMPLACE_CMD self t } u = EMPLACE_CMD self u := by
  funext i
  simp only [EMPLACE_CMD, storeU32, storeLE]
  split_ifs <;> rfl

theorem Call.run_after_emplace (c : Call) (self : le_command_buffer_encoder_o) (host : Mem)
    (t : CommandType) (ha : c.allocated = true) :
    c.run ({ self with mCommandStream := EMPLACE_CMD self t }, host) = c.run (self, host) := by
  cases c with
  | set_index_data alloc id data n ty =>
    cases alloc with
    | none => simp [Call.allocated] at ha
    | some al =>
      simp only [Call.run, cbe_set_index_data, cbe_bind_index_buffer, EMPLACE_CMD_absorb]
  | set_vertex_data alloc id data n ty =>
    cases alloc with
    | none => simp [Call.allocated] at ha
    | some al =>
      simp only [Call.run, cbe_set_vertex_data, cbe_bind_vertex_buffers, EMPLACE_CMD_absorb]
  | set_argument_ubo_data alloc id name data n =>
    cases alloc with
    | none => simp [Call.allocated] at ha
    | some al =>
      simp only [Call.run, cbe_set_argument_ubo_data, EMPLACE_CMD_absorb]
  | write_to_buffer map id off data n =>
    cases map with
    | none => simp [Call.allocated] at ha
    | some al =>
      simp only [Call.run, cbe_write_to_buffer, EMPLACE_CMD_absorb]
  | write_to_image fuel map id info data n =>
    cases map with
    | none => simp [Call.allocated] at ha
    | some al =>
      simp only [Call.run, cbe_write_to_image, EMPLACE_CMD_absorb]
  | _ =>
    simp only [Call.run, cbe_set_line_width, cbe_draw, cbe_draw_indexed, cbe_set_viewport,
      cbe_set_scissor, cbe_bind_vertex_buffers, cbe_bind_index_buffer, cbe_set_argument_texture,
      cbe_bind_pipeline, EMPLACE_CMD_absorb]

theorem Call.run_failed_shape (c : Call) (s s1 : le_command_buffer_encoder_o × Mem)
    (h : c.run s = some s1) (ha : c.allocated = false) :
    s1 = s ∨ ∃ t, s1 = ({ s.1 with mCommandStream := EMPLACE_CMD s.1 t }, s.2) := by
  cases c with
  | write_to_image fuel map id info data n =>
    cases map with
    | some al => simp [Call.allocated] at ha
    | none =>
      simp only [Call.run, cbe_write_to_image] at h
      split at h
      · cases h
      · split at h
        · cases h
        · simp only [Option.some.injEq] at h
          exact Or.inr ⟨_, h.symm⟩
  | set_index_data alloc id data n t =>
    cases alloc with
    | some al => simp [Call.allocated] at ha
    | none =>
      simp only [Call.run, Option.some.injEq] at h
      exact Or.inl h.symm
  | set_vertex_data alloc id data n t =>
    cases alloc with
    | some al => simp [Call.allocated] at ha
    | none =>
      simp only [Call.run, Option.some.injEq] at h
      exact Or.inl h.symm
  | set_argument_ubo_data alloc id name data n =>
    cases alloc with
    | some al => simp [Call.allocated] at ha
    | none =>
      simp only [Call.run, Option.some.injEq] at h
      exact Or.inr ⟨_, h.symm⟩
  | write_to_buffer map id off data n =>
    cases map with
    | some al => simp [Call.allocated] at ha
    | none =>
      simp only [Call.run, Option.some.injEq] at h
      exact Or.inr ⟨_, h.symm⟩
  | _ => simp [Call.allocated] at ha

theorem EMPLACE_CMD_outside (self : le_command_buffer_encoder_o) (t : CommandType) (i : Nat)
    (hi : i < self.mCommandStreamSize ∨ self.mCommandStreamSize + 8 ≤ i) :
    EMPLACE_CMD self t i = self.mCommandStream i := by
  simp only [EMPLACE_CMD, storeU32, storeLE]
  rw [if_neg (by omega), if_neg (by omega)]

/-! ## The region loop of `cbe_write_to_image` -/

theorem mipExtent_pos (d k : Nat) (hd : 1 ≤ d) : 1 ≤ mipExtent d k := by
  cases k with
  | zero => exact hd
  | succ k =>
    simp only [mipExtent]
    split <;> omega

theorem mipExtent_le (d k : Nat) (hd : 1 ≤ d) : mipExtent d k ≤ d := by
  induction k with
  | zero => exact le_refl _
  | succ k ih =>
    simp only [mipExtent]
    split <;> omega

theorem mipExtent_eq (d k : Nat) (hd : 1 ≤ d) : mipExtent d k = max 1 (d / 2 ^ k) := by
  induction k with
  | zero => simp [mipExtent, hd]
  | succ k ih =>
    simp only [mipExtent]
    rw [ih, pow_succ, ← Nat.div_div_eq_div_mul]
    rcases Nat.lt_or_ge (d / 2 ^ k) 1 with h | h
    · have h0 : d / 2 ^ k = 0 := Nat.lt_one_iff.mp h
      rw [h0]
      simp
    · rw [max_eq_right h]
      split
      · rename_i h1
        have : d / 2 ^ k / 2 = 0 := by omega
        rw [this]
        simp
      · rename_i h1
        rw [max_eq_right (by omega)]

theorem regionLoop_frame2 (rb ma L : Nat) (fuel : Nat) (s l : RegionLoop)
    (h : regionLoop rb ma L fuel s = some l) (hr : 1 ≤ s.region) (i : Nat)
    (hi : i < rb + 16 * s.region ∨ rb + 16 * L ≤ i) : l.arena i = s.arena i := by
  induction fuel generalizing s with
  | zero =>
    unfold regionLoop at h
    split at h
    · cases h; rfl
    · cases h
  | succ fuel ih =>
    unfold regionLoop at h
    split at h
    · cases h; rfl
    · have h0 := regionLoop_frame rb ma L fuel _ l h (by simp only [regionLoopBody]; omega)
      have hL : s.region + 1 ≤ L := by
        have := h0.2.1
        simp only [regionLoopBody] at this
        omega
      rw [ih (regionLoopBody rb ma s) h (by simp only [regionLoopBody]; omega)
        (by simp only [regionLoopBody]; omega)]
      simp only [regionLoopBody, storeU32, storeLE, sizeof_ImageWriteRegion]
      rw [if_neg (by omega), if_neg (by omega), if_neg (by omega), if_neg (by omega)]

/-- The region loop terminates with enough fuel and writes, for every level from the
current one on, the level number and the halved extents. -/
theorem regionLoop_regions (rb ma L w h : Nat) (hL : L < 2 ^ 32) (hw : w < 2 ^ 32)
    (hh : h < 2 ^ 32) (hw1 : 1 ≤ w) (hh1 : 1 ≤ h)
    (fuel : Nat) (s : RegionLoop) (hr : 1 ≤ s.region) (hrL : s.region ≤ L)
    (hfuel : L - s.region ≤ fuel) (hlev : s.mipLevel = s.region)
    (hsw : s.srcWidth = mipExtent w (s.region - 1))
    (hsh : s.srcHeight = mipExtent h (s.region - 1)) :
    ∃ l, regionLoop rb ma L fuel s = some l
      ∧ ∀ k, s.region ≤ k → k < L →
          loadU32 l.arena (rb + 16 * k + 4) = k
          ∧ loadU32 l.arena (rb + 16 * k + 8) = mipExtent w k
          ∧ loadU32 l.arena (rb + 16 * k + 12) = mipExtent h k := by
  induction fuel generalizing s with
  | zero =>
    have : s.region = L := by omega
    refine ⟨s, by unfold regionLoop; simp [this], fun k h1 h2 => by omega⟩
  | succ fuel ih =>
    by_cases hreg : s.region = L
    · refine ⟨s, by unfold regionLoop; simp [hreg], fun k h1 h2 => by omega⟩
    · have hb1 : (regionLoopBody rb ma s).region = s.region + 1 := rfl
      have hbw : (regionLoopBody rb ma s).srcWidth = mipExtent w s.region := by
        have e : s.region = (s.region - 1) + 1 := by omega
        rw [e]
        simp only [regionLoopBody, generate_mipmap, mipExtent, ← hsw]
      have hbh : (regionLoopBody rb ma s).srcHeight = mipExtent h s.region := by
        have e : s.region = (s.region - 1) + 1 := by omega
        rw [e]
        simp only [regionLoopBody, generate_mipmap, mipExtent, ← hsh]
      have hbl : (regionLoopBody rb ma s).mipLevel = s.region + 1 := by
        simp only [regionLoopBody, u32, hlev]
        exact Nat.mod_eq_of_lt (by omega)
      obtain ⟨l, hl, hk⟩ := ih (regionLoopBody rb ma s) (by rw [hb1]; omega) (by rw [hb1]; omega)
        (by rw [hb1]; omega) (by rw [hbl, hb1]) (by rw [hb1, hbw]; simp) (by rw [hb1, hbh]; simp)
      refine ⟨l, ?_, ?_⟩
      · unfold regionLoop
        rw [if_neg hreg]
        exact hl
      · intro k h1 h2
        by_cases hk1 : k = s.region
        · subst hk1
          have hfr := fun i hi => regionLoop_frame2 rb ma L fuel _ l hl (by rw [hb1]; omega) i
            (Or.inl hi)
          rw [hb1] at hfr
          simp only [loadU32]
          rw [@loadLE_congr l.arena (regionLoopBody rb ma s).arena _ 4 (fun i _ _ => hfr i (by omega)),
            @loadLE_congr l.arena (regionLoopBody rb ma s).arena _ 4 (fun i _ _ => hfr i (by omega)),
            @loadLE_congr l.arena (regionLoopBody rb ma s).arena _ 4 (fun i _ _ => hfr i (by omega))]
          have e1 : mipExtent w s.region % 256 ^ 4 = mipExtent w s.region :=
            Nat.mod_eq_of_lt (by have := mipExtent_le w s.region hw1; omega)
          have e2 : mipExtent h s.region % 256 ^ 4 = mipExtent h s.region :=
            Nat.mod_eq_of_lt (by have := mipExtent_le h s.region hh1; omega)
          have e3 : s.region % 256 ^ 4 = s.region := Nat.mod_eq_of_lt (by omega)
          simp only [regionLoopBody] at hbw hbh
          simp only [regionLoopBody, sizeof_ImageWriteRegion, storeU32, hbw, hbh]
          simp (disch := omega) only [loadLE_storeLE_disj, loadLE_storeLE_same, hlev]
          exact ⟨e3, e1, e2⟩
        · exact hk k (by rw [hb1]; omega) h2


theorem numBytesPerTexel_ne_zero (f : Format) (b : Nat) (h : numBytesPerTexel f = some b) :
    b ≠ 0 := by
  cases f <;> simp [numBytesPerTexel] at h <;> omega

/-! ## The mip generator -/

theorem generate_mipmap_texel_apply (m : Mem) (pSrc pDst sw dw y x a : Nat) :
    generate_mipmap_texel m pSrc pDst sw dw y x a
      = if pDst + u32 (u32 (y * dw) + x) * 4 ≤ a ∧ a < pDst + u32 (u32 (y * dw) + x) * 4 + 4
        then averageChannel m pSrc (nSrcIndex sw y x)
          (a - (pDst + u32 (u32 (y * dw) + x) * 4)) % 256
        else m a := by
  simp only [generate_mipmap_texel]
  have ht : u32 (u32 (y * dw) + x) < 2 ^ 32 := Nat.mod_lt _ (by norm_num)
  have hc : ∀ c, c < 4 →
      pDst + u64 (u64 (u32 (u32 (y * dw) + x) * 4) + c)
        = pDst + u32 (u32 (y * dw) + x) * 4 + c := by
    intro c hc
    simp only [u64]
    rw [Nat.mod_eq_of_lt (show u32 (u32 (y * dw) + x) * 4 < 2 ^ 64 by omega),
      Nat.mod_eq_of_lt (show u32 (u32 (y * dw) + x) * 4 + c < 2 ^ 64 by omega), Nat.add_assoc]
  have h4 : List.range 4 = [0, 1, 2, 3] := by decide
  simp only [h4, List.foldl, List.map, List.getD_cons_zero, List.getD_cons_succ]
  rw [hc 0 (by omega), hc 1 (by omega), hc 2 (by omega), hc 3 (by omega)]
  generalize pDst + u32 (u32 (y * dw) + x) * 4 = dst
  generalize nSrcIndex sw y x = idx
  simp only [storeByte]
  by_cases h0 : a = dst + 0
  · subst h0; simp
  by_cases h1 : a = dst + 1
  · subst h1; simp
  by_cases h2 : a = dst + 2
  · subst h2; simp
  by_cases h3 : a = dst + 3
  · subst h3; simp
  rw [if_neg h3, if_neg h2, if_neg h1, if_neg h0, if_neg (by omega)]

theorem averageChannel_congr (m m1 : Mem) (pSrc : Nat) (idx : List Nat) (c : Nat)
    (h : ∀ i, i ∈ idx → m1 (pSrc + u32 (i + c)) = m (pSrc + u32 (i + c))) :
    averageChannel m1 pSrc idx c = averageChannel m pSrc idx c := by
  simp only [averageChannel, loadByte]
  congr 2
  apply List.map_congr_left
  intro i hi
  rw [h i hi]

theorem averageChannel_le (m : Mem) (pSrc : Nat) (sw y x c : Nat) :
    averageChannel m pSrc (nSrcIndex sw y x) c ≤ 255 := by
  simp only [averageChannel, nSrcIndex, loadByte, List.map, List.sum_cons, List.sum_nil]
  omega

theorem texel_index_lt (dw dh y x : Nat) (hy : y < dh) (hx : x < dw) :
    y * dw + x < dw * dh := by
  have h1 : (y + 1) * dw ≤ dh * dw := Nat.mul_le_mul_right _ hy
  rw [Nat.mul_comm dw dh]
  rw [Nat.add_mul] at h1
  omega

theorem MipDone_texel (m0 : Mem) (pSrc pDst sw dw dh : Nat) (mem : Mem) (y n : Nat)
    (hdd : dw * dh ≤ 2 ^ 32)
    (hreads : ∀ y x, y < dh → x < dw → ∀ i, i ∈ nSrcIndex sw y x → ∀ c, c < 4 →
      pSrc + u32 (i + c) < pDst ∨ pDst + 4 * (dw * dh) ≤ pSrc + u32 (i + c))
    (hy : y < dh) (hn : n < dw) (h : MipDone m0 pSrc pDst sw dw dh mem y n) :
    MipDone m0 pSrc pDst sw dw dh (generate_mipmap_texel mem pSrc pDst sw dw y n) y (n + 1) := by
  have ht := texel_index_lt dw dh y n hy hn
  have hyd : y * dw < 2 ^ 32 := by omega
  have e : pDst + u32 (u32 (y * dw) + n) * 4 = pDst + 4 * (y * dw + n) := by
    have e1 : u32 (y * dw) = y * dw := Nat.mod_eq_of_lt hyd
    have e2 : u32 (y * dw + n) = y * dw + n := Nat.mod_eq_of_lt (by omega)
    rw [e1, e2]
    omega
  obtain ⟨h1, h2⟩ := h
  constructor
  · intro a ha
    rw [generate_mipmap_texel_apply, e, if_neg (by omega)]
    exact h1 a ha
  · intro y1 x1 c hx1 hc hlt
    simp only [loadByte]
    rw [generate_mipmap_texel_apply, e]
    by_cases hcur : y1 = y ∧ x1 = n
    · obtain ⟨rfl, rfl⟩ := hcur
      rw [if_pos (by omega)]
      have e2 : pDst + 4 * (y1 * dw + x1) + c - (pDst + 4 * (y1 * dw + x1)) = c := by omega
      rw [e2, Nat.mod_mod]
      rw [averageChannel_congr m0 mem pSrc _ c
        (fun i hi => h1 _ (hreads y1 x1 hy hn i hi c hc))]
      exact Nat.mod_eq_of_lt (by have := averageChannel_le m0 pSrc sw y1 x1 c; omega)
    · have hprev : y1 < y ∨ (y1 = y ∧ x1 < n) := by
        rcases hlt with h | ⟨h, h'⟩
        · exact Or.inl h
        · refine Or.inr ⟨h, ?_⟩
          have : x1 ≠ n := fun hh => hcur ⟨h, hh⟩
          omega
      have hne : y1 * dw + x1 ≠ y * dw + n := by
        rcases hprev with h | ⟨h, h'⟩
        · have : (y1 + 1) * dw ≤ y * dw := Nat.mul_le_mul_right _ h
          rw [Nat.add_mul] at this
          omega
        · subst h
          omega
      rw [if_neg (by omega)]
      exact h2 y1 x1 c hx1 hc hprev

theorem MipDone_row (m0 : Mem) (pSrc pDst sw dw dh : Nat) (mem : Mem) (y : Nat)
    (hdd : dw * dh ≤ 2 ^ 32)
    (hreads : ∀ y x, y < dh → x < dw → ∀ i, i ∈ nSrcIndex sw y x → ∀ c, c < 4 →
      pSrc + u32 (i + c) < pDst ∨ pDst + 4 * (dw * dh) ≤ pSrc + u32 (i + c))
    (hy : y < dh) (h : MipDone m0 pSrc pDst sw dw dh mem y 0) :
    MipDone m0 pSrc pDst sw dw dh (generate_mipmap_row mem pSrc pDst sw dw y) (y + 1) 0 := by
  have key : ∀ n, n ≤ dw → MipDone m0 pSrc pDst sw dw dh
      ((List.range n).foldl (fun mem x => generate_mipmap_texel mem pSrc pDst sw dw y x) mem)
      y n := by
    intro n
    induction n with
    | zero => intro _; exact h
    | succ n ih =>
      intro hn
      rw [List.range_succ, List.foldl_append]
      exact MipDone_texel m0 pSrc pDst sw dw dh _ y n hdd hreads hy (by omega) (ih (by omega))
  obtain ⟨h1, h2⟩ := key dw (le_refl _)
  refine ⟨h1, fun y1 x1 c hx1 hc hlt => h2 y1 x1 c hx1 hc ?_⟩
  rcases hlt with h | ⟨_, h⟩
  · rcases Nat.lt_or_ge y1 y with h' | h'
    · exact Or.inl h'
    · exact Or.inr ⟨by omega, hx1⟩
  · omega

theorem MipDone_rows (m0 : Mem) (pSrc pDst sw dw dh : Nat)
    (hdd : dw * dh ≤ 2 ^ 32)
    (hreads : ∀ y x, y < dh → x < dw → ∀ i, i ∈ nSrcIndex sw y x → ∀ c, c < 4 →
      pSrc + u32 (i + c) < pDst ∨ pDst + 4 * (dw * dh) ≤ pSrc + u32 (i + c))
    (k : Nat) (hk : k ≤ dh) :
    MipDone m0 pSrc pDst sw dw dh
      ((List.range k).foldl (fun mem y => generate_mipmap_row mem pSrc pDst sw dw y) m0) k 0 := by
  induction k with
  | zero => exact ⟨fun _ _ => rfl, fun y1 x1 c _ _ h => by omega⟩
  | succ k ih =>
    rw [List.range_succ, List.foldl_append]
    exact MipDone_row m0 pSrc pDst sw dw dh _ k hdd hreads (by omega) (ih (by omega))


/-- Without 32 bit overflow the four source indices are the byte offsets of the texels
`(2x, 2y)`, `(2x+1, 2y)`, `(2x, 2y+1)`, `(2x+1, 2y+1)`. -/
theorem nSrcIndex_exact (sw sh y x : Nat) (hb : 4 * (sw * sh) ≤ 2 ^ 32)
    (hy : 2 * y + 2 ≤ sh) (hx : 2 * x + 2 ≤ sw) :
    nSrcIndex sw y x
      = [4 * (2 * y * sw + 2 * x), 4 * (2 * y * sw + (2 * x + 1)),
         4 * ((2 * y + 1) * sw + 2 * x), 4 * ((2 * y + 1) * sw + (2 * x + 1))]
    ∧ 4 * ((2 * y + 1) * sw + (2 * x + 1)) + 4 ≤ 4 * (sw * sh) := by
  have h1 : (2 * y + 2) * sw ≤ sh * sw := Nat.mul_le_mul_right _ hy
  have h2 : (2 * y + 2) * sw = 2 * (y * sw) + 2 * sw := by ring
  have h3 : sh * sw = sw * sh := Nat.mul_comm _ _
  have p1 : 2 * y * sw = 2 * (y * sw) := by ring
  have p2 : (2 * y + 1) * sw = 2 * (y * sw) + sw := by ring
  have p3 : y * 2 = 2 * y := Nat.mul_comm _ _
  have p4 : x * 2 = 2 * x := Nat.mul_comm _ _
  have q1 : sh ≤ sw * sh := Nat.le_mul_of_pos_left _ (by omega)
  have q2 : sw ≤ sw * sh := Nat.le_mul_of_pos_right _ (by omega)
  have m1 : ∀ n, n < 2 ^ 32 → u32 n = n := fun n hn => Nat.mod_eq_of_lt hn
  refine ⟨?_, by omega⟩
  simp only [nSrcIndex, p3, p4]
  rw [m1 (2 * y) (by omega), m1 (2 * x) (by omega), m1 (2 * x + 1) (by omega),
    m1 (2 * y + 1) (by omega), m1 (2 * y * sw) (by omega), m1 ((2 * y + 1) * sw) (by omega),
    m1 (2 * y * sw + 2 * x) (by omega), m1 (2 * y * sw + (2 * x + 1)) (by omega),
    m1 ((2 * y + 1) * sw + 2 * x) (by omega), m1 ((2 * y + 1) * sw + (2 * x + 1)) (by omega),
    m1 ((2 * y * sw + 2 * x) * 4) (by omega), m1 ((2 * y * sw + (2 * x + 1)) * 4) (by omega),
    m1 (((2 * y + 1) * sw + 2 * x) * 4) (by omega),
    m1 (((2 * y + 1) * sw + (2 * x + 1)) * 4) (by omega)]
  simp only [Nat.mul_comm _ 4]

/-- The value of `generate_mipmap` on a source level of at least two by two texels that
byte indices of 32 bits address exactly and that does not overlap the destination: it
returns the halved extents, leaves memory outside the destination level alone, and every
channel of every destination texel is the truncated average of the four source texels. -/
theorem generate_mipmap_average (m : Mem) (pSrc pDst sw sh : Nat)
    (hsw : 2 ≤ sw) (hsh : 2 ≤ sh) (hb : 4 * (sw * sh) ≤ 2 ^ 32)
    (hdisj : pSrc + 4 * (sw * sh) ≤ pDst ∨ pDst + 4 * ((sw / 2) * (sh / 2)) ≤ pSrc) :
    (generate_mipmap m pSrc pDst sw sh).2.1 = sw / 2
    ∧ (generate_mipmap m pSrc pDst sw sh).2.2 = sh / 2
    ∧ (∀ a, a < pDst ∨ pDst + 4 * ((sw / 2) * (sh / 2)) ≤ a →
        (generate_mipmap m pSrc pDst sw sh).1 a = m a)
    ∧ ∀ x y c, x < sw / 2 → y < sh / 2 → c < 4 →
        texelChannel (generate_mipmap m pSrc pDst sw sh).1 pDst (sw / 2) x y c
          = (texelChannel m pSrc sw (2 * x) (2 * y) c
              + texelChannel m pSrc sw (2 * x + 1) (2 * y) c
              + texelChannel m pSrc sw (2 * x) (2 * y + 1) c
              + texelChannel m pSrc sw (2 * x + 1) (2 * y + 1) c) / 4 := by
  have hw0 : ¬ sw / 2 ≤ 0 := by omega
  have hh0 : ¬ sh / 2 ≤ 0 := by omega
  have hle : (sw / 2) * (sh / 2) ≤ sw * sh :=
    Nat.mul_le_mul (Nat.div_le_self _ _) (Nat.div_le_self _ _)
  have hreads : ∀ y x, y < sh / 2 → x < sw / 2 → ∀ i, i ∈ nSrcIndex sw y x → ∀ c, c < 4 →
      pSrc + u32 (i + c) < pDst ∨ pDst + 4 * ((sw / 2) * (sh / 2)) ≤ pSrc + u32 (i + c) := by
    intro y x hy hx i hi c hc
    obtain ⟨e, hbd⟩ := nSrcIndex_exact sw sh y x hb (by omega) (by omega)
    have p1 : 2 * y * sw = 2 * (y * sw) := by ring
    have p2 : (2 * y + 1) * sw = 2 * (y * sw) + sw := by ring
    rw [e] at hi
    simp only [List.mem_cons, List.mem_singleton, List.not_mem_nil, or_false] at hi
    have hlt : i + c < 4 * (sw * sh) := by
      rcases hi with h | h | h | h <;> omega
    rw [show u32 (i + c) = i + c from Nat.mod_eq_of_lt (by omega)]
    omega
  have hdone := MipDone_rows m pSrc pDst sw (sw / 2) (sh / 2) (by omega) hreads (sh / 2)
    (le_refl _)
  simp only [generate_mipmap, if_neg hw0, if_neg hh0]
  refine ⟨trivial, trivial, hdone.1, ?_⟩
  intro x y c hx hy hc
  obtain ⟨e, hbd⟩ := nSrcIndex_exact sw sh y x hb (by omega) (by omega)
  have p1 : 2 * y * sw = 2 * (y * sw) := by ring
  have p2 : (2 * y + 1) * sw = 2 * (y * sw) + sw := by ring
  have m1 : ∀ n, n < 2 ^ 32 → u32 n = n := fun n hn => Nat.mod_eq_of_lt hn
  simp only [texelChannel]
  rw [hdone.2 y x c hx hc (Or.inl hy), e]
  simp only [averageChannel, List.map, List.sum_cons, List.sum_nil]
  rw [m1 _ (show 4 * (2 * y * sw + 2 * x) + c < 2 ^ 32 by omega),
    m1 _ (show 4 * (2 * y * sw + (2 * x + 1)) + c < 2 ^ 32 by omega),
    m1 _ (show 4 * ((2 * y + 1) * sw + 2 * x) + c < 2 ^ 32 by omega),
    m1 _ (show 4 * ((2 * y + 1) * sw + (2 * x + 1)) + c < 2 ^ 32 by omega)]
  simp only [Nat.add_assoc, Nat.add_zero]

/-! ## Uniform images through the region loop -/

theorem mipOffset_le (w h k : Nat) (hw : 1 ≤ w) (hh : 1 ≤ h) :
    mipOffset w h k ≤ k * (4 * (w * h)) := by
  induction k with
  | zero => simp [mipOffset]
  | succ k ih =>
    simp only [mipOffset]
    have := Nat.mul_le_mul (mipExtent_le w k hw) (mipExtent_le h k hh)
    rw [Nat.add_mul]
    omega


theorem mipOffset_mono (w h k j : Nat) (hkj : k ≤ j) : mipOffset w h k ≤ mipOffset w h j := by
  induction j with
  | zero =>
    have : k = 0 := by omega
    subst this
    exact le_refl _
  | succ j ih =>
    rcases Nat.lt_or_ge k (j + 1) with h1 | h1
    · have := ih (by omega)
      simp only [mipOffset]
      omega
    · have : k = j + 1 := by omega
      subst this
      exact le_refl _

theorem UniformLevel_frame (m m1 : Mem) (base w h r g b a k lim : Nat)
    (hfr : ∀ i, i < base + lim → m1 i = m i) (hlim : mipOffset w h (k + 1) ≤ lim)
    (hu : UniformLevel m base w h r g b a k) : UniformLevel m1 base w h r g b a k := by
  intro x y c hx hy hc
  have := hu x y c hx hy hc
  simp only [texelChannel, loadByte] at this ⊢
  have ht := texel_index_lt (mipExtent w k) (mipExtent h k) y x hy hx
  simp only [mipOffset] at hlim
  rw [hfr _ (by omega)]
  exact this

theorem regionLoop_uniform (rb ma L w h r g b a : Nat) (hw1 : 1 ≤ w) (hh1 : 1 ≤ h)
    (hb : 4 * (w * h) ≤ 2 ^ 32) (hL : L < 2 ^ 32)
    (hlev : ∀ k, k + 1 < L → 2 ≤ mipExtent w k ∧ 2 ≤ mipExtent h k)
    (fuel : Nat) (s : RegionLoop) (hr : 1 ≤ s.region) (hrL : s.region ≤ L)
    (hfuel : L - s.region ≤ fuel)
    (hsw : s.srcWidth = mipExtent w (s.region - 1))
    (hsh : s.srcHeight = mipExtent h (s.region - 1))
    (hso : s.srcRegionOffsetInBytes = mipOffset w h (s.region - 1))
    (hdo : s.dstRegionOffsetInBytes = mipOffset w h s.region)
    (hu : ∀ k, k < s.region → UniformLevel s.host ma w h r g b a k) :
    ∃ l, regionLoop rb ma L fuel s = some l
      ∧ ∀ k, k < L → UniformLevel l.host ma w h r g b a k := by
  induction fuel generalizing s with
  | zero =>
    have : s.region = L := by omega
    exact ⟨s, by unfold regionLoop; simp [this], fun k hk => hu k (by omega)⟩
  | succ fuel ih =>
    by_cases hreg : s.region = L
    · exact ⟨s, by unfold regionLoop; simp [hreg], fun k hk => hu k (by omega)⟩
    · obtain ⟨k0, hk0⟩ : ∃ k0, s.region = k0 + 1 := ⟨s.region - 1, by omega⟩
      rw [hk0] at hsw hsh hso hdo hu
      simp only [Nat.add_sub_cancel] at hsw hsh hso
      obtain ⟨h2w, h2h⟩ := hlev k0 (by omega)
      have hle := Nat.mul_le_mul (mipExtent_le w k0 hw1) (mipExtent_le h k0 hh1)
      have e1 : mipOffset w h (k0 + 1) = mipOffset w h k0 + 4 * (mipExtent w k0 * mipExtent h k0) :=
        rfl
      have ew : mipExtent w (k0 + 1) = mipExtent w k0 / 2 := by
        simp only [mipExtent]
        rw [if_neg (by omega)]
      have eh : mipExtent h (k0 + 1) = mipExtent h k0 / 2 := by
        simp only [mipExtent]
        rw [if_neg (by omega)]
      obtain ⟨g1, g2, g3, g4⟩ := generate_mipmap_average s.host (ma + mipOffset w h k0)
        (ma + mipOffset w h (k0 + 1)) (mipExtent w k0) (mipExtent h k0) h2w h2h (by omega)
        (Or.inl (by omega))
      have hb1 : (regionLoopBody rb ma s).region = k0 + 1 + 1 := by
        simp only [regionLoopBody, hk0]
      have hbw : (regionLoopBody rb ma s).srcWidth = mipExtent w (k0 + 1) := by
        simp only [regionLoopBody, hsw, hsh, hso, hdo]
        rw [g1, ew]
      have hbh : (regionLoopBody rb ma s).srcHeight = mipExtent h (k0 + 1) := by
        simp only [regionLoopBody, hsw, hsh, hso, hdo]
        rw [g2, eh]
      have hbs : (regionLoopBody rb ma s).srcRegionOffsetInBytes = mipOffset w h (k0 + 1) := by
        simp only [regionLoopBody, hdo]
      have hle2 := Nat.mul_le_mul (mipExtent_le w (k0 + 1) hw1) (mipExtent_le h (k0 + 1) hh1)
      have hoff := mipOffset_le w h (k0 + 1 + 1) hw1 hh1
      have hprod : (k0 + 1 + 1) * (4 * (w * h)) ≤ (2 ^ 32 - 1) * 2 ^ 32 :=
        Nat.mul_le_mul (by omega) hb
      have e2 : mipOffset w h (k0 + 1 + 1)
          = mipOffset w h (k0 + 1) + 4 * (mipExtent w (k0 + 1) * mipExtent h (k0 + 1)) := rfl
      have hbd : (regionLoopBody rb ma s).dstRegionOffsetInBytes = mipOffset w h (k0 + 1 + 1) := by
        simp only [regionLoopBody, hsw, hsh, hso, hdo]
        rw [g1, g2, ← ew, ← eh]
        simp only [u32, u64]
        rw [Nat.mod_eq_of_lt (show mipExtent w (k0 + 1) * mipExtent h (k0 + 1) < 2 ^ 32 by omega),
          Nat.mul_one,
          Nat.mod_eq_of_lt (show mipExtent w (k0 + 1) * mipExtent h (k0 + 1) < 2 ^ 64 by omega),
          Nat.mod_eq_of_lt (show mipExtent w (k0 + 1) * mipExtent h (k0 + 1) * 4 < 2 ^ 64 by omega),
          Nat.mod_eq_of_lt (by omega)]
        omega
      have hbhost : (regionLoopBody rb ma s).host
          = (generate_mipmap s.host (ma + mipOffset w h k0) (ma + mipOffset w h (k0 + 1))
              (mipExtent w k0) (mipExtent h k0)).1 := by
        simp only [regionLoopBody, hsw, hsh, hso, hdo]
      have hbu : ∀ k, k < (regionLoopBody rb ma s).region →
          UniformLevel (regionLoopBody rb ma s).host ma w h r g b a k := by
        intro k hk
        rw [hb1] at hk
        rw [hbhost]
        by_cases hkk : k = k0 + 1
        · subst hkk
          intro x y c hx hy hc
          rw [ew] at hx
          rw [eh] at hy
          have hq := g4 x y c hx hy hc
          rw [ew]
          rw [hq, hu k0 (by omega) (2 * x) (2 * y) c (by omega) (by omega) hc,
            hu k0 (by omega) (2 * x + 1) (2 * y) c (by omega) (by omega) hc,
            hu k0 (by omega) (2 * x) (2 * y + 1) c (by omega) (by omega) hc,
            hu k0 (by omega) (2 * x + 1) (2 * y + 1) c (by omega) (by omega) hc]
          omega
        · apply UniformLevel_frame s.host _ ma w h r g b a k (mipOffset w h (k0 + 1))
            (fun i hi => g3 i (Or.inl (by omega)))
            (mipOffset_mono w h (k + 1) (k0 + 1) (by omega))
          exact hu k (by omega)
      obtain ⟨l, hl, hk⟩ := ih (regionLoopBody rb ma s) (by omega) (by omega) (by omega)
        (by rw [hb1, hbw]; rfl) (by rw [hb1, hbh]; rfl) (by rw [hb1, hbs]; rfl)
        (by rw [hb1, hbd]) hbu
      refine ⟨l, ?_, hk⟩
      unfold regionLoop
      rw [if_neg hreg]
      exact hl



theorem generate_mipmap_texel_far (m : Mem) (pSrc pDst sw dw y x a : Nat)
    (ha : a < pDst ∨ pDst + 2 ^ 34 ≤ a) :
    generate_mipmap_texel m pSrc pDst sw dw y x a = m a := by
  rw [generate_mipmap_texel_apply]
  have h1 : u32 (u32 (y * dw) + x) < 2 ^ 32 := Nat.mod_lt _ (by norm_num)
  rw [if_neg (by omega)]

theorem generate_mipmap_far (m : Mem) (pSrc pDst sw sh a : Nat)
    (ha : a < pDst ∨ pDst + 2 ^ 34 ≤ a) :
    (generate_mipmap m pSrc pDst sw sh).1 a = m a := by
  simp only [generate_mipmap]
  generalize (if sw / 2 ≤ 0 then 1 else sw / 2) = dw
  generalize (if sh / 2 ≤ 0 then 1 else sh / 2) = dh
  have hrow : ∀ (n y : Nat) (mem : Mem),
      (List.range n).foldl (fun mem x => generate_mipmap_texel mem pSrc pDst sw dw y x) mem a
        = mem a := by
    intro n y mem
    induction n with
    | zero => rfl
    | succ n ih =>
      rw [List.range_succ, List.foldl_append]
      simp only [List.foldl]
      rw [generate_mipmap_texel_far _ _ _ _ _ _ _ _ ha, ih]
  have hrow2 : ∀ (y : Nat) (mem : Mem), generate_mipmap_row mem pSrc pDst sw dw y a = mem a :=
    fun y mem => hrow dw y mem
  induction dh with
  | zero => rfl
  | succ n ih =>
    rw [List.range_succ, List.foldl_append]
    simp only [List.foldl]
    rw [hrow2, ih]

theorem regionLoop_once (rb ma : Nat) (s : RegionLoop) (h : s.region = 1) :
    regionLoop rb ma 2 1 s = some (regionLoopBody rb ma s) := by
  unfold regionLoop
  rw [if_neg (by rw [h]; decide)]
  simp only []
  unfold regionLoop
  rw [if_pos (by simp [regionLoopBody, h])]

/-- With two mip levels and one unit of fuel the region loop runs once: the staged data is
the result of one `generate_mipmap` from the base level at offset 0 to offset `numBytes`. -/
theorem write_to_image_two_levels (self : le_command_buffer_encoder_o) (host : Mem)
    (map : Mapping) (resourceId : Nat) (resourceInfo : le_resource_info_t)
    (data : List Nat) (numBytes : Nat)
    (htype : resourceInfo.type = LeResourceType.eImage)
    (hfmt : numBytesPerTexel resourceInfo.image.format = some 4)
    (hL : resourceInfo.image.mipLevels = 2) :
    ∃ res, cbe_write_to_image 1 self host (some map) resourceId resourceInfo data numBytes
        = some res
      ∧ res.2 = (generate_mipmap (memcpy host map.memAddr data numBytes) (map.memAddr + 0)
          (map.memAddr + numBytes) resourceInfo.image.width resourceInfo.image.height).1 := by
  have hget : getNumBytesRequiredForMipchain resourceInfo.image
      = some (mipchainLoop 4 resourceInfo.image.mipLevels resourceInfo.image.width
          resourceInfo.image.height 0) := by
    simp [getNumBytesRequiredForMipchain, hfmt]
  simp only [cbe_write_to_image, htype, hget, ne_eq, not_true_eq_false, if_false, hL]
  rw [regionLoop_once _ _ _ rfl]
  exact ⟨_, rfl, rfl⟩

/-! ## The preconditions of the mip generator -/

/-- When the destination level overlaps the source level, a destination texel can be
computed from bytes that an earlier destination texel has already overwritten: here
texel `(1, 0)` comes out as 0 although the average of its four source texels is 1. -/
theorem generate_mipmap_overlap_example :
    texelChannel (generate_mipmap overlapLevel 0 8 4 2).1 8 2 1 0 0 = 0
    ∧ (texelChannel overlapLevel 0 4 2 0 0 + texelChannel overlapLevel 0 4 3 0 0
        + texelChannel overlapLevel 0 4 2 1 0 + texelChannel overlapLevel 0 4 3 1 0) / 4 = 1 := by
  decide

theorem generate_mipmap_fst (m : Mem) (pSrc pDst sw sh dw dh : Nat)
    (hw : (if sw / 2 ≤ 0 then 1 else sw / 2) = dw)
    (hh : (if sh / 2 ≤ 0 then 1 else sh / 2) = dh) :
    (generate_mipmap m pSrc pDst sw sh).1
      = (List.range dh).foldl (fun mem y => generate_mipmap_row mem pSrc pDst sw dw y) m := by
  subst hw hh
  rfl

/-- When the source level spans more than `2 ^ 32` bytes the source indices, computed in
`uint32_t`, wrap: for a source of `2 ^ 30 + 2` by 2 texels, destination texel
`(2 ^ 29, 0)` is averaged from the source texels at byte offsets 0, 4, 8 and 12 and comes
out as 1, although its own four source texels are all 0. -/
theorem generate_mipmap_index_wrap_example :
    texelChannel (generate_mipmap wrapLevel 0 (2 ^ 34) (2 ^ 30 + 2) 2).1 (2 ^ 34)
        (2 ^ 29 + 1) (2 ^ 29) 0 0 = 1
    ∧ (texelChannel wrapLevel 0 (2 ^ 30 + 2) (2 * 2 ^ 29) (2 * 0) 0
        + texelChannel wrapLevel 0 (2 ^ 30 + 2) (2 * 2 ^ 29 + 1) (2 * 0) 0
        + texelChannel wrapLevel 0 (2 ^ 30 + 2) (2 * 2 ^ 29) (2 * 0 + 1) 0
        + texelChannel wrapLevel 0 (2 ^ 30 + 2) (2 * 2 ^ 29 + 1) (2 * 0 + 1) 0) / 4 = 0 := by
  constructor
  · have hreads : ∀ y x, y < 1 → x < 2 ^ 29 + 1 → ∀ i, i ∈ nSrcIndex (2 ^ 30 + 2) y x →
        ∀ c, c < 4 → 0 + u32 (i + c) < 2 ^ 34
          ∨ 2 ^ 34 + 4 * ((2 ^ 29 + 1) * 1) ≤ 0 + u32 (i + c) := by
      intro y x _ _ i _ c _
      have : u32 (i + c) < 2 ^ 32 := Nat.mod_lt _ (by norm_num)
      omega
    have hdone := MipDone_rows wrapLevel 0 (2 ^ 34) (2 ^ 30 + 2) (2 ^ 29 + 1) 1 (by norm_num)
      hreads 1 (le_refl _)
    rw [generate_mipmap_fst wrapLevel 0 (2 ^ 34) (2 ^ 30 + 2) 2 (2 ^ 29 + 1) 1 (by decide)
      (by decide)]
    simp only [texelChannel]
    rw [hdone.2 0 (2 ^ 29) 0 (by norm_num) (by norm_num) (Or.inl (by norm_num))]
    decide
  · decide

/-! ## Reading back the fixed payloads -/

theorem loadI32_storeU32 (m : Mem) (a : Nat) (v : Int) (h1 : -(2 ^ 31) ≤ v) (h2 : v < 2 ^ 31) :
    loadI32 (storeU32 m a (v % 2 ^ 32).toNat) a = v := by
  simp only [loadI32, loadU32, storeU32, loadLE_storeLE_same]
  have hnn : (0 : Int) ≤ v % 2 ^ 32 := Int.emod_nonneg _ (by norm_num)
  have hlt : v % 2 ^ 32 < 2 ^ 32 := Int.emod_lt_of_pos _ (by norm_num)
  have hcast : (((v % 2 ^ 32).toNat : Nat) : Int) = v % 2 ^ 32 := Int.toNat_of_nonneg hnn
  have hnat : (v % 2 ^ 32).toNat < 2 ^ 32 := by omega
  have e : (v % 2 ^ 32).toNat % 256 ^ 4 = (v % 2 ^ 32).toNat := Nat.mod_eq_of_lt (by omega)
  rw [e]
  split <;> omega

theorem leBytes8_length (v : Nat) : (leBytes 8 v).length = 8 := by
  simp [leBytes]

theorem flatMap_leBytes8_getD (xs : List Nat) (k j : Nat) (hk : k < xs.length) (hj : j < 8) :
    (xs.flatMap (leBytes 8)).getD (8 * k + j) 0 = (leBytes 8 (xs.getD k 0)).getD j 0 := by
  induction xs generalizing k with
  | nil => simp at hk
  | cons v vs ih =>
    rw [List.flatMap_cons]
    cases k with
    | zero =>
      rw [List.getD_append _ _ _ _ (by rw [leBytes8_length]; omega)]
      simp only [Nat.mul_zero, Nat.zero_add, List.getD_cons_zero]
    | succ k =>
      rw [List.getD_append_right _ _ _ _ (by rw [leBytes8_length]; omega),
        leBytes8_length, List.getD_cons_succ]
      have h1 : 8 * (k + 1) + j - 8 = 8 * k + j := by omega
      rw [h1]
      exact ih k (by simpa using hk)

theorem loadLE_leBytes8 (v : Nat) (hv : v < 2 ^ 64) :
    loadLE (fun i => (leBytes 8 v).getD i 0) 0 8 = v := by
  simp only [loadLE, leBytes]
  simp [List.range_succ]
  omega

theorem loadLE_flatMap_leBytes8 (xs : List Nat) (k j w : Nat) (hk : k < xs.length)
    (hj : j + w ≤ 8) :
    loadLE (fun i => (xs.flatMap (leBytes 8)).getD i 0) (8 * k + j) w
      = loadLE (fun i => (leBytes 8 (xs.getD k 0)).getD i 0) j w := by
  induction w generalizing j with
  | zero => rfl
  | succ w ih =>
    simp only [loadLE]
    rw [flatMap_leBytes8_getD xs k j hk (by omega), Nat.add_assoc, ih (j + 1) (by omega)]

/-- A 64 bit element read from a copied array of 64 bit values. -/
theorem loadU64_memcpy (m : Mem) (dst : Nat) (xs : List Nat) (n k : Nat)
    (hn : xs.length = n) (hk : k < n) (hv : xs.getD k 0 < 2 ^ 64) :
    loadLE (memcpy m dst (xs.flatMap (leBytes 8)) (8 * n)) (dst + 8 * k) 8 = xs.getD k 0 := by
  rw [loadLE_memcpy_inside _ _ _ _ _ _ (by omega)]
  have h := loadLE_flatMap_leBytes8 xs k 0 8 (by omega) (by omega)
  rw [Nat.add_zero] at h
  rw [h, loadLE_leBytes8 _ hv]

theorem readBytes_memcpy (m : Mem) (dst : Nat) (data : List Nat) (n : Nat)
    (hlen : data.length = n) (hb : ∀ b, b ∈ data → b < 256) :
    readBytes (memcpy m dst data n) dst n = data := by
  apply List.ext_getElem
  · simp [readBytes, hlen]
  · intro k h1 h2
    simp only [readBytes, List.getElem_map, List.getElem_range, memcpy]
    rw [if_pos (by omega), Nat.add_sub_cancel_left, List.getD_eq_getElem _ _ h2, Nat.mod_mod]
    exact Nat.mod_eq_of_lt (hb _ (List.getElem_mem _))

theorem cbe_bind_vertex_buffers_decode (self : le_command_buffer_encoder_o)
    (firstBinding bindingCount : Nat) (pBuffers pOffsets : List Nat)
    (h1 : firstBinding < 2 ^ 32) (h2 : bindingCount < 2 ^ 32)
    (hlb : pBuffers.length = bindingCount) (hlo : pOffsets.length = bindingCount)
    (hvb : ∀ v, v ∈ pBuffers → v < 2 ^ 64) (hvo : ∀ v, v ∈ pOffsets → v < 2 ^ 64) :
    decodeBindVertexBuffers
        (cbe_bind_vertex_buffers self firstBinding bindingCount pBuffers pOffsets).mCommandStream
        self.mCommandStreamSize
      = { firstBinding := firstBinding, bindingCount := bindingCount, buffers := pBuffers,
          offsets := pOffsets }
    ∧ headerTypeAt
        (cbe_bind_vertex_buffers self firstBinding bindingCount pBuffers pOffsets).mCommandStream
        self.mCommandStreamSize = CommandType.eBindVertexBuffers.tag
    ∧ (cbe_bind_vertex_buffers self firstBinding bindingCount pBuffers pOffsets).mCommandCount
        = self.mCommandCount + 1 := by
  refine ⟨?_, ?_, rfl⟩
  · simp only [decodeBindVertexBuffers, cbe_bind_vertex_buffers]
    simp (disch := omega) only [loadU32, loadU64, storeU32, storeU64, loadLE_memcpy_disj,
      loadLE_storeLE_disj, loadLE_storeLE_same, sizeofCommand, sizeof_le_resource_handle_t,
      sizeof_uint64_t]
    have e1 : firstBinding % 256 ^ 4 = firstBinding := Nat.mod_eq_of_lt (by omega)
    have e2 : bindingCount % 256 ^ 4 = bindingCount := Nat.mod_eq_of_lt (by omega)
    rw [e1, e2]
    congr 1
    · apply List.ext_getElem
      · simp [hlb]
      · intro k h3 h4
        have hk : k < pBuffers.length := h4
        have hg : pBuffers.getD k 0 = pBuffers[k] := List.getD_eq_getElem _ _ hk
        simp only [List.getElem_map, List.getElem_range]
        rw [loadLE_memcpy_disj _ _ _ _ _ _ (Or.inl (by omega)),
          loadU64_memcpy _ _ pBuffers bindingCount k hlb (by omega)
            (by rw [hg]; exact hvb _ (List.getElem_mem _)), hg]
    · apply List.ext_getElem
      · simp [hlo]
      · intro k h3 h4
        have hk : k < pOffsets.length := h4
        have hg : pOffsets.getD k 0 = pOffsets[k] := List.getD_eq_getElem _ _ hk
        simp only [List.getElem_map, List.getElem_range]
        rw [loadU64_memcpy _ _ pOffsets bindingCount k hlo (by omega)
            (by rw [hg]; exact hvo _ (List.getElem_mem _)), hg]
  · simp (disch := omega) [cbe_bind_vertex_buffers, EMPLACE_CMD, headerTypeAt, loadU32,
      storeU32, storeU64, loadLE_storeLE_disj, loadLE_storeLE_same, loadLE_memcpy_disj,
      CommandType.tag, sizeofCommand, sizeof_le_resource_handle_t, sizeof_uint64_t]

theorem regionLoop_terminates (rb ma L : Nat) (fuel : Nat) (s : RegionLoop)
    (hrL : s.region ≤ L) (hfuel : L - s.region ≤ fuel) :
    ∃ l, regionLoop rb ma L fuel s = some l := by
  induction fuel generalizing s with
  | zero =>
    have : s.region = L := by omega
    exact ⟨s, by unfold regionLoop; simp [this]⟩
  | succ fuel ih =>
    by_cases hreg : s.region = L
    · exact ⟨s, by unfold regionLoop; simp [hreg]⟩
    · obtain ⟨l, hl⟩ := ih (regionLoopBody rb ma s)
        (by simp only [regionLoopBody]; omega) (by simp only [regionLoopBody]; omega)
      refine ⟨l, ?_⟩
      unfold regionLoop
      rw [if_neg hreg]
      exact hl

theorem mipchainLoop_lt (bpt n w h total : Nat) (ht : total < 2 ^ 64) :
    mipchainLoop bpt n w h total < 2 ^ 64 := by
  induction n generalizing w h total with
  | zero => exact ht
  | succ n ih =>
    simp only [mipchainLoop]
    exact ih _ _ _ (Nat.mod_lt _ (by norm_num))

/-! ## Counters, capacity and the byte budget of a mip chain -/

/-- No call lowers a counter. -/
theorem Call.run_monotone (c : Call) (s s1 : le_command_buffer_encoder_o × Mem)
    (h : c.run s = some s1) :
    s.1.mCommandCount ≤ s1.1.mCommandCount ∧ s.1.mCommandStreamSize ≤ s1.1.mCommandStreamSize := by
  cases c with
  | write_to_image fuel map id info data n =>
    simp only [Call.run, cbe_write_to_image] at h
    split at h
    · cases h
    · split at h
      · cases h
      · split at h
        · simp only [Option.some.injEq] at h
          subst h
          exact ⟨le_refl _, le_refl _⟩
        · split at h
          · cases h
          · simp only [Option.some.injEq] at h
            subst h
            exact ⟨Nat.le_add_right _ _, Nat.le_add_right _ _⟩
  | set_index_data alloc id data n t =>
    simp only [Call.run, Option.some.injEq] at h
    subst h
    cases alloc
    · exact ⟨le_refl _, le_refl _⟩
    · exact ⟨Nat.le_add_right _ _, Nat.le_add_right _ _⟩
  | set_vertex_data alloc id data n t =>
    simp only [Call.run, Option.some.injEq] at h
    subst h
    cases alloc
    · exact ⟨le_refl _, le_refl _⟩
    · exact ⟨Nat.le_add_right _ _, Nat.le_add_right _ _⟩
  | set_argument_ubo_data alloc id name data n =>
    simp only [Call.run, Option.some.injEq] at h
    subst h
    cases alloc
    · exact ⟨le_refl _, le_refl _⟩
    · exact ⟨Nat.le_add_right _ _, Nat.le_add_right _ _⟩
  | write_to_buffer map id off data n =>
    simp only [Call.run, Option.some.injEq] at h
    subst h
    cases map
    · exact ⟨le_refl _, le_refl _⟩
    · exact ⟨Nat.le_add_right _ _, Nat.le_add_right _ _⟩
  | _ =>
    simp only [Call.run, Option.some.injEq] at h
    subst h
    exact ⟨Nat.le_add_right _ _, Nat.le_add_right _ _⟩

/-- A sequence of draw calls fits exactly when 24 bytes per call are left in the arena. -/
theorem allSucceed_draws_iff (cs : List Call) (s : le_command_buffer_encoder_o × Mem)
    (hd : ∀ c, c ∈ cs → c.isDraw) (hs : s.1.mCommandStreamSize ≤ arenaCapacity) :
    allSucceed cs s ↔ s.1.mCommandStreamSize + 24 * cs.length ≤ arenaCapacity := by
  induction cs generalizing s with
  | nil => simp [allSucceed, hs]
  | cons c cs ih =>
    have hc := hd c (List.mem_cons_self _ _)
    have hrest : ∀ d, d ∈ cs → d.isDraw := fun d hd1 => hd d (List.mem_cons_of_mem _ hd1)
    cases c with
    | draw a b c d =>
      have hrun : (Call.draw a b c d).run s = some (cbe_draw s.1 a b c d, s.2) := rfl
      have hsize : (cbe_draw s.1 a b c d).mCommandStreamSize = s.1.mCommandStreamSize + 24 := rfl
      have hfits : (Call.draw a b c d).fits s.1 ↔ s.1.mCommandStreamSize + 24 ≤ arenaCapacity := by
        simp [Call.fits, Call.recordBytes, Call.kind, Call.trailingBytes, sizeofCommand]
      simp only [allSucceed, List.length_cons]
      constructor
      · rintro ⟨_, hf, s1, h1, h2⟩
        rw [hrun] at h1
        cases h1
        have := (ih (cbe_draw s.1 a b c d, s.2) hrest (by rw [hsize]; exact hfits.mp hf)).mp h2
        simp only [hsize] at this
        omega
      · intro h
        have hf : s.1.mCommandStreamSize + 24 ≤ arenaCapacity := by omega
        refine ⟨rfl, hfits.mpr hf, _, hrun, ?_⟩
        apply (ih (cbe_draw s.1 a b c d, s.2) hrest (by rw [hsize]; exact hf)).mpr
        simp only [hsize]
        omega
    | _ => exact absurd hc (by simp [Call.isDraw])

theorem budget_halve_eq (d : Nat) : (if d > 2 then d / 2 else 1) = max 1 (d / 2) := by
  rw [Nat.max_def]
  split <;> split <;> omega

theorem chainExtent_shift (d k : Nat) :
    chainExtent d (k + 1) = chainExtent (max 1 (d / 2)) k := by
  induction k with
  | zero => rfl
  | succ k ih =>
    rw [chainExtent, ih]
    rfl

theorem chainTexels_shift (w h n : Nat) :
    chainTexels w h (n + 1) = w * h + chainTexels (max 1 (w / 2)) (max 1 (h / 2)) n := by
  induction n with
  | zero => simp [chainTexels, chainExtent]
  | succ n ih =>
    rw [chainTexels, ih, chainExtent_shift, chainExtent_shift]
    simp only [chainTexels]
    omega

theorem u64_mul_u64 (a b : Nat) : u64 (u64 a * b) = u64 (a * b) := by
  simp only [u64]
  rw [Nat.mul_mod, Nat.mod_mod, ← Nat.mul_mod]

theorem mipchainLoop_eq (bpt n w h total : Nat) (ht : total < 2 ^ 64) :
    mipchainLoop bpt n w h total = (total + bpt * chainTexels w h n) % 2 ^ 64 := by
  induction n generalizing w h total with
  | zero =>
    simp only [mipchainLoop, chainTexels, Nat.mul_zero, Nat.add_zero]
    exact (Nat.mod_eq_of_lt ht).symm
  | succ n ih =>
    simp only [mipchainLoop]
    rw [ih _ _ (u64 (total + u64 (u64 (bpt * w) * h))) (Nat.mod_lt _ (by norm_num)),
      budget_halve_eq, budget_halve_eq, chainTexels_shift, u64_mul_u64]
    simp only [u64]
    rw [Nat.add_mod_mod, Nat.mod_add_mod]
    congr 1
    ring

theorem mem_formats8 (f : Format) (h : f ∈ formats8) : numBytesPerTexel f = some 4 := by
  simp only [formats8, List.mem_cons, List.mem_singleton, List.not_mem_nil, or_false] at h
  rcases h with h | h | h | h | h | h | h | h | h | h | h | h | h | h <;> subst h <;> rfl

theorem mem_formats16 (f : Format) (h : f ∈ formats16) : numBytesPerTexel f = some 8 := by
  simp only [formats16, List.mem_cons, List.mem_singleton, List.not_mem_nil, or_false] at h
  rcases h with h | h | h | h | h | h | h <;> subst h <;> rfl

theorem not_mem_formats (f : Format) (h8 : f ∉ formats8) (h16 : f ∉ formats16) :
    numBytesPerTexel f = none := by
  cases f <;> first | rfl | (exact absurd (by decide) h8) | (exact absurd (by decide) h16)

theorem getNumBytes_eq (imageInfo : ImageInfo) (b : Nat)
    (hb : numBytesPerTexel imageInfo.format = some b) :
    getNumBytesRequiredForMipchain imageInfo
      = some ((b * chainTexels imageInfo.width imageInfo.height imageInfo.mipLevels) % 2 ^ 64) := by
  have hb0 := numBytesPerTexel_ne_zero _ _ hb
  simp only [getNumBytesRequiredForMipchain, hb, if_neg hb0]
  rw [mipchainLoop_eq _ _ _ _ _ (by norm_num), Nat.zero_add]

theorem generate_mipmap_texel_inside (m : Mem) (pSrc pDst sw dw dh y x a : Nat)
    (hdd : dw * dh ≤ 2 ^ 32) (hy : y < dh) (hx : x < dw)
    (ha : a < pDst ∨ pDst + 4 * (dw * dh) ≤ a) :
    generate_mipmap_texel m pSrc pDst sw dw y x a = m a := by
  rw [generate_mipmap_texel_apply]
  have ht := texel_index_lt dw dh y x hy hx
  have e1 : u32 (y * dw) = y * dw := Nat.mod_eq_of_lt (by omega)
  have e2 : u32 (y * dw + x) = y * dw + x := Nat.mod_eq_of_lt (by omega)
  rw [e1, e2, if_neg (by omega)]

/-- The mip generator stores only inside the destination level. -/
theorem generate_mipmap_frame (m : Mem) (pSrc pDst sw sh a : Nat)
    (hdd : (generate_mipmap m pSrc pDst sw sh).2.1 * (generate_mipmap m pSrc pDst sw sh).2.2
      ≤ 2 ^ 32)
    (ha : a < pDst ∨ pDst + 4 * ((generate_mipmap m pSrc pDst sw sh).2.1
      * (generate_mipmap m pSrc pDst sw sh).2.2) ≤ a) :
    (generate_mipmap m pSrc pDst sw sh).1 a = m a := by
  simp only [generate_mipmap] at hdd ha ⊢
  generalize (if sw / 2 ≤ 0 then 1 else sw / 2) = dw at hdd ha ⊢
  generalize (if sh / 2 ≤ 0 then 1 else sh / 2) = dh at hdd ha ⊢
  have hrow : ∀ (y : Nat) (mem : Mem), y < dh →
      generate_mipmap_row mem pSrc pDst sw dw y a = mem a := by
    intro y mem hy
    have key : ∀ n, n ≤ dw →
        (List.range n).foldl (fun mem x => generate_mipmap_texel mem pSrc pDst sw dw y x) mem a
          = mem a := by
      intro n
      induction n with
      | zero => intro _; rfl
      | succ n ih =>
        intro hn
        rw [List.range_succ, List.foldl_append]
        simp only [List.foldl]
        rw [generate_mipmap_texel_inside _ _ _ _ _ dh _ _ _ hdd hy (by omega) ha, ih (by omega)]
    exact key dw (le_refl _)
  have key : ∀ k, k ≤ dh →
      (List.range k).foldl (fun mem y => generate_mipmap_row mem pSrc pDst sw dw y) m a = m a := by
    intro k
    induction k with
    | zero => intro _; rfl
    | succ k ih =>
      intro hk
      rw [List.range_succ, List.foldl_append]
      simp only [List.foldl]
      rw [hrow _ _ (by omega), ih (by omega)]
  exact key dh (le_refl _)

theorem chainExtent_eq_mipExtent (d k : Nat) : chainExtent d k = mipExtent d k := by
  induction k with
  | zero => rfl
  | succ k ih =>
    simp only [chainExtent, mipExtent, ih]
    rw [Nat.max_def]
    split <;> split <;> omega

theorem mipOffset_eq_chainTexels (w h k : Nat) : mipOffset w h k = 4 * chainTexels w h k := by
  induction k with
  | zero => rfl
  | succ k ih =>
    simp only [mipOffset, chainTexels, ih, chainExtent_eq_mipExtent]
    omega

/-- The region loop records for every level the offset at which the level starts, and
stores in staging memory only between the start of the current level and the end of the
last one. -/
theorem regionLoop_offsets (rb ma L w h : Nat)
    (hB : mipOffset w h L < 2 ^ 32) (fuel : Nat) (s l : RegionLoop)
    (hl : regionLoop rb ma L fuel s = some l) (hr : 1 ≤ s.region) (hrL : s.region ≤ L)
    (hsw : s.srcWidth = mipExtent w (s.region - 1))
    (hsh : s.srcHeight = mipExtent h (s.region - 1))
    (hdo : s.dstRegionOffsetInBytes = mipOffset w h s.region) :
    (∀ k, s.region ≤ k → k < L → loadU32 l.arena (rb + 16 * k) = mipOffset w h k)
    ∧ ∀ a, a < ma + mipOffset w h s.region ∨ ma + mipOffset w h L ≤ a → l.host a = s.host a := by
  induction fuel generalizing s with
  | zero =>
    unfold regionLoop at hl
    split at hl
    · cases hl
      exact ⟨fun k h1 h2 => by omega, fun _ _ => rfl⟩
    · cases hl
  | succ fuel ih =>
    unfold regionLoop at hl
    split at hl
    · cases hl
      exact ⟨fun k h1 h2 => by omega, fun _ _ => rfl⟩
    · rename_i hreg
      obtain ⟨k0, hk0⟩ : ∃ k0, s.region = k0 + 1 := ⟨s.region - 1, by omega⟩
      have hlt : k0 + 1 < L := by omega
      rw [hk0] at hsw hsh hdo
      simp only [Nat.add_sub_cancel] at hsw hsh
      have hmono := mipOffset_mono w h (k0 + 1 + 1) L (by omega)
      have e2 : mipOffset w h (k0 + 1 + 1)
          = mipOffset w h (k0 + 1) + 4 * (mipExtent w (k0 + 1) * mipExtent h (k0 + 1)) := rfl
      have gw : (generate_mipmap s.host (ma + s.srcRegionOffsetInBytes)
          (ma + s.dstRegionOffsetInBytes) s.srcWidth s.srcHeight).2.1 = mipExtent w (k0 + 1) := by
        simp only [generate_mipmap, mipExtent, hsw]
      have gh : (generate_mipmap s.host (ma + s.srcRegionOffsetInBytes)
          (ma + s.dstRegionOffsetInBytes) s.srcWidth s.srcHeight).2.2 = mipExtent h (k0 + 1) := by
        simp only [generate_mipmap, mipExtent, hsh]
      have hb1 : (regionLoopBody rb ma s).region = k0 + 1 + 1 := by
        simp only [regionLoopBody, hk0]
      have hbw : (regionLoopBody rb ma s).srcWidth = mipExtent w (k0 + 1) := by
        simp only [regionLoopBody]
        exact gw
      have hbh : (regionLoopBody rb ma s).srcHeight = mipExtent h (k0 + 1) := by
        simp only [regionLoopBody]
        exact gh
      have hbd : (regionLoopBody rb ma s).dstRegionOffsetInBytes = mipOffset w h (k0 + 1 + 1) := by
        simp only [regionLoopBody]
        rw [gw, gh, hdo]
        simp only [u32, u64]
        rw [Nat.mod_eq_of_lt (show mipExtent w (k0 + 1) * mipExtent h (k0 + 1) < 2 ^ 32 by omega),
          Nat.mul_one,
          Nat.mod_eq_of_lt (show mipExtent w (k0 + 1) * mipExtent h (k0 + 1) < 2 ^ 64 by omega),
          Nat.mod_eq_of_lt (show mipExtent w (k0 + 1) * mipExtent h (k0 + 1) * 4 < 2 ^ 64 by omega),
          Nat.mod_eq_of_lt (by omega)]
        omega
      have hbhost : ∀ a, a < ma + mipOffset w h (k0 + 1) ∨ ma + mipOffset w h (k0 + 1 + 1) ≤ a →
          (regionLoopBody rb ma s).host a = s.host a := by
        intro a ha
        simp only [regionLoopBody]
        apply generate_mipmap_frame
        · rw [gw, gh]
          omega
        · rw [gw, gh, hdo]
          omega
      obtain ⟨i1, i2⟩ := ih (regionLoopBody rb ma s) hl (by omega) (by omega)
        (by rw [hb1, hbw]; rfl) (by rw [hb1, hbh]; rfl) (by rw [hb1, hbd])
      rw [hb1] at i1 i2
      rw [hk0]
      constructor
      · intro k h1 h2
        by_cases hk1 : k = k0 + 1
        · subst hk1
          have hfr := fun i hi => regionLoop_frame2 rb ma L fuel _ l hl (by rw [hb1]; omega) i
            (Or.inl hi)
          rw [hb1] at hfr
          simp only [loadU32]
          rw [@loadLE_congr l.arena (regionLoopBody rb ma s).arena _ 4
            (fun i _ _ => hfr i (by omega))]
          simp only [regionLoopBody, sizeof_ImageWriteRegion, storeU32, hk0, hdo]
          rw [loadLE_storeLE_same]
          simp only [u32]
          have hm1 := mipOffset_mono w h (k0 + 1) (k0 + 1 + 1) (by omega)
          rw [Nat.mod_eq_of_lt (show mipOffset w h (k0 + 1) < 2 ^ 32 by omega)]
          exact Nat.mod_eq_of_lt (by omega)
        · exact i1 k (by omega) h2
      · intro a ha
        have hm1 := mipOffset_mono w h (k0 + 1) (k0 + 1 + 1) (by omega)
        rw [i2 a (by omega), hbhost a (by omega)]


/-! ## Counting the iterations of the region loop -/

theorem regionLoopAfter_succ (rb ma : Nat) (s : RegionLoop) (j : Nat) :
    regionLoopAfter rb ma s (j + 1) = regionLoopBody rb ma (regionLoopAfter rb ma s j) := by
  simp only [regionLoopAfter, Function.iterate_succ_apply']

theorem regionLoopAfter_shift (rb ma : Nat) (s : RegionLoop) (j : Nat) :
    regionLoopAfter rb ma s (j + 1) = regionLoopAfter rb ma (regionLoopBody rb ma s) j := by
  simp only [regionLoopAfter, Function.iterate_succ_apply]

theorem regionLoopAfter_region (rb ma : Nat) (s : RegionLoop) (j : Nat) :
    (regionLoopAfter rb ma s j).region = s.region + j := by
  induction j with
  | zero => rfl
  | succ j ih =>
    rw [regionLoopAfter_succ]
    simp only [regionLoopBody, ih]
    omega

theorem regionLoopAfter_mipLevel (rb ma : Nat) (s : RegionLoop) (j : Nat)
    (h : s.mipLevel + j < 2 ^ 32) : (regionLoopAfter rb ma s j).mipLevel = s.mipLevel + j := by
  induction j with
  | zero => rfl
  | succ j ih =>
    rw [regionLoopAfter_succ]
    simp only [regionLoopBody, ih (by omega), u32]
    exact Nat.mod_eq_of_lt (by omega)

/-- With at least `n` units of fuel, a loop that is `n` regions away from `regions_end`
returns the state reached by `n` executions of its body. -/
theorem regionLoop_iterate (rb ma L : Nat) (n fuel : Nat) (s : RegionLoop)
    (h : s.region + n = L) (hf : n ≤ fuel) :
    regionLoop rb ma L fuel s = some (regionLoopAfter rb ma s n) := by
  induction n generalizing fuel s with
  | zero =>
    unfold regionLoop
    rw [if_pos (by omega)]
    rfl
  | succ n ih =>
    cases fuel with
    | zero => omega
    | succ fuel =>
      unfold regionLoop
      rw [if_neg (by omega)]
      simp only []
      rw [ih fuel (regionLoopBody rb ma s) (by simp only [regionLoopBody]; omega) (by omega),
        regionLoopAfter_shift]

/-- With fewer than `n` units of fuel, a loop that is `n` regions away from `regions_end`
does not get there. -/
theorem regionLoop_short (rb ma L : Nat) (fuel n : Nat) (s : RegionLoop)
    (h : s.region + n = L) (hf : fuel < n) : regionLoop rb ma L fuel s = none := by
  induction fuel generalizing n s with
  | zero =>
    unfold regionLoop
    rw [if_neg (by omega)]
  | succ fuel ih =>
    unfold regionLoop
    rw [if_neg (by omega)]
    simp only []
    exact ih (n - 1) (regionLoopBody rb ma s) (by simp only [regionLoopBody]; omega) (by omega)

theorem regionLoopBody_frame (rb ma : Nat) (s : RegionLoop) (i : Nat)
    (hi : i < rb + 16 * s.region ∨ rb + 16 * (s.region + 1) ≤ i) :
    (regionLoopBody rb ma s).arena i = s.arena i := by
  simp only [regionLoopBody, storeU32, storeLE, sizeof_ImageWriteRegion]
  rw [if_neg (by omega), if_neg (by omega), if_neg (by omega), if_neg (by omega)]

theorem regionLoopAfter_frame (rb ma : Nat) (s : RegionLoop) (j i : Nat)
    (hi : i < rb + 16 * s.region ∨ rb + 16 * (s.region + j) ≤ i) :
    (regionLoopAfter rb ma s j).arena i = s.arena i := by
  induction j with
  | zero => rfl
  | succ j ih =>
    rw [regionLoopAfter_succ, regionLoopBody_frame _ _ _ _
      (by rw [regionLoopAfter_region]; omega)]
    exact ih (by omega)

/-- After `j` executions of the body the descriptors of the regions the loop has passed
hold their level numbers. -/
theorem regionLoopAfter_levels (rb ma : Nat) (s : RegionLoop) (j : Nat)
    (hlev : s.mipLevel = s.region) (hb : s.region + j < 2 ^ 32) (k : Nat)
    (h1 : s.region ≤ k) (h2 : k < s.region + j) :
    loadU32 (regionLoopAfter rb ma s j).arena (rb + 16 * k + 4) = k := by
  induction j with
  | zero => omega
  | succ j ih =>
    rw [regionLoopAfter_succ]
    by_cases hk : k = s.region + j
    · have hr := regionLoopAfter_region rb ma s j
      have hm := regionLoopAfter_mipLevel rb ma s j (by omega)
      simp only [regionLoopBody, sizeof_ImageWriteRegion, storeU32, loadU32, hr, hm, hk, hlev]
      simp (disch := omega) only [loadLE_storeLE_disj, loadLE_storeLE_same]
      exact Nat.mod_eq_of_lt (by omega)
    · simp only [loadU32]
      rw [loadLE_congr _ 4 (fun i _ _ => regionLoopBody_frame rb ma _ i
        (by rw [regionLoopAfter_region]; omega))]
      exact ih (by omega) (by omega)

/-! ## The halving steps -/

theorem budgetStep_eq (d : Nat) : budgetStep d = max 1 (d / 2) := by
  simp only [budgetStep, Nat.shiftRight_eq_div_pow, pow_one]
  exact budget_halve_eq d

theorem generatorStep_eq (d : Nat) : generatorStep d = max 1 (d / 2) := by
  simp only [generatorStep]
  split
  · rw [max_eq_left (by omega)]
  · rw [max_eq_right (by omega)]

theorem mipchainLoop_step (bpt n w h t : Nat) :
    mipchainLoop bpt (n + 1) w h t
      = mipchainLoop bpt n (budgetStep w) (budgetStep h) (u64 (t + u64 (u64 (bpt * w) * h))) := by
  simp only [mipchainLoop, budgetStep, Nat.shiftRight_eq_div_pow, pow_one]

theorem generatorStep_iterate (d k : Nat) : generatorStep^[k] d = mipExtent d k := by
  induction k with
  | zero => rfl
  | succ k ih =>
    rw [Function.iterate_succ_apply', ih]
    rfl

theorem chainTexels_eq_sum (w h L : Nat) :
    chainTexels w h L
      = ((List.range L).map (fun k => generatorStep^[k] w * generatorStep^[k] h)).sum := by
  induction L with
  | zero => rfl
  | succ L ih =>
    rw [List.range_succ, List.map_append, List.sum_append, ← ih]
    simp only [chainTexels, chainExtent_eq_mipExtent, generatorStep_iterate, List.map_cons,
      List.map_nil, List.sum_cons, List.sum_nil, Nat.add_zero]

/-! ## Properties of the encoder -/

/-- C1: after any sequence of N calls on a freshly created encoder that all succeed and
fit in the arena, `get_encoded_data` reports N records; walking the arena from offset 0
by adding each header's size field passes N record starts below the reported byte
length and ends exactly at it, so the N declared sizes sum to the byte length. -/
theorem stream_walk_matches_counters (cs : List Call) (arena : Mem)
    (addr allocator pipelineManager stagingAllocator : Nat) (host : Mem)
    (hok : allSucceed cs (cbe_create arena addr allocator pipelineManager stagingAllocator, host)) :
    ∃ s1, runCalls cs (cbe_create arena addr allocator pipelineManager stagingAllocator, host)
        = some s1
      ∧ (cbe_get_encoded_data s1.1).2.2 = cs.length
      ∧ walk (cbe_get_encoded_data s1.1).1 0 cs.length = (cbe_get_encoded_data s1.1).2.1
      ∧ (∀ k, k < cs.length →
          walk (cbe_get_encoded_data s1.1).1 0 k < (cbe_get_encoded_data s1.1).2.1)
      ∧ (declaredSizes (cbe_get_encoded_data s1.1).1 0 cs.length).sum
          = (cbe_get_encoded_data s1.1).2.1 := by
  obtain ⟨s1, h1, h2, h3⟩ := runCalls_StreamOK cs _ hok (by simp [cbe_create, StreamOK])
  simp only [cbe_create, Nat.zero_add] at h2
  rw [h2] at h3
  refine ⟨s1, h1, h2, ?_, ?_, ?_⟩
  · exact StreamOK_walk _ _ _ _ h3
  · exact fun k hk => StreamOK_walk_lt _ _ _ _ h3 k hk
  · simpa using StreamOK_sum _ _ _ _ h3

theorem stream_walk_matches_counters_witness :
    allSucceed exampleSession (cbe_create zeroMem 4096 1 2 3, zeroMem)
    ∧ ∃ s1, runCalls exampleSession (cbe_create zeroMem 4096 1 2 3, zeroMem) = some s1
      ∧ (cbe_get_encoded_data s1.1).2.2 = exampleSession.length
      ∧ walk (cbe_get_encoded_data s1.1).1 0 exampleSession.length
          = (cbe_get_encoded_data s1.1).2.1
      ∧ (∀ k, k < exampleSession.length →
          walk (cbe_get_encoded_data s1.1).1 0 k < (cbe_get_encoded_data s1.1).2.1)
      ∧ (declaredSizes (cbe_get_encoded_data s1.1).1 0 exampleSession.length).sum
          = (cbe_get_encoded_data s1.1).2.1 :=
  have h : allSucceed exampleSession (cbe_create zeroMem 4096 1 2 3, zeroMem) :=
    ⟨rfl, by decide, _, rfl, rfl, by decide, _, rfl, rfl, by decide, _, rfl, trivial⟩
  ⟨h, stream_walk_matches_counters exampleSession zeroMem 4096 1 2 3 zeroMem h⟩

/-- C4: a call that succeeds (its allocation succeeds, it returns, and its record fits in
the arena) advances the byte counter by exactly the size field of the header it wrote,
and that size is header plus fixed payload plus the byte size of the trailing array. -/
theorem advance_equals_declared_size (c : Call) (s s1 : le_command_buffer_encoder_o × Mem)
    (h : c.run s = some s1) (ha : c.allocated = true) (hf : c.fits s.1) :
    s1.1.mCommandStreamSize
        = s.1.mCommandStreamSize + headerSizeAt s1.1.mCommandStream s.1.mCommandStreamSize
    ∧ headerSizeAt s1.1.mCommandStream s.1.mCommandStreamSize
        = sizeofCommand c.kind + c.trailingBytes := by
  have hf1 : c.recordBytes < 2 ^ 32 := by
    simp only [Call.fits, arenaCapacity] at hf
    omega
  have h1 := Call.run_emits c s s1 h ha hf1
  exact ⟨h1.2.1, h1.2.2.1⟩

theorem advance_equals_declared_size_witness :
    (Call.set_viewport 0 2 exampleViewports).run (freshEncoder, zeroMem)
        = some (cbe_set_viewport freshEncoder 0 2 exampleViewports, zeroMem)
    ∧ (Call.set_viewport 0 2 exampleViewports).allocated = true
    ∧ (Call.set_viewport 0 2 exampleViewports).fits freshEncoder
    ∧ (cbe_set_viewport freshEncoder 0 2 exampleViewports).mCommandStreamSize
        = freshEncoder.mCommandStreamSize
          + headerSizeAt (cbe_set_viewport freshEncoder 0 2 exampleViewports).mCommandStream
              freshEncoder.mCommandStreamSize
    ∧ headerSizeAt (cbe_set_viewport freshEncoder 0 2 exampleViewports).mCommandStream
          freshEncoder.mCommandStreamSize
        = sizeofCommand (Call.set_viewport 0 2 exampleViewports).kind
          + (Call.set_viewport 0 2 exampleViewports).trailingBytes :=
  ⟨rfl, rfl, by decide,
    advance_equals_declared_size (Call.set_viewport 0 2 exampleViewports)
      (freshEncoder, zeroMem) (cbe_set_viewport freshEncoder 0 2 exampleViewports, zeroMem)
      rfl rfl (by decide)⟩

/-- C5: append only.  Whatever the call and whether or not it emits a record, every arena
byte below the byte counter as it was before the call is the same after the call. -/
theorem append_only (c : Call) (s s1 : le_command_buffer_encoder_o × Mem)
    (h : c.run s = some s1) (i : Nat) (hi : i < s.1.mCommandStreamSize) :
    s1.1.mCommandStream i = s.1.mCommandStream i :=
  Call.run_frame c s s1 h i hi

theorem append_only_witness :
    (Call.bind_vertex_buffers 0 2 [7, 8] [0, 64]).run
        (cbe_draw freshEncoder 3 1 0 0, zeroMem)
      = some (cbe_bind_vertex_buffers (cbe_draw freshEncoder 3 1 0 0) 0 2 [7, 8] [0, 64], zeroMem)
    ∧ 8 < (cbe_draw freshEncoder 3 1 0 0).mCommandStreamSize
    ∧ (cbe_bind_vertex_buffers (cbe_draw freshEncoder 3 1 0 0) 0 2 [7, 8] [0, 64]).mCommandStream 8
      = (cbe_draw freshEncoder 3 1 0 0).mCommandStream 8 :=
  ⟨rfl, by decide,
    append_only (Call.bind_vertex_buffers 0 2 [7, 8] [0, 64])
      (cbe_draw freshEncoder 3 1 0 0, zeroMem)
      (cbe_bind_vertex_buffers (cbe_draw freshEncoder 3 1 0 0) 0 2 [7, 8] [0, 64], zeroMem)
      rfl 8 (by decide)⟩

/-- C6: when the scratch allocation fails, `set_vertex_data` leaves the record count and
the byte counter exactly as they were, whatever the encoder, data, size and binding. -/
theorem set_vertex_data_failure_keeps_counters (self : le_command_buffer_encoder_o)
    (host : Mem) (allocatorBufferId : Nat) (data : List Nat) (numBytes bindingIndex : Nat) :
    (cbe_set_vertex_data self host none allocatorBufferId data numBytes bindingIndex).1.mCommandCount
        = self.mCommandCount
    ∧ (cbe_set_vertex_data self host none allocatorBufferId data numBytes
        bindingIndex).1.mCommandStreamSize = self.mCommandStreamSize :=
  ⟨rfl, rfl⟩

/-- C2: for every sequence of `bind_pipeline` and `draw` calls (arguments in the range of
their C types) on a fresh encoder, decoding the stream front to back yields one record
per call, of the same kind, in call order, carrying exactly the arguments of the call. -/
theorem bind_draw_sequence_decodes (cs : List Call) (arena : Mem)
    (addr allocator pipelineManager stagingAllocator : Nat) (host : Mem)
    (hpd : ∀ c, c ∈ cs → c.isBindOrDraw) :
    ∃ s1, runCalls cs (cbe_create arena addr allocator pipelineManager stagingAllocator, host)
        = some s1
      ∧ (cbe_get_encoded_data s1.1).2.2 = cs.length
      ∧ decodeStream (cbe_get_encoded_data s1.1).1 0 (cbe_get_encoded_data s1.1).2.2
          = cs.map Call.toRecord := by
  obtain ⟨s1, h1, h2, _, h4⟩ := runCalls_decode cs
    (cbe_create arena addr allocator pipelineManager stagingAllocator, host) hpd
    (by simp [cbe_create, StreamOK])
  refine ⟨s1, h1, ?_, ?_⟩
  · simpa [cbe_create, cbe_get_encoded_data] using h2
  · simpa [cbe_create, cbe_get_encoded_data, decodeStream] using h4

theorem bind_draw_sequence_decodes_witness :
    (∀ c, c ∈ orderingScenario → c.isBindOrDraw)
    ∧ ∃ s1, runCalls orderingScenario (cbe_create zeroMem 4096 1 2 3, zeroMem) = some s1
      ∧ (cbe_get_encoded_data s1.1).2.2 = orderingScenario.length
      ∧ decodeStream (cbe_get_encoded_data s1.1).1 0 (cbe_get_encoded_data s1.1).2.2
          = orderingScenario.map Call.toRecord :=
  have h : ∀ c, c ∈ orderingScenario → c.isBindOrDraw := by
    intro c hc
    simp only [orderingScenario, List.mem_cons, List.mem_singleton, List.not_mem_nil,
      or_false] at hc
    rcases hc with rfl | rfl | rfl | rfl <;> simp [Call.isBindOrDraw]
  ⟨h, bind_draw_sequence_decodes orderingScenario zeroMem 4096 1 2 3 zeroMem h⟩

/-- C3: round trip of `set_viewport`.  Decoding the record that `set_viewport` appended
yields `firstViewport` and `viewportCount` unchanged and, read immediately after the
fixed payload, a viewport array equal to the input array, element by element, bit for
bit and in the same order. -/
theorem set_viewport_round_trip (self : le_command_buffer_encoder_o)
    (firstViewport viewportCount : Nat) (pViewports : List Viewport)
    (hfirst : firstViewport < 2 ^ 32) (hcount : viewportCount < 2 ^ 32)
    (hlen : pViewports.length = viewportCount)
    (hvalid : ∀ v, v ∈ pViewports → v.Valid) :
    decodeSetViewport
        (cbe_set_viewport self firstViewport viewportCount pViewports).mCommandStream
        self.mCommandStreamSize
      = (firstViewport, viewportCount, pViewports) := by
  have d : Viewport := ⟨0, 0, 0, 0, 0, 0⟩
  simp only [decodeSetViewport, cbe_set_viewport]
  simp (disch := omega) only [loadU32, storeU32, loadLE_memcpy_disj, loadLE_storeLE_disj,
    loadLE_storeLE_same, sizeofCommand, sizeof_Viewport]
  have e1 : firstViewport % 256 ^ 4 = firstViewport := Nat.mod_eq_of_lt (by omega)
  have e2 : viewportCount % 256 ^ 4 = viewportCount := Nat.mod_eq_of_lt (by omega)
  rw [e1, e2]
  refine Prod.ext rfl (Prod.ext rfl ?_)
  apply List.ext_getElem
  · simp [hlen]
  · intro k h1 h2
    simp only [List.getElem_map, List.getElem_range]
    have hk : k < pViewports.length := h2
    have hg : pViewports.getD k d = pViewports[k] := List.getD_eq_getElem _ _ hk
    have hv : (pViewports.getD k d).Valid := by
      rw [hg]
      exact hvalid _ (List.getElem_mem _)
    have h3 := loadViewport_memcpy
      (storeLE (storeLE (storeLE (EMPLACE_CMD self CommandType.eSetViewport)
        (self.mCommandStreamSize + 8) 4 firstViewport)
        (self.mCommandStreamSize + 12) 4 viewportCount)
        (self.mCommandStreamSize + 4) 4
        ((headerSizeAt (storeLE (storeLE (EMPLACE_CMD self CommandType.eSetViewport)
          (self.mCommandStreamSize + 8) 4 firstViewport)
          (self.mCommandStreamSize + 12) 4 viewportCount) self.mCommandStreamSize
          + 24 * viewportCount) % 2 ^ 32))
      (self.mCommandStreamSize + 16) pViewports viewportCount k d hlen (by omega) hv
    simp only [sizeof_Viewport] at h3
    rw [h3, hg]

theorem set_viewport_round_trip_witness :
    (0 < 2 ^ 32 ∧ 2 < 2 ^ 32 ∧ exampleViewports.length = 2
      ∧ ∀ v, v ∈ exampleViewports → v.Valid)
    ∧ decodeSetViewport (cbe_set_viewport freshEncoder 0 2 exampleViewports).mCommandStream
        freshEncoder.mCommandStreamSize = (0, 2, exampleViewports) :=
  have hv : ∀ v, v ∈ exampleViewports → v.Valid := by decide
  ⟨⟨by decide, by decide, rfl, hv⟩,
    set_viewport_round_trip freshEncoder 0 2 exampleViewports (by decide) (by decide) rfl hv⟩

/-- C7, as stated, fails: a `set_argument_ubo_data` call whose scratch allocation fails
has already emplaced its record header, so the arena byte at offset 4 of a fresh zeroed
encoder is no longer what it was. -/
theorem failed_ubo_allocation_changes_arena :
    (cbe_set_argument_ubo_data freshEncoder zeroMem none 9 1 [] 16).1.mCommandCount
        = freshEncoder.mCommandCount
    ∧ (cbe_set_argument_ubo_data freshEncoder zeroMem none 9 1 [] 16).1.mCommandStream 4
        ≠ freshEncoder.mCommandStream 4 := by
  decide

/-- C7, amended: when the allocation of an allocator backed call fails, the record count
and the byte counter are unchanged, every arena byte other than the eight header bytes
at the write cursor is unchanged, the memory behind the allocators is unchanged,
`set_vertex_data` and `set_index_data` leave the whole state unchanged, and a following
successful call yields exactly the state it yields when the failed call is never made. -/
theorem failed_allocation_drops_call (c c2 : Call) (s s1 : le_command_buffer_encoder_o × Mem)
    (h : c.run s = some s1) (ha : c.allocated = false) (ha2 : c2.allocated = true) :
    s1.1.mCommandCount = s.1.mCommandCount
    ∧ s1.1.mCommandStreamSize = s.1.mCommandStreamSize
    ∧ (∀ i, i < s.1.mCommandStreamSize ∨ s.1.mCommandStreamSize + 8 ≤ i →
        s1.1.mCommandStream i = s.1.mCommandStream i)
    ∧ s1.2 = s.2
    ∧ (∀ id data n b, c = Call.set_vertex_data none id data n b → s1 = s)
    ∧ (∀ id data n t, c = Call.set_index_data none id data n t → s1 = s)
    ∧ c2.run s1 = c2.run s := by
  have hd := Call.run_dropped c s s1 h ha
  refine ⟨hd.1, hd.2, ?_, ?_, ?_, ?_, ?_⟩
  · intro i hi
    rcases Call.run_failed_shape c s s1 h ha with e | ⟨t, e⟩
    · rw [e]
    · rw [e]
      exact EMPLACE_CMD_outside s.1 t i hi
  · rcases Call.run_failed_shape c s s1 h ha with e | ⟨t, e⟩ <;> rw [e]
  · intro id data n b e
    subst e
    simp only [Call.run, cbe_set_vertex_data, Option.some.injEq] at h
    exact h.symm
  · intro id data n t e
    subst e
    simp only [Call.run, cbe_set_index_data, Option.some.injEq] at h
    exact h.symm
  · rcases Call.run_failed_shape c s s1 h ha with e | ⟨t, e⟩
    · rw [e]
    · rw [e]
      exact Call.run_after_emplace c2 s.1 s.2 t ha2

theorem failed_allocation_drops_call_witness :
    ((Call.write_to_buffer none 7 0 [1, 2, 3, 4] 4).run (cbe_draw freshEncoder 3 1 0 0, zeroMem)
        = some (cbe_write_to_buffer (cbe_draw freshEncoder 3 1 0 0) zeroMem none 7 0 [1, 2, 3, 4] 4)
      ∧ (Call.write_to_buffer none 7 0 [1, 2, 3, 4] 4).allocated = false
      ∧ (Call.draw 6 1 0 0).allocated = true)
    ∧ (cbe_write_to_buffer (cbe_draw freshEncoder 3 1 0 0) zeroMem none 7 0
          [1, 2, 3, 4] 4).1.mCommandCount = (cbe_draw freshEncoder 3 1 0 0).mCommandCount
    ∧ (Call.draw 6 1 0 0).run
          (cbe_write_to_buffer (cbe_draw freshEncoder 3 1 0 0) zeroMem none 7 0 [1, 2, 3, 4] 4)
        = (Call.draw 6 1 0 0).run (cbe_draw freshEncoder 3 1 0 0, zeroMem) :=
  have w := failed_allocation_drops_call (Call.write_to_buffer none 7 0 [1, 2, 3, 4] 4)
    (Call.draw 6 1 0 0) (cbe_draw freshEncoder 3 1 0 0, zeroMem)
    (cbe_write_to_buffer (cbe_draw freshEncoder 3 1 0 0) zeroMem none 7 0 [1, 2, 3, 4] 4)
    rfl rfl rfl
  ⟨⟨rfl, rfl, rfl⟩, w.1, w.2.2.2.2.2.2⟩

/-- C8: mip level dimensions.  For a base width and height of at least 1 and at least one
mip level, a `write_to_image` whose staging map succeeds returns (given fuel for the
`L - 1` loop iterations), and region descriptor `k` of its record has `dstMipLevel = k`,
width `max 1 (w / 2 ^ k)` and height `max 1 (h / 2 ^ k)`; no level has a zero dimension. -/
theorem mip_level_extents (fuel : Nat) (self : le_command_buffer_encoder_o) (host : Mem)
    (map : Mapping) (resourceId : Nat) (resourceInfo : le_resource_info_t)
    (data : List Nat) (numBytes : Nat)
    (htype : resourceInfo.type = LeResourceType.eImage)
    (hfmt : ∃ b, numBytesPerTexel resourceInfo.image.format = some b)
    (hw1 : 1 ≤ resourceInfo.image.width) (hw : resourceInfo.image.width < 2 ^ 32)
    (hh1 : 1 ≤ resourceInfo.image.height) (hh : resourceInfo.image.height < 2 ^ 32)
    (hL1 : 1 ≤ resourceInfo.image.mipLevels) (hL : resourceInfo.image.mipLevels < 2 ^ 32)
    (hfuel : resourceInfo.image.mipLevels - 1 ≤ fuel) :
    ∃ r, cbe_write_to_image fuel self host (some map) resourceId resourceInfo data numBytes
        = some r
      ∧ ∀ k, k < resourceInfo.image.mipLevels →
          (regionAt r.1.mCommandStream self.mCommandStreamSize k).dstMipLevel = k
          ∧ (regionAt r.1.mCommandStream self.mCommandStreamSize k).dstMipLevelExtentW
              = max 1 (resourceInfo.image.width / 2 ^ k)
          ∧ (regionAt r.1.mCommandStream self.mCommandStreamSize k).dstMipLevelExtentH
              = max 1 (resourceInfo.image.height / 2 ^ k)
          ∧ 1 ≤ (regionAt r.1.mCommandStream self.mCommandStreamSize k).dstMipLevelExtentW
          ∧ 1 ≤ (regionAt r.1.mCommandStream self.mCommandStreamSize k).dstMipLevelExtentH := by
  obtain ⟨b, hb⟩ := hfmt
  have hb0 := numBytesPerTexel_ne_zero _ _ hb
  have hget : getNumBytesRequiredForMipchain resourceInfo.image
      = some (mipchainLoop b resourceInfo.image.mipLevels resourceInfo.image.width
          resourceInfo.image.height 0) := by
    simp [getNumBytesRequiredForMipchain, hb, hb0]
  obtain ⟨l, hl, hk⟩ := regionLoop_regions
    (self.mCommandStreamSize + sizeofCommand .eWriteToImage) map.memAddr
    resourceInfo.image.mipLevels resourceInfo.image.width resourceInfo.image.height
    hL hw hh hw1 hh1 fuel
    { arena := storeU32 (storeU32 (storeU32 (storeU32 (EMPLACE_CMD self .eWriteToImage)
        (self.mCommandStreamSize + sizeofCommand .eWriteToImage + 4) 0)
        (self.mCommandStreamSize + sizeofCommand .eWriteToImage + 8) resourceInfo.image.width)
        (self.mCommandStreamSize + sizeofCommand .eWriteToImage + 12) resourceInfo.image.height)
        (self.mCommandStreamSize + sizeofCommand .eWriteToImage) 0
      host := memcpy host map.memAddr data numBytes
      region := 1
      mipLevel := 1
      dstRegionOffsetInBytes := numBytes
      srcRegionOffsetInBytes := 0
      srcWidth := resourceInfo.image.width
      srcHeight := resourceInfo.image.height }
    (le_refl _) hL1 hfuel rfl rfl rfl
  have hfr := fun i hi => regionLoop_frame2 _ _ _ _ _ _ hl (le_refl _) i (Or.inl hi)
  simp only [cbe_write_to_image, htype, hget, hl, ne_eq, not_true_eq_false, if_false]
  refine ⟨_, rfl, ?_⟩
  intro k hkL
  suffices hs : (regionAt _ self.mCommandStreamSize k).dstMipLevel = k
      ∧ (regionAt _ self.mCommandStreamSize k).dstMipLevelExtentW
          = max 1 (resourceInfo.image.width / 2 ^ k)
      ∧ (regionAt _ self.mCommandStreamSize k).dstMipLevelExtentH
          = max 1 (resourceInfo.image.height / 2 ^ k) by
    refine ⟨hs.1, hs.2.1, hs.2.2, ?_, ?_⟩
    · rw [hs.2.1]
      exact le_max_left _ _
    · rw [hs.2.2]
      exact le_max_left _ _
  simp only [regionAt, loadRegion, loadU32, storeU32, storeU64, sizeofCommand,
    sizeof_ImageWriteRegion] at hk hfr ⊢
  simp (disch := omega) only [loadLE_storeLE_disj]
  rw [← mipExtent_eq _ _ hw1, ← mipExtent_eq _ _ hh1]
  by_cases hk0 : k = 0
  · subst hk0
    rw [loadLE_congr _ 4 (fun i _ _ => hfr i (by omega)),
      loadLE_congr _ 4 (fun i _ _ => hfr i (by omega)),
      loadLE_congr _ 4 (fun i _ _ => hfr i (by omega))]
    simp (disch := omega) only [loadLE_storeLE_disj, loadLE_storeLE_same, mipExtent]
    refine ⟨by norm_num, Nat.mod_eq_of_lt (by omega), Nat.mod_eq_of_lt (by omega)⟩
  · exact hk k (by omega) hkL

theorem mip_level_extents_witness :
    (exampleImage.type = LeResourceType.eImage
      ∧ (∃ b, numBytesPerTexel exampleImage.image.format = some b)
      ∧ 1 ≤ exampleImage.image.width ∧ exampleImage.image.width < 2 ^ 32
      ∧ 1 ≤ exampleImage.image.height ∧ exampleImage.image.height < 2 ^ 32
      ∧ 1 ≤ exampleImage.image.mipLevels ∧ exampleImage.image.mipLevels < 2 ^ 32
      ∧ exampleImage.image.mipLevels - 1 ≤ 2)
    ∧ ∃ r, cbe_write_to_image 2 freshEncoder zeroMem (some ⟨0, 5⟩) 9 exampleImage
          (List.replicate 64 200) 64 = some r
      ∧ ∀ k, k < exampleImage.image.mipLevels →
          (regionAt r.1.mCommandStream freshEncoder.mCommandStreamSize k).dstMipLevel = k
          ∧ (regionAt r.1.mCommandStream freshEncoder.mCommandStreamSize k).dstMipLevelExtentW
              = max 1 (exampleImage.image.width / 2 ^ k)
          ∧ (regionAt r.1.mCommandStream freshEncoder.mCommandStreamSize k).dstMipLevelExtentH
              = max 1 (exampleImage.image.height / 2 ^ k)
          ∧ 1 ≤ (regionAt r.1.mCommandStream freshEncoder.mCommandStreamSize k).dstMipLevelExtentW
          ∧ 1 ≤ (regionAt r.1.mCommandStream freshEncoder.mCommandStreamSize k).dstMipLevelExtentH :=
  ⟨⟨rfl, ⟨4, rfl⟩, by decide, by decide, by decide, by decide, by decide, by decide, by decide⟩,
    mip_level_extents 2 freshEncoder zeroMem ⟨0, 5⟩ 9 exampleImage (List.replicate 64 200) 64
      rfl ⟨4, rfl⟩ (by decide) (by decide) (by decide) (by decide) (by decide) (by decide)
      (by decide)⟩

/-- C9, as stated, fails for a level of more than `2 ^ 32` texels: the destination texel
index is computed in `uint32_t`, so for a uniform 131074 by 131072 image (every level a
source of at least two by two) texel `(1, 65535)` of mip level 1 is never written and
keeps the zero the staging memory held. -/
theorem uniform_image_overflow :
    (∀ j c, j < hugeImage.image.width * hugeImage.image.height → c < 4 →
        hugeImageData.getD (4 * j + c) 0 = [7, 7, 7, 7].getD c 0)
    ∧ (∀ k, k + 1 < hugeImage.image.mipLevels →
        2 ≤ mipExtent hugeImage.image.width k ∧ 2 ≤ mipExtent hugeImage.image.height k)
    ∧ ∃ res, cbe_write_to_image 1 freshEncoder zeroMem (some ⟨0, 5⟩) 9 hugeImage hugeImageData
          (4 * (hugeImage.image.width * hugeImage.image.height)) = some res
        ∧ ¬ ∀ k, k < hugeImage.image.mipLevels →
            UniformLevel res.2 0 hugeImage.image.width hugeImage.image.height 7 7 7 7 k := by
  refine ⟨?_, ?_, ?_⟩
  · intro j c hj hc
    have hlen : 4 * j + c < hugeImageData.length := by
      simp only [hugeImageData, List.length_replicate]
      simp only [hugeImage] at hj
      omega
    rw [List.getD_eq_getElem _ _ hlen]
    simp only [hugeImageData, List.getElem_replicate]
    have h4 : c = 0 ∨ c = 1 ∨ c = 2 ∨ c = 3 := by omega
    rcases h4 with rfl | rfl | rfl | rfl <;> rfl
  · intro k hk
    have : k = 0 := by
      simp only [hugeImage] at hk
      omega
    subst this
    simp only [mipExtent, hugeImage]
    omega
  · obtain ⟨res, h1, h2⟩ := write_to_image_two_levels freshEncoder zeroMem ⟨0, 5⟩ 9 hugeImage
      hugeImageData (4 * (hugeImage.image.width * hugeImage.image.height)) rfl rfl rfl
    refine ⟨res, h1, ?_⟩
    intro hall
    have hw : mipExtent hugeImage.image.width 1 = 65537 := by decide
    have hh : mipExtent hugeImage.image.height 1 = 65536 := by decide
    have ho : mipOffset hugeImage.image.width hugeImage.image.height 1 = 68720525312 := by
      decide
    have hn : 4 * (hugeImage.image.width * hugeImage.image.height) = 68720525312 := by decide
    have h3 := hall 1 (by decide) 1 65535 0 (by rw [hw]; omega) (by rw [hh]; omega) (by omega)
    simp only [texelChannel, loadByte, hw, ho, h2, hn] at h3
    rw [generate_mipmap_far _ _ _ _ _ _ (Or.inr (by norm_num))] at h3
    simp only [memcpy] at h3
    rw [if_neg (by norm_num)] at h3
    simp [zeroMem] at h3

/-- C9, amended: for a four channel 8 bit base image of at most `2 ^ 32` bytes in which
every texel is `(r, g, b, a)`, with `numBytes = 4 * w * h` and every downsampled source
level at least two by two, `write_to_image` returns (given fuel for the `L - 1` loop
iterations) and every texel of every mip level in the staged data is `(r, g, b, a)`. -/
theorem uniform_image_mip_chain (fuel : Nat) (self : le_command_buffer_encoder_o) (host : Mem)
    (map : Mapping) (resourceId : Nat) (resourceInfo : le_resource_info_t)
    (data : List Nat) (numBytes r g b a : Nat)
    (htype : resourceInfo.type = LeResourceType.eImage)
    (hfmt : numBytesPerTexel resourceInfo.image.format = some 4)
    (hw1 : 1 ≤ resourceInfo.image.width) (hh1 : 1 ≤ resourceInfo.image.height)
    (hL : resourceInfo.image.mipLevels < 2 ^ 32)
    (hL1 : 1 ≤ resourceInfo.image.mipLevels)
    (hb : 4 * (resourceInfo.image.width * resourceInfo.image.height) ≤ 2 ^ 32)
    (hn : numBytes = 4 * (resourceInfo.image.width * resourceInfo.image.height))
    (hr : r < 256) (hg : g < 256) (hbl : b < 256) (ha : a < 256)
    (hdata : ∀ j c, j < resourceInfo.image.width * resourceInfo.image.height → c < 4 →
      data.getD (4 * j + c) 0 = [r, g, b, a].getD c 0)
    (hlev : ∀ k, k + 1 < resourceInfo.image.mipLevels →
      2 ≤ mipExtent resourceInfo.image.width k ∧ 2 ≤ mipExtent resourceInfo.image.height k)
    (hfuel : resourceInfo.image.mipLevels - 1 ≤ fuel) :
    ∃ res, cbe_write_to_image fuel self host (some map) resourceId resourceInfo data numBytes
        = some res
      ∧ ∀ k, k < resourceInfo.image.mipLevels →
          UniformLevel res.2 map.memAddr resourceInfo.image.width resourceInfo.image.height
            r g b a k := by
  have hget : getNumBytesRequiredForMipchain resourceInfo.image
      = some (mipchainLoop 4 resourceInfo.image.mipLevels resourceInfo.image.width
          resourceInfo.image.height 0) := by
    simp [getNumBytesRequiredForMipchain, hfmt]
  have hbase : UniformLevel (memcpy host map.memAddr data numBytes) map.memAddr
      resourceInfo.image.width resourceInfo.image.height r g b a 0 := by
    intro x y c hx hy hc
    simp only [mipExtent] at hx hy
    have ht := texel_index_lt _ _ y x hy hx
    simp only [texelChannel, loadByte, mipOffset, mipExtent, memcpy, Nat.add_zero]
    rw [if_pos (by omega)]
    have e : map.memAddr + 4 * (y * resourceInfo.image.width + x) + c - map.memAddr
        = 4 * (y * resourceInfo.image.width + x) + c := by omega
    rw [e, hdata _ c ht hc, Nat.mod_mod]
    apply Nat.mod_eq_of_lt
    have h4 : c = 0 ∨ c = 1 ∨ c = 2 ∨ c = 3 := by omega
    rcases h4 with rfl | rfl | rfl | rfl <;> simpa
  obtain ⟨l, hl, hk⟩ := regionLoop_uniform
    (self.mCommandStreamSize + sizeofCommand .eWriteToImage) map.memAddr
    resourceInfo.image.mipLevels resourceInfo.image.width resourceInfo.image.height r g b a
    hw1 hh1 hb hL hlev fuel
    { arena := storeU32 (storeU32 (storeU32 (storeU32 (EMPLACE_CMD self .eWriteToImage)
        (self.mCommandStreamSize + sizeofCommand .eWriteToImage + 4) 0)
        (self.mCommandStreamSize + sizeofCommand .eWriteToImage + 8) resourceInfo.image.width)
        (self.mCommandStreamSize + sizeofCommand .eWriteToImage + 12) resourceInfo.image.height)
        (self.mCommandStreamSize + sizeofCommand .eWriteToImage) 0
      host := memcpy host map.memAddr data numBytes
      region := 1
      mipLevel := 1
      dstRegionOffsetInBytes := numBytes
      srcRegionOffsetInBytes := 0
      srcWidth := resourceInfo.image.width
      srcHeight := resourceInfo.image.height }
    (le_refl _) hL1 hfuel rfl rfl rfl (by simp [mipOffset, mipExtent, hn])
    (fun k hk => by
      have : k = 0 := by simpa using hk
      subst this
      exact hbase)
  simp only [cbe_write_to_image, htype, hget, hl, ne_eq, not_true_eq_false, if_false]
  exact ⟨_, rfl, hk⟩

theorem uniform_image_mip_chain_witness :
    (exampleImage.type = LeResourceType.eImage
      ∧ numBytesPerTexel exampleImage.image.format = some 4
      ∧ 4 * (exampleImage.image.width * exampleImage.image.height) ≤ 2 ^ 32
      ∧ (∀ j c, j < exampleImage.image.width * exampleImage.image.height → c < 4 →
          (List.replicate 64 200).getD (4 * j + c) 0 = [200, 200, 200, 200].getD c 0)
      ∧ (∀ k, k + 1 < exampleImage.image.mipLevels →
          2 ≤ mipExtent exampleImage.image.width k ∧ 2 ≤ mipExtent exampleImage.image.height k))
    ∧ ∃ res, cbe_write_to_image 2 freshEncoder zeroMem (some ⟨0, 5⟩) 9 exampleImage
          (List.replicate 64 200) 64 = some res
      ∧ ∀ k, k < exampleImage.image.mipLevels →
          UniformLevel res.2 0 exampleImage.image.width exampleImage.image.height
            200 200 200 200 k :=
  have hdata : ∀ j c, j < exampleImage.image.width * exampleImage.image.height → c < 4 →
      (List.replicate 64 200).getD (4 * j + c) 0 = [200, 200, 200, 200].getD c 0 := by
    intro j c hj hc
    have hlen : 4 * j + c < (List.replicate 64 200).length := by
      simp only [List.length_replicate]
      simp only [exampleImage] at hj
      omega
    rw [List.getD_eq_getElem _ _ hlen, List.getElem_replicate]
    have h4 : c = 0 ∨ c = 1 ∨ c = 2 ∨ c = 3 := by omega
    rcases h4 with rfl | rfl | rfl | rfl <;> rfl
  have hlev : ∀ k, k + 1 < exampleImage.image.mipLevels →
      2 ≤ mipExtent exampleImage.image.width k ∧ 2 ≤ mipExtent exampleImage.image.height k := by
    intro k hk
    have h2 : k = 0 ∨ k = 1 := by
      simp only [exampleImage] at hk
      omega
    rcases h2 with rfl | rfl <;> decide
  ⟨⟨rfl, rfl, by decide, hdata, hlev⟩,
    uniform_image_mip_chain 2 freshEncoder zeroMem ⟨0, 5⟩ 9 exampleImage
      (List.replicate 64 200) 64 200 200 200 200 rfl rfl (by decide) (by decide) (by decide)
      (by decide) (by decide) rfl (by decide) (by decide) (by decide) (by decide) hdata hlev
      (by decide)⟩

/-- C10, as stated, fails: the conversion back to `uint8_t` discards the fraction.  For
a two by two source whose red values are 0, 0, 0 and 3 the average is 0.75; the
destination texel holds 0, the nearest integer is 1. -/
theorem mip_texel_not_rounded_to_nearest :
    texelChannel exampleLevel 0 2 0 0 0 + texelChannel exampleLevel 0 2 1 0 0
        + texelChannel exampleLevel 0 2 0 1 0 + texelChannel exampleLevel 0 2 1 1 0 = 3
    ∧ texelChannel (generate_mipmap exampleLevel 0 16 2 2).1 16 1 0 0 0 = 0
    ∧ texelChannel (generate_mipmap exampleLevel 0 16 2 2).1 16 1 0 0 0
        ≠ roundedQuarter (texelChannel exampleLevel 0 2 0 0 0 + texelChannel exampleLevel 0 2 1 0 0
            + texelChannel exampleLevel 0 2 0 1 0 + texelChannel exampleLevel 0 2 1 1 0) := by
  decide

/-- C10, amended: for a four channel 8 bit source level of width and height at least 2
that spans at most `2 ^ 32` bytes and does not overlap the destination level, each
channel of each destination texel `(x, y)` that `generate_mipmap` produces is the average
of that channel over the source texels `(2x, 2y)`, `(2x+1, 2y)`, `(2x, 2y+1)`,
`(2x+1, 2y+1)`, rounded down: the fraction is discarded. -/
theorem mip_texel_truncated_average (m : Mem) (pSrc pDst sw sh x y c : Nat)
    (hsw : 2 ≤ sw) (hsh : 2 ≤ sh) (hb : 4 * (sw * sh) ≤ 2 ^ 32)
    (hdisj : pSrc + 4 * (sw * sh) ≤ pDst ∨ pDst + 4 * ((sw / 2) * (sh / 2)) ≤ pSrc)
    (hx : x < (generate_mipmap m pSrc pDst sw sh).2.1)
    (hy : y < (generate_mipmap m pSrc pDst sw sh).2.2) (hc : c < 4) :
    texelChannel (generate_mipmap m pSrc pDst sw sh).1 pDst
        (generate_mipmap m pSrc pDst sw sh).2.1 x y c
      = (texelChannel m pSrc sw (2 * x) (2 * y) c
          + texelChannel m pSrc sw (2 * x + 1) (2 * y) c
          + texelChannel m pSrc sw (2 * x) (2 * y + 1) c
          + texelChannel m pSrc sw (2 * x + 1) (2 * y + 1) c) / 4
    ∧ 4 * texelChannel (generate_mipmap m pSrc pDst sw sh).1 pDst
          (generate_mipmap m pSrc pDst sw sh).2.1 x y c
        ≤ texelChannel m pSrc sw (2 * x) (2 * y) c
          + texelChannel m pSrc sw (2 * x + 1) (2 * y) c
          + texelChannel m pSrc sw (2 * x) (2 * y + 1) c
          + texelChannel m pSrc sw (2 * x + 1) (2 * y + 1) c
    ∧ texelChannel m pSrc sw (2 * x) (2 * y) c
          + texelChannel m pSrc sw (2 * x + 1) (2 * y) c
          + texelChannel m pSrc sw (2 * x) (2 * y + 1) c
          + texelChannel m pSrc sw (2 * x + 1) (2 * y + 1) c
        < 4 * texelChannel (generate_mipmap m pSrc pDst sw sh).1 pDst
          (generate_mipmap m pSrc pDst sw sh).2.1 x y c + 4 := by
  obtain ⟨g1, g2, _, g4⟩ := generate_mipmap_average m pSrc pDst sw sh hsw hsh hb hdisj
  rw [g1] at hx ⊢
  rw [g2] at hy
  have h := g4 x y c hx hy hc
  refine ⟨h, ?_, ?_⟩ <;> rw [h] <;> omega

theorem mip_texel_truncated_average_witness :
    (2 ≤ 2 ∧ 2 ≤ 2 ∧ 4 * (2 * 2) ≤ 2 ^ 32
      ∧ (0 + 4 * (2 * 2) ≤ 16 ∨ 16 + 4 * ((2 / 2) * (2 / 2)) ≤ 0)
      ∧ 0 < (generate_mipmap exampleLevel 0 16 2 2).2.1
      ∧ 0 < (generate_mipmap exampleLevel 0 16 2 2).2.2 ∧ 0 < 4)
    ∧ texelChannel (generate_mipmap exampleLevel 0 16 2 2).1 16
          (generate_mipmap exampleLevel 0 16 2 2).2.1 0 0 0
        = (texelChannel exampleLevel 0 2 (2 * 0) (2 * 0) 0
            + texelChannel exampleLevel 0 2 (2 * 0 + 1) (2 * 0) 0
            + texelChannel exampleLevel 0 2 (2 * 0) (2 * 0 + 1) 0
            + texelChannel exampleLevel 0 2 (2 * 0 + 1) (2 * 0 + 1) 0) / 4 :=
  ⟨⟨by decide, by decide, by decide, by decide, by decide, by decide, by decide⟩,
    (mip_texel_truncated_average exampleLevel 0 16 2 2 0 0 0 (by decide) (by decide)
      (by decide) (by decide) (by decide) (by decide) (by decide)).1⟩

/-- C12: for an image descriptor with `L >= 1` mip levels and a successful staging map,
`write_to_image` returns (given fuel for the `L - 1` loop iterations, and a record that
fits in the arena) and the record it appended has numRegions `L`, a declared size of the
fixed command size plus `L` region sizes, numBytes equal to the mip chain byte budget,
src_buffer_id the staging handle, dst_image_id the resource handle, and a region 0 with
dstMipLevel 0, the base width and height and srcBufferOffset 0. -/
theorem write_to_image_record (fuel : Nat) (self : le_command_buffer_encoder_o) (host : Mem)
    (mp : Mapping) (resourceId : Nat) (resourceInfo : le_resource_info_t)
    (data : List Nat) (numBytes : Nat)
    (htype : resourceInfo.type = LeResourceType.eImage)
    (hfmt : ∃ b, numBytesPerTexel resourceInfo.image.format = some b)
    (hw : resourceInfo.image.width < 2 ^ 32) (hh : resourceInfo.image.height < 2 ^ 32)
    (hL1 : 1 ≤ resourceInfo.image.mipLevels)
    (h1 : mp.srcResourceId < 2 ^ 64) (h2 : resourceId < 2 ^ 64)
    (hfit : (Call.write_to_image fuel (some mp) resourceId resourceInfo data numBytes).fits self)
    (hfuel : resourceInfo.image.mipLevels - 1 ≤ fuel) :
    ∃ res budget,
      cbe_write_to_image fuel self host (some mp) resourceId resourceInfo data numBytes = some res
      ∧ getNumBytesRequiredForMipchain resourceInfo.image = some budget
      ∧ (decodeWriteToImage res.1.mCommandStream self.mCommandStreamSize).numRegions
          = resourceInfo.image.mipLevels
      ∧ headerSizeAt res.1.mCommandStream self.mCommandStreamSize
          = sizeofCommand .eWriteToImage
              + resourceInfo.image.mipLevels * sizeof_ImageWriteRegion
      ∧ (decodeWriteToImage res.1.mCommandStream self.mCommandStreamSize).numBytes = budget
      ∧ (decodeWriteToImage res.1.mCommandStream self.mCommandStreamSize).src_buffer_id
          = mp.srcResourceId
      ∧ (decodeWriteToImage res.1.mCommandStream self.mCommandStreamSize).dst_image_id
          = resourceId
      ∧ regionAt res.1.mCommandStream self.mCommandStreamSize 0
          = { srcBufferOffset := 0, dstMipLevel := 0,
              dstMipLevelExtentW := resourceInfo.image.width,
              dstMipLevelExtentH := resourceInfo.image.height }
      ∧ headerTypeAt res.1.mCommandStream self.mCommandStreamSize = CommandType.eWriteToImage.tag
      ∧ res.1.mCommandCount = self.mCommandCount + 1 := by
  obtain ⟨b, hb⟩ := hfmt
  have hb0 := numBytesPerTexel_ne_zero _ _ hb
  have hget : getNumBytesRequiredForMipchain resourceInfo.image
      = some (mipchainLoop b resourceInfo.image.mipLevels resourceInfo.image.width
          resourceInfo.image.height 0) := by
    simp [getNumBytesRequiredForMipchain, hb, hb0]
  have hbud := mipchainLoop_lt b resourceInfo.image.mipLevels resourceInfo.image.width
    resourceInfo.image.height 0 (by norm_num)
  have hrec : (Call.write_to_image fuel (some mp) resourceId resourceInfo data numBytes).recordBytes
      = 48 + resourceInfo.image.mipLevels * 16 := rfl
  have hL : 48 + resourceInfo.image.mipLevels * 16 ≤ 65536 := by
    simp only [Call.fits, arenaCapacity, hrec] at hfit
    omega
  obtain ⟨l, hl⟩ := regionLoop_terminates
    (self.mCommandStreamSize + sizeofCommand .eWriteToImage) mp.memAddr
    resourceInfo.image.mipLevels fuel
    { arena := storeU32 (storeU32 (storeU32 (storeU32 (EMPLACE_CMD self .eWriteToImage)
        (self.mCommandStreamSize + sizeofCommand .eWriteToImage + 4) 0)
        (self.mCommandStreamSize + sizeofCommand .eWriteToImage + 8) resourceInfo.image.width)
        (self.mCommandStreamSize + sizeofCommand .eWriteToImage + 12) resourceInfo.image.height)
        (self.mCommandStreamSize + sizeofCommand .eWriteToImage) 0
      host := memcpy host mp.memAddr data numBytes
      region := 1
      mipLevel := 1
      dstRegionOffsetInBytes := numBytes
      srcRegionOffsetInBytes := 0
      srcWidth := resourceInfo.image.width
      srcHeight := resourceInfo.image.height }
    hL1 hfuel
  have hfr := fun i hi => regionLoop_frame2 _ _ _ _ _ _ hl (le_refl _) i (Or.inl hi)
  have hld := fun b w hb => regionLoop_loadLE _ _ _ _ _ _ hl (le_refl _) b w hb
  have m64 : ∀ n, n < 2 ^ 64 → n % 256 ^ 8 = n := fun n hn => Nat.mod_eq_of_lt (by omega)
  have m32 : ∀ n, n < 2 ^ 32 → n % 256 ^ 4 = n := fun n hn => Nat.mod_eq_of_lt (by omega)
  simp only [cbe_write_to_image, htype, hget, hl, ne_eq, not_true_eq_false, if_false]
  refine ⟨_, _, rfl, rfl, ?_, ?_, ?_, ?_, ?_, ?_, ?_, rfl⟩
  · simp (disch := omega) only [decodeWriteToImage, loadU32, loadU64, storeU32, storeU64,
      loadLE_storeLE_disj, loadLE_storeLE_same]
    exact m32 _ (by omega)
  · simp (disch := omega) [EMPLACE_CMD, headerSizeAt, loadU32, storeU32, storeU64,
      loadLE_storeLE_disj, loadLE_storeLE_same, sizeofCommand, sizeof_ImageWriteRegion, hld, u64]
    omega
  · simp (disch := omega) only [decodeWriteToImage, loadU32, loadU64, storeU32, storeU64,
      loadLE_storeLE_disj, loadLE_storeLE_same]
    exact m64 _ hbud
  · simp (disch := omega) only [decodeWriteToImage, loadU32, loadU64, storeU32, storeU64,
      loadLE_storeLE_disj, loadLE_storeLE_same]
    exact m64 _ h1
  · simp (disch := omega) only [decodeWriteToImage, loadU32, loadU64, storeU32, storeU64,
      loadLE_storeLE_disj, loadLE_storeLE_same]
    exact m64 _ h2
  · simp only [regionAt, loadRegion, loadU32, storeU32, storeU64, sizeofCommand,
      sizeof_ImageWriteRegion] at hfr ⊢
    simp (disch := omega) only [loadLE_storeLE_disj]
    rw [loadLE_congr _ 4 (fun i _ _ => hfr i (by omega)),
      loadLE_congr _ 4 (fun i _ _ => hfr i (by omega)),
      loadLE_congr _ 4 (fun i _ _ => hfr i (by omega)),
      loadLE_congr _ 4 (fun i _ _ => hfr i (by omega))]
    simp (disch := omega) only [loadLE_storeLE_disj, loadLE_storeLE_same]
    rw [m32 _ hw, m32 _ hh]
    rfl
  · simp (disch := omega) [EMPLACE_CMD, headerTypeAt, loadU32, storeU32, storeU64,
      loadLE_storeLE_disj, loadLE_storeLE_same, sizeofCommand, CommandType.tag, hld]

theorem write_to_image_record_witness :
    (exampleImage.type = LeResourceType.eImage
      ∧ (∃ b, numBytesPerTexel exampleImage.image.format = some b)
      ∧ exampleImage.image.width < 2 ^ 32 ∧ exampleImage.image.height < 2 ^ 32
      ∧ 1 ≤ exampleImage.image.mipLevels ∧ (88 : Nat) < 2 ^ 64 ∧ (9 : Nat) < 2 ^ 64
      ∧ (Call.write_to_image 2 (some ⟨2000, 88⟩) 9 exampleImage (List.replicate 64 200)
          64).fits freshEncoder
      ∧ exampleImage.image.mipLevels - 1 ≤ 2)
    ∧ ∃ res budget,
      cbe_write_to_image 2 freshEncoder zeroMem (some ⟨2000, 88⟩) 9 exampleImage
        (List.replicate 64 200) 64 = some res
      ∧ getNumBytesRequiredForMipchain exampleImage.image = some budget
      ∧ (decodeWriteToImage res.1.mCommandStream freshEncoder.mCommandStreamSize).numRegions
          = exampleImage.image.mipLevels
      ∧ headerSizeAt res.1.mCommandStream freshEncoder.mCommandStreamSize
          = sizeofCommand .eWriteToImage
              + exampleImage.image.mipLevels * sizeof_ImageWriteRegion
      ∧ (decodeWriteToImage res.1.mCommandStream freshEncoder.mCommandStreamSize).numBytes
          = budget
      ∧ (decodeWriteToImage res.1.mCommandStream freshEncoder.mCommandStreamSize).src_buffer_id
          = 88
      ∧ (decodeWriteToImage res.1.mCommandStream freshEncoder.mCommandStreamSize).dst_image_id
          = 9
      ∧ regionAt res.1.mCommandStream freshEncoder.mCommandStreamSize 0
          = { srcBufferOffset := 0, dstMipLevel := 0,
              dstMipLevelExtentW := exampleImage.image.width,
              dstMipLevelExtentH := exampleImage.image.height }
      ∧ headerTypeAt res.1.mCommandStream freshEncoder.mCommandStreamSize
          = CommandType.eWriteToImage.tag
      ∧ res.1.mCommandCount = freshEncoder.mCommandCount + 1 :=
  ⟨⟨rfl, ⟨4, rfl⟩, by decide, by decide, by decide, by decide, by decide, by decide, by decide⟩,
    write_to_image_record 2 freshEncoder zeroMem ⟨2000, 88⟩ 9 exampleImage
      (List.replicate 64 200) 64 rfl ⟨4, rfl⟩ (by decide) (by decide) (by decide) (by decide)
      (by decide) (by decide) (by decide)⟩

/-- C13: the record appended by `bind_vertex_buffers` stores firstBinding and the binding
count in its fixed payload, followed immediately by the handles in input order and then
by the 64 bit offsets in input order, and (for a record that fits in the arena) its
declared size is the fixed command size plus n times (handle size plus 8). -/
theorem bind_vertex_buffers_record (self : le_command_buffer_encoder_o)
    (firstBinding bindingCount : Nat) (pBuffers pOffsets : List Nat)
    (h1 : firstBinding < 2 ^ 32) (h2 : bindingCount < 2 ^ 32)
    (hlb : pBuffers.length = bindingCount) (hlo : pOffsets.length = bindingCount)
    (hvb : ∀ v, v ∈ pBuffers → v < 2 ^ 64) (hvo : ∀ v, v ∈ pOffsets → v < 2 ^ 64)
    (hfit : (Call.bind_vertex_buffers firstBinding bindingCount pBuffers pOffsets).fits self) :
    decodeBindVertexBuffers
        (cbe_bind_vertex_buffers self firstBinding bindingCount pBuffers pOffsets).mCommandStream
        self.mCommandStreamSize
      = { firstBinding := firstBinding, bindingCount := bindingCount, buffers := pBuffers,
          offsets := pOffsets }
    ∧ headerSizeAt
        (cbe_bind_vertex_buffers self firstBinding bindingCount pBuffers pOffsets).mCommandStream
        self.mCommandStreamSize
      = sizeofCommand .eBindVertexBuffers
          + bindingCount * (sizeof_le_resource_handle_t + 8)
    ∧ headerTypeAt
        (cbe_bind_vertex_buffers self firstBinding bindingCount pBuffers pOffsets).mCommandStream
        self.mCommandStreamSize = CommandType.eBindVertexBuffers.tag
    ∧ (cbe_bind_vertex_buffers self firstBinding bindingCount pBuffers pOffsets).mCommandCount
        = self.mCommandCount + 1 := by
  have hem := Call.run_emits (Call.bind_vertex_buffers firstBinding bindingCount pBuffers pOffsets)
    (self, zeroMem) _ rfl rfl (by simp only [Call.fits, arenaCapacity] at hfit; omega)
  obtain ⟨d1, d2, d3⟩ := cbe_bind_vertex_buffers_decode self firstBinding bindingCount pBuffers
    pOffsets h1 h2 hlb hlo hvb hvo
  refine ⟨d1, ?_, d2, d3⟩
  rw [hem.2.2.1]
  simp only [Call.recordBytes, Call.kind, Call.trailingBytes, sizeof_le_resource_handle_t,
    sizeof_uint64_t]
  omega

theorem bind_vertex_buffers_record_witness :
    ((0 : Nat) < 2 ^ 32 ∧ (2 : Nat) < 2 ^ 32 ∧ [7, 8].length = 2 ∧ [0, 64].length = 2
      ∧ (∀ v, v ∈ [7, 8] → v < 2 ^ 64) ∧ (∀ v, v ∈ [0, 64] → v < 2 ^ 64)
      ∧ (Call.bind_vertex_buffers 0 2 [7, 8] [0, 64]).fits freshEncoder)
    ∧ decodeBindVertexBuffers
        (cbe_bind_vertex_buffers freshEncoder 0 2 [7, 8] [0, 64]).mCommandStream
        freshEncoder.mCommandStreamSize
      = { firstBinding := 0, bindingCount := 2, buffers := [7, 8], offsets := [0, 64] }
    ∧ headerSizeAt (cbe_bind_vertex_buffers freshEncoder 0 2 [7, 8] [0, 64]).mCommandStream
        freshEncoder.mCommandStreamSize
      = sizeofCommand .eBindVertexBuffers + 2 * (sizeof_le_resource_handle_t + 8) :=
  have w := bind_vertex_buffers_record freshEncoder 0 2 [7, 8] [0, 64] (by decide) (by decide)
    rfl rfl (by decide) (by decide) (by decide)
  ⟨⟨by decide, by decide, rfl, rfl, by decide, by decide, by decide⟩, w.1, w.2.1⟩

/-- C14: when the scratch allocator answers the request for `numBytes` bytes with an
address and a buffer offset, `set_vertex_data` copies the `numBytes` bytes of data to that
address and nowhere else, and leaves the encoder exactly as `bind_vertex_buffers` called
with the binding index, one binding, the scratch allocator's resource id and the buffer
offset: one more record, a bind-vertex-buffers record with those fields. -/
theorem set_vertex_data_is_bind_vertex_buffers (be : Backend)
    (self : le_command_buffer_encoder_o) (host : Mem) (al : Allocation) (data : List Nat)
    (numBytes bindingIndex : Nat)
    (halloc : be.allocate numBytes = some al)
    (h1 : bindingIndex < 2 ^ 32) (h2 : be.get_le_resource_id < 2 ^ 64)
    (h3 : al.bufferOffset < 2 ^ 64)
    (hlen : data.length = numBytes) (hb : ∀ b, b ∈ data → b < 256) :
    be.set_vertex_data self host data numBytes bindingIndex
      = (cbe_bind_vertex_buffers self bindingIndex 1 [be.get_le_resource_id] [al.bufferOffset],
          memcpy host al.memAddr data numBytes)
    ∧ readBytes (be.set_vertex_data self host data numBytes bindingIndex).2 al.memAddr numBytes
        = data
    ∧ (∀ a, a < al.memAddr ∨ al.memAddr + numBytes ≤ a →
        (be.set_vertex_data self host data numBytes bindingIndex).2 a = host a)
    ∧ (be.set_vertex_data self host data numBytes bindingIndex).1.mCommandCount
        = self.mCommandCount + 1
    ∧ headerTypeAt (be.set_vertex_data self host data numBytes bindingIndex).1.mCommandStream
        self.mCommandStreamSize = CommandType.eBindVertexBuffers.tag
    ∧ decodeBindVertexBuffers
        (be.set_vertex_data self host data numBytes bindingIndex).1.mCommandStream
        self.mCommandStreamSize
      = { firstBinding := bindingIndex, bindingCount := 1,
          buffers := [be.get_le_resource_id], offsets := [al.bufferOffset] } := by
  have e : be.set_vertex_data self host data numBytes bindingIndex
      = (cbe_bind_vertex_buffers self bindingIndex 1 [be.get_le_resource_id] [al.bufferOffset],
          memcpy host al.memAddr data numBytes) := by
    simp only [Backend.set_vertex_data, halloc, cbe_set_vertex_data]
  obtain ⟨d1, d2, d3⟩ := cbe_bind_vertex_buffers_decode self bindingIndex 1
    [be.get_le_resource_id] [al.bufferOffset] h1 (by norm_num) rfl rfl
    (by intro v hv; simp only [List.mem_singleton] at hv; omega)
    (by intro v hv; simp only [List.mem_singleton] at hv; omega)
  rw [e]
  refine ⟨rfl, readBytes_memcpy _ _ _ _ hlen hb, ?_, d3, d2, d1⟩
  intro a ha
  simp only [memcpy]
  rw [if_neg (by omega)]

theorem set_vertex_data_is_bind_vertex_buffers_witness :
    (exampleBackend.allocate 4 = some ⟨1000, 256⟩ ∧ (3 : Nat) < 2 ^ 32
      ∧ exampleBackend.get_le_resource_id < 2 ^ 64 ∧ (256 : Nat) < 2 ^ 64
      ∧ [1, 2, 3, 4].length = 4 ∧ ∀ b, b ∈ [1, 2, 3, 4] → b < 256)
    ∧ exampleBackend.set_vertex_data freshEncoder zeroMem [1, 2, 3, 4] 4 3
      = (cbe_bind_vertex_buffers freshEncoder 3 1 [exampleBackend.get_le_resource_id] [256],
          memcpy zeroMem 1000 [1, 2, 3, 4] 4) :=
  ⟨⟨rfl, by decide, by decide, by decide, rfl, by decide⟩,
    (set_vertex_data_is_bind_vertex_buffers exampleBackend freshEncoder zeroMem ⟨1000, 256⟩
      [1, 2, 3, 4] 4 3 rfl (by decide) (by decide) (by decide) rfl (by decide)).1⟩

/-- C15: when the staging map succeeds, `write_to_buffer` depends on the allocators only
through what the staging allocator answers to a request for exactly `numBytes` bytes,
copies the `numBytes` bytes of data to the mapped address and nowhere else, and appends
one record with src_buffer_id the handle of the staging allocator, src_offset 0,
dst_buffer_id the resource id, dst_offset the offset and numBytes the byte count. -/
theorem write_to_buffer_record (be be1 : Backend) (self : le_command_buffer_encoder_o)
    (host : Mem) (mp : Mapping) (resourceId offset : Nat) (data : List Nat) (numBytes : Nat)
    (hmap : be.map numBytes = some mp) (hsame : be1.map numBytes = be.map numBytes)
    (h1 : mp.srcResourceId < 2 ^ 64) (h2 : resourceId < 2 ^ 64) (h3 : offset < 2 ^ 64)
    (h4 : numBytes < 2 ^ 64) (hlen : data.length = numBytes) (hb : ∀ b, b ∈ data → b < 256) :
    be1.write_to_buffer self host resourceId offset data numBytes
        = be.write_to_buffer self host resourceId offset data numBytes
    ∧ decodeWriteToBuffer
        (be.write_to_buffer self host resourceId offset data numBytes).1.mCommandStream
        self.mCommandStreamSize
      = { src_buffer_id := mp.srcResourceId, dst_buffer_id := resourceId, src_offset := 0,
          dst_offset := offset, numBytes := numBytes }
    ∧ headerTypeAt
        (be.write_to_buffer self host resourceId offset data numBytes).1.mCommandStream
        self.mCommandStreamSize = CommandType.eWriteToBuffer.tag
    ∧ (be.write_to_buffer self host resourceId offset data numBytes).1.mCommandCount
        = self.mCommandCount + 1
    ∧ readBytes (be.write_to_buffer self host resourceId offset data numBytes).2 mp.memAddr
        numBytes = data
    ∧ ∀ a, a < mp.memAddr ∨ mp.memAddr + numBytes ≤ a →
        (be.write_to_buffer self host resourceId offset data numBytes).2 a = host a := by
  have m64 : ∀ n, n < 2 ^ 64 → n % 256 ^ 8 = n := fun n hn => Nat.mod_eq_of_lt (by omega)
  simp only [Backend.write_to_buffer, hsame, hmap]
  refine ⟨trivial, ?_, ?_, rfl, ?_, ?_⟩
  · simp (disch := omega) only [decodeWriteToBuffer, cbe_write_to_buffer, loadU64,
      storeU64, loadLE_storeLE_disj, loadLE_storeLE_same]
    rw [m64 _ h1, m64 _ h2, m64 _ h3, m64 _ h4]
    rfl
  · simp (disch := omega) [cbe_write_to_buffer, EMPLACE_CMD, headerTypeAt, loadU32,
      storeU32, storeU64, loadLE_storeLE_disj, loadLE_storeLE_same, CommandType.tag]
  · exact readBytes_memcpy _ _ _ _ hlen hb
  · intro a ha
    simp only [cbe_write_to_buffer, memcpy]
    rw [if_neg (by omega)]

theorem write_to_buffer_record_witness :
    (exampleBackend.map 4 = some ⟨2000, 88⟩ ∧ exampleBackend.map 4 = exampleBackend.map 4
      ∧ [1, 2, 3, 4].length = 4 ∧ ∀ b, b ∈ [1, 2, 3, 4] → b < 256)
    ∧ decodeWriteToBuffer
        (exampleBackend.write_to_buffer freshEncoder zeroMem 5 16 [1, 2, 3, 4] 4).1.mCommandStream
        freshEncoder.mCommandStreamSize
      = { src_buffer_id := 88, dst_buffer_id := 5, src_offset := 0, dst_offset := 16,
          numBytes := 4 } :=
  ⟨⟨rfl, rfl, rfl, by decide⟩,
    (write_to_buffer_record exampleBackend exampleBackend freshEncoder zeroMem ⟨2000, 88⟩ 5 16
      [1, 2, 3, 4] 4 rfl rfl (by decide) (by decide) (by decide) (by decide) rfl
      (by decide)).2.1⟩

/-- C16, as stated, fails for values of `2 ^ 32` or more: the offset and the range are
converted to `uint32_t` before they are stored.  A buffer offset of `2 ^ 32` is stored as
0 and a size of `2 ^ 32 + 5` bytes as 5. -/
theorem ubo_offset_and_range_truncated :
    (decodeSetArgumentUbo
        (cbe_set_argument_ubo_data freshEncoder zeroMem (some ⟨64, 2 ^ 32⟩) 7 1 []
          (2 ^ 32 + 5)).1.mCommandStream freshEncoder.mCommandStreamSize).offset = 0
    ∧ (decodeSetArgumentUbo
        (cbe_set_argument_ubo_data freshEncoder zeroMem (some ⟨64, 2 ^ 32⟩) 7 1 []
          (2 ^ 32 + 5)).1.mCommandStream freshEncoder.mCommandStreamSize).range = 5 := by
  decide

/-- C16, amended: when the scratch allocation succeeds, the record appended by
`set_argument_ubo_data` stores argument_name_id and the scratch allocator's resource id
unchanged, and stores the buffer offset and the byte count reduced modulo `2 ^ 32`, so
they equal bufferOffset and numBytes exactly when these are below `2 ^ 32`. -/
theorem ubo_record_fields (self : le_command_buffer_encoder_o) (host : Mem) (al : Allocation)
    (allocatorBufferId argumentNameId : Nat) (data : List Nat) (numBytes : Nat)
    (h1 : argumentNameId < 2 ^ 64) (h2 : allocatorBufferId < 2 ^ 64) :
    decodeSetArgumentUbo
        (cbe_set_argument_ubo_data self host (some al) allocatorBufferId argumentNameId data
          numBytes).1.mCommandStream self.mCommandStreamSize
      = { argument_name_id := argumentNameId, buffer_id := allocatorBufferId,
          offset := al.bufferOffset % 2 ^ 32, range := numBytes % 2 ^ 32 }
    ∧ headerTypeAt
        (cbe_set_argument_ubo_data self host (some al) allocatorBufferId argumentNameId data
          numBytes).1.mCommandStream self.mCommandStreamSize = CommandType.eSetArgumentUbo.tag
    ∧ (cbe_set_argument_ubo_data self host (some al) allocatorBufferId argumentNameId data
          numBytes).1.mCommandCount = self.mCommandCount + 1
    ∧ (al.bufferOffset < 2 ^ 32 → al.bufferOffset % 2 ^ 32 = al.bufferOffset)
    ∧ (numBytes < 2 ^ 32 → numBytes % 2 ^ 32 = numBytes) := by
  have m64 : ∀ n, n < 2 ^ 64 → n % 256 ^ 8 = n := fun n hn => Nat.mod_eq_of_lt (by omega)
  have m32 : ∀ n, n % 2 ^ 32 % 256 ^ 4 = n % 2 ^ 32 := fun n =>
    Nat.mod_eq_of_lt (by have := Nat.mod_lt n (show 0 < 2 ^ 32 by norm_num); omega)
  refine ⟨?_, ?_, rfl, fun h => Nat.mod_eq_of_lt h, fun h => Nat.mod_eq_of_lt h⟩
  · simp (disch := omega) only [decodeSetArgumentUbo, cbe_set_argument_ubo_data, loadU32, loadU64,
      storeU32, storeU64, loadLE_storeLE_disj, loadLE_storeLE_same]
    rw [m64 _ h1, m64 _ h2, m32, m32]
  · simp (disch := omega) [cbe_set_argument_ubo_data, EMPLACE_CMD, headerTypeAt, loadU32,
      storeU32, storeU64, loadLE_storeLE_disj, loadLE_storeLE_same, CommandType.tag]

theorem ubo_record_fields_witness :
    ((9 : Nat) < 2 ^ 64 ∧ (7 : Nat) < 2 ^ 64)
    ∧ decodeSetArgumentUbo
        (cbe_set_argument_ubo_data freshEncoder zeroMem (some ⟨64, 256⟩) 7 9 [1, 2, 3, 4]
          4).1.mCommandStream freshEncoder.mCommandStreamSize
      = { argument_name_id := 9, buffer_id := 7, offset := 256 % 2 ^ 32, range := 4 % 2 ^ 32 } :=
  ⟨⟨by decide, by decide⟩,
    (ubo_record_fields freshEncoder zeroMem ⟨64, 256⟩ 7 9 [1, 2, 3, 4] 4 (by decide)
      (by decide)).1⟩

/-- C17: the record appended by `draw` stores vertexCount, instanceCount, firstVertex and
firstInstance exactly as passed; the record appended by `draw_indexed` stores indexCount,
instanceCount, firstIndex, the signed vertexOffset and firstInstance exactly as passed,
and its padding field is 0. -/
theorem draw_records_store_arguments (self : le_command_buffer_encoder_o)
    (vertexCount instanceCount firstVertex firstInstance indexCount firstIndex : Nat)
    (vertexOffset : Int)
    (h1 : vertexCount < 2 ^ 32) (h2 : instanceCount < 2 ^ 32) (h3 : firstVertex < 2 ^ 32)
    (h4 : firstInstance < 2 ^ 32) (h5 : indexCount < 2 ^ 32) (h6 : firstIndex < 2 ^ 32)
    (h7 : -(2 ^ 31) ≤ vertexOffset) (h8 : vertexOffset < 2 ^ 31) :
    decodeDraw (cbe_draw self vertexCount instanceCount firstVertex firstInstance).mCommandStream
        self.mCommandStreamSize
      = { vertexCount := vertexCount, instanceCount := instanceCount,
          firstVertex := firstVertex, firstInstance := firstInstance }
    ∧ headerTypeAt
        (cbe_draw self vertexCount instanceCount firstVertex firstInstance).mCommandStream
        self.mCommandStreamSize = CommandType.eDraw.tag
    ∧ decodeDrawIndexed
        (cbe_draw_indexed self indexCount instanceCount firstIndex vertexOffset
          firstInstance).mCommandStream self.mCommandStreamSize
      = { indexCount := indexCount, instanceCount := instanceCount, firstIndex := firstIndex,
          vertexOffset := vertexOffset, firstInstance := firstInstance, reserved := 0 }
    ∧ headerTypeAt
        (cbe_draw_indexed self indexCount instanceCount firstIndex vertexOffset
          firstInstance).mCommandStream self.mCommandStreamSize = CommandType.eDrawIndexed.tag := by
  have m32 : ∀ n, n < 2 ^ 32 → n % 256 ^ 4 = n := fun n hn => Nat.mod_eq_of_lt (by omega)
  refine ⟨?_, ?_, ?_, ?_⟩
  · simp (disch := omega) only [decodeDraw, cbe_draw, loadU32, storeU32, loadLE_storeLE_disj,
      loadLE_storeLE_same]
    rw [m32 _ h1, m32 _ h2, m32 _ h3, m32 _ h4]
  · simp (disch := omega) [cbe_draw, EMPLACE_CMD, headerTypeAt, loadU32, storeU32,
      loadLE_storeLE_disj, loadLE_storeLE_same, CommandType.tag]
  · have hv := loadI32_storeU32
      (storeU32 (storeU32 (storeU32 (EMPLACE_CMD self CommandType.eDrawIndexed)
        (self.mCommandStreamSize + 8) indexCount) (self.mCommandStreamSize + 12) instanceCount)
        (self.mCommandStreamSize + 16) firstIndex)
      (self.mCommandStreamSize + 20) vertexOffset h7 h8
    simp only [loadI32, loadU32, storeU32] at hv
    simp (disch := omega) only [decodeDrawIndexed, cbe_draw_indexed, loadI32, loadU32, storeU32,
      loadLE_storeLE_disj]
    rw [hv]
    simp (disch := omega) only [loadLE_storeLE_same]
    rw [m32 _ h5, m32 _ h2, m32 _ h6, m32 _ h4]
    rfl
  · simp (disch := omega) [cbe_draw_indexed, EMPLACE_CMD, headerTypeAt, loadU32, storeU32,
      loadLE_storeLE_disj, loadLE_storeLE_same, CommandType.tag]

theorem draw_records_store_arguments_witness :
    ((3 : Nat) < 2 ^ 32 ∧ (1 : Nat) < 2 ^ 32 ∧ (0 : Nat) < 2 ^ 32 ∧ (36 : Nat) < 2 ^ 32
      ∧ -(2 ^ 31) ≤ (-4 : Int) ∧ (-4 : Int) < 2 ^ 31)
    ∧ decodeDrawIndexed (cbe_draw_indexed freshEncoder 36 1 0 (-4) 0).mCommandStream
        freshEncoder.mCommandStreamSize
      = { indexCount := 36, instanceCount := 1, firstIndex := 0, vertexOffset := -4,
          firstInstance := 0, reserved := 0 } :=
  ⟨⟨by decide, by decide, by decide, by decide, by decide, by decide⟩,
    (draw_records_store_arguments freshEncoder 3 1 0 0 36 0 (-4) (by decide) (by decide)
      (by decide) (by decide) (by decide) (by decide) (by decide) (by decide)).2.2.1⟩

/-- C11, as stated, fails when the byte count does not fit `size_t`: for a
`2 ^ 31` by `2 ^ 31` image with one level of a four byte format the budget is `2 ^ 64`
bytes and `getNumBytesRequiredForMipchain` returns 0. -/
theorem mipchain_budget_wraps :
    getNumBytesRequiredForMipchain
        { format := .eR8G8B8A8Unorm, width := 2 ^ 31, height := 2 ^ 31, mipLevels := 1 } = some 0
    ∧ 4 * chainTexels (2 ^ 31) (2 ^ 31) 1 = 2 ^ 64 := by
  decide

/-- C11, amended: `getNumBytesRequiredForMipchain` returns bytesPerTexel times the sum
over `k < L` of `w_k * h_k` (the halving series with minimum 1), reduced modulo `2 ^ 64`,
hence exactly that product whenever it is below `2 ^ 64`; bytesPerTexel is 4 for each
listed 8 bit format and 8 for each listed 16 bit format, and for any other format the
assertion fails and no size is returned. -/
theorem mipchain_budget (f : Format) (w h L : Nat) :
    (f ∈ formats8 →
      getNumBytesRequiredForMipchain { format := f, width := w, height := h, mipLevels := L }
        = some ((4 * chainTexels w h L) % 2 ^ 64))
    ∧ (f ∈ formats16 →
      getNumBytesRequiredForMipchain { format := f, width := w, height := h, mipLevels := L }
        = some ((8 * chainTexels w h L) % 2 ^ 64))
    ∧ (f ∉ formats8 → f ∉ formats16 →
      getNumBytesRequiredForMipchain { format := f, width := w, height := h, mipLevels := L }
        = none)
    ∧ (∀ b, numBytesPerTexel f = some b → b * chainTexels w h L < 2 ^ 64 →
      getNumBytesRequiredForMipchain { format := f, width := w, height := h, mipLevels := L }
        = some (b * chainTexels w h L)) := by
  refine ⟨?_, ?_, ?_, ?_⟩
  · intro hf
    exact getNumBytes_eq _ 4 (mem_formats8 f hf)
  · intro hf
    exact getNumBytes_eq _ 8 (mem_formats16 f hf)
  · intro h8 h16
    simp [getNumBytesRequiredForMipchain, not_mem_formats f h8 h16]
  · intro b hb hlt
    rw [getNumBytes_eq _ b hb, Nat.mod_eq_of_lt hlt]

/-- C18: monotonic growth.  No call lowers the byte counter or the record count; a call
that succeeds (its allocation succeeds and its record fits in the arena) raises the
record count by exactly 1 and the byte counter by a positive amount; an allocator backed
call whose allocation fails changes neither. -/
theorem counters_grow_monotonically (c : Call) (s s1 : le_command_buffer_encoder_o × Mem)
    (h : c.run s = some s1) :
    (s.1.mCommandStreamSize ≤ s1.1.mCommandStreamSize
      ∧ s.1.mCommandCount ≤ s1.1.mCommandCount)
    ∧ (c.allocated = true → c.fits s.1 →
        s1.1.mCommandCount = s.1.mCommandCount + 1
        ∧ s.1.mCommandStreamSize < s1.1.mCommandStreamSize)
    ∧ (c.allocated = false →
        s1.1.mCommandCount = s.1.mCommandCount
        ∧ s1.1.mCommandStreamSize = s.1.mCommandStreamSize) := by
  have hm := Call.run_monotone c s s1 h
  refine ⟨⟨hm.2, hm.1⟩, ?_, fun ha => Call.run_dropped c s s1 h ha⟩
  intro ha hf
  have hf1 : c.recordBytes < 2 ^ 32 := by
    simp only [Call.fits, arenaCapacity] at hf
    omega
  obtain ⟨e1, e2, e3, _⟩ := Call.run_emits c s s1 h ha hf1
  have := sizeofCommand_ge c.kind
  simp only [Call.recordBytes] at e3
  exact ⟨e1, by omega⟩

theorem counters_grow_monotonically_witness :
    (Call.set_viewport 0 2 exampleViewports).run (freshEncoder, zeroMem)
        = some (cbe_set_viewport freshEncoder 0 2 exampleViewports, zeroMem)
    ∧ (cbe_set_viewport freshEncoder 0 2 exampleViewports).mCommandCount
        = freshEncoder.mCommandCount + 1
    ∧ freshEncoder.mCommandStreamSize
        < (cbe_set_viewport freshEncoder 0 2 exampleViewports).mCommandStreamSize :=
  ⟨rfl,
    (counters_grow_monotonically (Call.set_viewport 0 2 exampleViewports) (freshEncoder, zeroMem)
      (cbe_set_viewport freshEncoder 0 2 exampleViewports, zeroMem) rfl).2.1 rfl (by decide)⟩

/-- C19, as stated, fails: a draw record takes 24 bytes and the arena has 65536, so
10,000 consecutive draw calls on a fresh encoder do not all fit. -/
theorem ten_thousand_draws_do_not_fit :
    (∀ c, c ∈ List.replicate 10000 (Call.draw 3 1 0 0) → c.isDraw)
    ∧ ¬ allSucceed (List.replicate 10000 (Call.draw 3 1 0 0)) (cbe_create zeroMem 4096 1 2 3, zeroMem) := by
  have hd : ∀ c, c ∈ List.replicate 10000 (Call.draw 3 1 0 0) → c.isDraw := by
    intro c hc
    rw [List.eq_of_mem_replicate hc]
    trivial
  refine ⟨hd, ?_⟩
  rw [allSucceed_draws_iff _ _ hd (by decide)]
  simp only [List.length_replicate, cbe_create, arenaCapacity]
  omega

/-- C19, amended: the arena that `create` allocates holds 65536 bytes and a draw record
occupies its 8 byte header plus four 32 bit fields, so a sequence of consecutive draw
calls on a fresh encoder fits exactly when it has at most 2,730 calls. -/
theorem arena_holds_2730_draws (cs : List Call) (arena : Mem)
    (addr allocator pipelineManager stagingAllocator : Nat) (host : Mem)
    (hd : ∀ c, c ∈ cs → c.isDraw) :
    (allSucceed cs (cbe_create arena addr allocator pipelineManager stagingAllocator, host)
      ↔ cs.length ≤ 2730)
    ∧ sizeofCommand .eDraw = sizeof_CommandHeader + 4 * 4 := by
  refine ⟨?_, rfl⟩
  rw [allSucceed_draws_iff _ _ hd (by simp [cbe_create])]
  simp only [cbe_create, arenaCapacity]
  omega

theorem arena_holds_2730_draws_witness :
    (∀ c, c ∈ [Call.draw 3 1 0 0, Call.draw 6 1 0 0] → c.isDraw)
    ∧ (allSucceed [Call.draw 3 1 0 0, Call.draw 6 1 0 0] (cbe_create zeroMem 4096 1 2 3, zeroMem)
        ↔ [Call.draw 3 1 0 0, Call.draw 6 1 0 0].length ≤ 2730) :=
  have hd : ∀ c, c ∈ [Call.draw 3 1 0 0, Call.draw 6 1 0 0] → c.isDraw := by
    intro c hc
    simp only [List.mem_cons, List.mem_singleton, List.not_mem_nil, or_false] at hc
    rcases hc with rfl | rfl <;> trivial
  ⟨hd, (arena_holds_2730_draws [Call.draw 3 1 0 0, Call.draw 6 1 0 0] zeroMem 4096 1 2 3
    zeroMem hd).1⟩

/-- C20: for a four byte format, `numBytes = 4 * w * h`, at least one mip level and a mip
chain of fewer than `2 ^ 32` bytes, `write_to_image` returns (given fuel for the `L - 1`
loop iterations); the srcBufferOffset recorded for level `k` is 4 times the sum over
`i < k` of `w_i * h_i`, the byte ranges of distinct levels are disjoint, the end of the
last level is the budget `getNumBytesRequiredForMipchain` returns, and no byte of staging
memory outside the mapped region of that many bytes is changed. -/
theorem mip_levels_fill_staged_region (fuel : Nat) (self : le_command_buffer_encoder_o)
    (host : Mem) (mp : Mapping) (resourceId : Nat) (resourceInfo : le_resource_info_t)
    (data : List Nat) (numBytes : Nat)
    (htype : resourceInfo.type = LeResourceType.eImage)
    (hfmt : numBytesPerTexel resourceInfo.image.format = some 4)
    (hL1 : 1 ≤ resourceInfo.image.mipLevels)
    (hn : numBytes = 4 * (resourceInfo.image.width * resourceInfo.image.height))
    (hB : mipOffset resourceInfo.image.width resourceInfo.image.height
      resourceInfo.image.mipLevels < 2 ^ 32)
    (hfuel : resourceInfo.image.mipLevels - 1 ≤ fuel) :
    ∃ res, cbe_write_to_image fuel self host (some mp) resourceId resourceInfo data numBytes
        = some res
      ∧ (∀ k, k < resourceInfo.image.mipLevels →
          (regionAt res.1.mCommandStream self.mCommandStreamSize k).srcBufferOffset
            = mipOffset resourceInfo.image.width resourceInfo.image.height k)
      ∧ (∀ k, mipOffset resourceInfo.image.width resourceInfo.image.height k
          = 4 * chainTexels resourceInfo.image.width resourceInfo.image.height k)
      ∧ (∀ i j, i < j → j < resourceInfo.image.mipLevels →
          mipOffset resourceInfo.image.width resourceInfo.image.height i
              + 4 * (mipExtent resourceInfo.image.width i * mipExtent resourceInfo.image.height i)
            ≤ mipOffset resourceInfo.image.width resourceInfo.image.height j)
      ∧ getNumBytesRequiredForMipchain resourceInfo.image
          = some (mipOffset resourceInfo.image.width resourceInfo.image.height
              resourceInfo.image.mipLevels)
      ∧ ∀ a, a < mp.memAddr
            ∨ mp.memAddr + mipOffset resourceInfo.image.width resourceInfo.image.height
                resourceInfo.image.mipLevels ≤ a →
          res.2 a = host a := by
  have hget0 := getNumBytes_eq resourceInfo.image 4 hfmt
  have hget : getNumBytesRequiredForMipchain resourceInfo.image
      = some (mipOffset resourceInfo.image.width resourceInfo.image.height
          resourceInfo.image.mipLevels) := by
    rw [hget0, ← mipOffset_eq_chainTexels, Nat.mod_eq_of_lt (by omega)]
  have hm1 := mipOffset_mono resourceInfo.image.width resourceInfo.image.height 1
    resourceInfo.image.mipLevels hL1
  have e1 : mipOffset resourceInfo.image.width resourceInfo.image.height 1
      = 4 * (resourceInfo.image.width * resourceInfo.image.height) := by
    simp [mipOffset, mipExtent]
  obtain ⟨l, hl⟩ := regionLoop_terminates
    (self.mCommandStreamSize + sizeofCommand .eWriteToImage) mp.memAddr
    resourceInfo.image.mipLevels fuel
    { arena := storeU32 (storeU32 (storeU32 (storeU32 (EMPLACE_CMD self .eWriteToImage)
        (self.mCommandStreamSize + sizeofCommand .eWriteToImage + 4) 0)
        (self.mCommandStreamSize + sizeofCommand .eWriteToImage + 8) resourceInfo.image.width)
        (self.mCommandStreamSize + sizeofCommand .eWriteToImage + 12) resourceInfo.image.height)
        (self.mCommandStreamSize + sizeofCommand .eWriteToImage) 0
      host := memcpy host mp.memAddr data numBytes
      region := 1
      mipLevel := 1
      dstRegionOffsetInBytes := numBytes
      srcRegionOffsetInBytes := 0
      srcWidth := resourceInfo.image.width
      srcHeight := resourceInfo.image.height }
    hL1 hfuel
  obtain ⟨o1, o2⟩ := regionLoop_offsets _ _ _ resourceInfo.image.width
    resourceInfo.image.height hB _ _ _ hl (le_refl _) hL1 rfl rfl (by rw [e1]; exact hn)
  have hfr := fun i hi => regionLoop_frame2 _ _ _ _ _ _ hl (le_refl _) i (Or.inl hi)
  simp only [cbe_write_to_image, htype, hl, ne_eq, not_true_eq_false, if_false]
  rw [hget]
  refine ⟨_, rfl, ?_, fun k => mipOffset_eq_chainTexels _ _ k, ?_, rfl, ?_⟩
  · intro k hk
    simp only [regionAt, loadRegion, loadU32, storeU32, storeU64, sizeofCommand,
      sizeof_ImageWriteRegion] at o1 hfr ⊢
    simp (disch := omega) only [loadLE_storeLE_disj]
    by_cases hk0 : k = 0
    · subst hk0
      rw [loadLE_congr _ 4 (fun i _ _ => hfr i (by omega))]
      simp (disch := omega) only [loadLE_storeLE_disj, loadLE_storeLE_same, Nat.mul_zero,
        Nat.add_zero]
      rfl
    · exact o1 k (by omega) hk
  · intro i j hij hj
    exact mipOffset_mono _ _ (i + 1) j hij
  · intro a ha
    show l.host a = host a
    simp only at o2
    rw [o2 a (by omega)]
    simp only [memcpy]
    rw [if_neg (by omega)]

theorem mip_levels_fill_staged_region_witness :
    (exampleImage.type = LeResourceType.eImage
      ∧ numBytesPerTexel exampleImage.image.format = some 4
      ∧ 1 ≤ exampleImage.image.mipLevels
      ∧ 64 = 4 * (exampleImage.image.width * exampleImage.image.height)
      ∧ mipOffset exampleImage.image.width exampleImage.image.height
          exampleImage.image.mipLevels < 2 ^ 32
      ∧ exampleImage.image.mipLevels - 1 ≤ 2)
    ∧ ∃ res, cbe_write_to_image 2 freshEncoder zeroMem (some ⟨2000, 88⟩) 9 exampleImage
          (List.replicate 64 200) 64 = some res
      ∧ (∀ k, k < exampleImage.image.mipLevels →
          (regionAt res.1.mCommandStream freshEncoder.mCommandStreamSize k).srcBufferOffset
            = mipOffset exampleImage.image.width exampleImage.image.height k)
      ∧ (∀ k, mipOffset exampleImage.image.width exampleImage.image.height k
          = 4 * chainTexels exampleImage.image.width exampleImage.image.height k)
      ∧ (∀ i j, i < j → j < exampleImage.image.mipLevels →
          mipOffset exampleImage.image.width exampleImage.image.height i
              + 4 * (mipExtent exampleImage.image.width i * mipExtent exampleImage.image.height i)
            ≤ mipOffset exampleImage.image.width exampleImage.image.height j)
      ∧ getNumBytesRequiredForMipchain exampleImage.image
          = some (mipOffset exampleImage.image.width exampleImage.image.height
              exampleImage.image.mipLevels)
      ∧ ∀ a, a < 2000
            ∨ 2000 + mipOffset exampleImage.image.width exampleImage.image.height
                exampleImage.image.mipLevels ≤ a →
          res.2 a = zeroMem a :=
  ⟨⟨rfl, rfl, by decide, by decide, by decide, by decide⟩,
    mip_levels_fill_staged_region 2 freshEncoder zeroMem ⟨2000, 88⟩ 9 exampleImage
      (List.replicate 64 200) 64 rfl rfl (by decide) (by decide) (by decide) (by decide)⟩

/-! ## The mip generator and the region loop, once more -/

/-- C21, the code at a level one texel wide and high: `generate_mipmap` on a one by one
source level produces a one by one destination level, and for its only texel the four
source element indices are 0, 4, 4 and 8, so the indices `nSrcIndex[1..3] + c` are not
below `1 * 1 * 4`.  In `write_to_image` of a one by one image with two mip levels and
all channels 200 the level 1 texel therefore is not 200: on zeroed staging memory it is
50, and it becomes 75 when byte 8 of the staging memory, which lies behind both levels,
holds 100. -/
theorem single_texel_level_reads_outside_source :
    (generate_mipmap zeroMem 0 4 1 1).2 = (1, 1)
    ∧ nSrcIndex 1 0 0 = [0, 4, 4, 8]
    ∧ ¬ (∀ i ∈ nSrcIndex 1 0 0, ∀ c, c < 4 → i + c < 1 * 1 * 4)
    ∧ (cbe_write_to_image 1 freshEncoder zeroMem (some { memAddr := 0, srcResourceId := 9 }) 7
          exampleTinyImage tinyImageData 4).map (fun res => texelChannel res.2 4 1 0 0 0)
        = some 50
    ∧ (cbe_write_to_image 1 freshEncoder strayByteMem (some { memAddr := 0, srcResourceId := 9 })
          7 exampleTinyImage tinyImageData 4).map (fun res => texelChannel res.2 4 1 0 0 0)
        = some 75 := by
  refine ⟨rfl, by decide, by decide, ?_, ?_⟩
  · obtain ⟨res, h1, h2⟩ := write_to_image_two_levels freshEncoder zeroMem
      { memAddr := 0, srcResourceId := 9 } 7 exampleTinyImage tinyImageData 4 rfl rfl rfl
    rw [h1, Option.map_some', h2]
    decide
  · obtain ⟨res, h1, h2⟩ := write_to_image_two_levels freshEncoder strayByteMem
      { memAddr := 0, srcResourceId := 9 } 7 exampleTinyImage tinyImageData 4 rfl rfl rfl
    rw [h1, Option.map_some', h2]
    decide

/-- C22 does not hold for a source level of more than `2 ^ 32` bytes: for a source of
`2 ^ 30 + 2` by 2 texels whose only non-zero channel is the green value 8 of texel
`(0, 0)`, the green channel of destination texel `(2 ^ 29, 0)` comes out as 2, although
its four source texels `(2 ^ 30, 0)`, `(2 ^ 30 + 1, 0)`, `(2 ^ 30, 1)`, `(2 ^ 30 + 1, 1)`
are all 0: the source indices, computed in `uint32_t`, wrap to texels 0 to 3. -/
theorem floor_average_fails_on_wrapped_index :
    texelChannel (generate_mipmap wrapLevelGreen 0 (2 ^ 34) (2 ^ 30 + 2) 2).1 (2 ^ 34)
        (2 ^ 29 + 1) (2 ^ 29) 0 1 = 2
    ∧ (texelChannel wrapLevelGreen 0 (2 ^ 30 + 2) (2 * 2 ^ 29) (2 * 0) 1
        + texelChannel wrapLevelGreen 0 (2 ^ 30 + 2) (2 * 2 ^ 29 + 1) (2 * 0) 1
        + texelChannel wrapLevelGreen 0 (2 ^ 30 + 2) (2 * 2 ^ 29) (2 * 0 + 1) 1
        + texelChannel wrapLevelGreen 0 (2 ^ 30 + 2) (2 * 2 ^ 29 + 1) (2 * 0 + 1) 1) / 4 = 0 := by
  constructor
  · have hreads : ∀ y x, y < 1 → x < 2 ^ 29 + 1 → ∀ i, i ∈ nSrcIndex (2 ^ 30 + 2) y x →
        ∀ c, c < 4 → 0 + u32 (i + c) < 2 ^ 34
          ∨ 2 ^ 34 + 4 * ((2 ^ 29 + 1) * 1) ≤ 0 + u32 (i + c) := by
      intro y x _ _ i _ c _
      have : u32 (i + c) < 2 ^ 32 := Nat.mod_lt _ (by norm_num)
      omega
    have hdone := MipDone_rows wrapLevelGreen 0 (2 ^ 34) (2 ^ 30 + 2) (2 ^ 29 + 1) 1
      (by norm_num) hreads 1 (le_refl _)
    rw [generate_mipmap_fst wrapLevelGreen 0 (2 ^ 34) (2 ^ 30 + 2) 2 (2 ^ 29 + 1) 1 (by decide)
      (by decide)]
    simp only [texelChannel]
    rw [hdone.2 0 (2 ^ 29) 1 (by norm_num) (by norm_num) (Or.inl (by norm_num))]
    decide
  · decide

/-- C22, amended: for a four channel 8 bit source level of width and height at least 2
that spans at most `2 ^ 32` bytes and does not overlap the destination level,
`generate_mipmap` produces a level of `sw / 2` by `sh / 2` texels, and each channel of
each destination texel `(x, y)` equals `floor ((a + b + c + d) / 4)`, the division taken
in the rationals, where `a`, `b`, `c`, `d` are that channel of the source texels
`(2x, 2y)`, `(2x+1, 2y)`, `(2x, 2y+1)`, `(2x+1, 2y+1)`; their sum is at most 1020. -/
theorem mip_texel_floor_average (m : Mem) (pSrc pDst sw sh x y c : Nat)
    (hsw : 2 ≤ sw) (hsh : 2 ≤ sh) (hb : 4 * (sw * sh) ≤ 2 ^ 32)
    (hdisj : pSrc + 4 * (sw * sh) ≤ pDst ∨ pDst + 4 * ((sw / 2) * (sh / 2)) ≤ pSrc)
    (hx : x < sw / 2) (hy : y < sh / 2) (hc : c < 4) :
    (generate_mipmap m pSrc pDst sw sh).2 = (sw / 2, sh / 2)
    ∧ texelChannel m pSrc sw (2 * x) (2 * y) c + texelChannel m pSrc sw (2 * x + 1) (2 * y) c
        + texelChannel m pSrc sw (2 * x) (2 * y + 1) c
        + texelChannel m pSrc sw (2 * x + 1) (2 * y + 1) c ≤ 1020
    ∧ texelChannel (generate_mipmap m pSrc pDst sw sh).1 pDst (sw / 2) x y c
        = ⌊((texelChannel m pSrc sw (2 * x) (2 * y) c : ℚ)
            + (texelChannel m pSrc sw (2 * x + 1) (2 * y) c : ℚ)
            + (texelChannel m pSrc sw (2 * x) (2 * y + 1) c : ℚ)
            + (texelChannel m pSrc sw (2 * x + 1) (2 * y + 1) c : ℚ)) / 4⌋₊ := by
  obtain ⟨h1, h2, _, h4⟩ := generate_mipmap_average m pSrc pDst sw sh hsw hsh hb hdisj
  refine ⟨Prod.ext h1 h2, ?_, ?_⟩
  · simp only [texelChannel, loadByte]
    omega
  · rw [h4 x y c hx hy hc]
    have := @Nat.floor_div_eq_div ℚ _ _
      (texelChannel m pSrc sw (2 * x) (2 * y) c + texelChannel m pSrc sw (2 * x + 1) (2 * y) c
        + texelChannel m pSrc sw (2 * x) (2 * y + 1) c
        + texelChannel m pSrc sw (2 * x + 1) (2 * y + 1) c) 4
    rw [← this]
    push_cast
    rfl

theorem mip_texel_floor_average_witness :
    (2 ≤ 2 ∧ 2 ≤ 2 ∧ 4 * (2 * 2) ≤ 2 ^ 32
      ∧ (0 + 4 * (2 * 2) ≤ 16 ∨ 16 + 4 * ((2 / 2) * (2 / 2)) ≤ 0)
      ∧ 0 < 2 / 2 ∧ 0 < 2 / 2 ∧ 0 < 4)
    ∧ texelChannel (generate_mipmap exampleLevel 0 16 2 2).1 16 (2 / 2) 0 0 0
        = ⌊((texelChannel exampleLevel 0 2 (2 * 0) (2 * 0) 0 : ℚ)
            + (texelChannel exampleLevel 0 2 (2 * 0 + 1) (2 * 0) 0 : ℚ)
            + (texelChannel exampleLevel 0 2 (2 * 0) (2 * 0 + 1) 0 : ℚ)
            + (texelChannel exampleLevel 0 2 (2 * 0 + 1) (2 * 0 + 1) 0 : ℚ)) / 4⌋₊ :=
  ⟨⟨by decide, by decide, by decide, by decide, by decide, by decide, by decide⟩,
    (mip_texel_floor_average exampleLevel 0 16 2 2 0 0 0 (by decide) (by decide)
      (by decide) (by decide) (by decide) (by decide) (by decide)).2.2⟩

/-- C23: for an image with `L >= 1` mip levels (and a successful staging map),
`write_to_image` returns exactly when the fuel covers `L - 1` executions of the body of
its region loop.  The loop, entered with `region` at index 1 and `mipLevel` 1, returns
the state reached by exactly `L - 1` executions of the body; execution number `j + 1`
handles region `j + 1` as mip level `j + 1`, calls `generate_mipmap` once, and hands its
destination offset and the extents it produced to the next execution as the source.
The loop leaves `region` at index `L`, has written the level numbers of regions
`1 .. L - 1` and no byte of region 0 or behind region `L - 1`; the record holds `L`
descriptors, of levels `0 .. L - 1`, and the arena behind them is untouched.  With
`L = 1` the body never runs: the staged data is just the copy of the input. -/
theorem region_loop_runs_once_per_level (self : le_command_buffer_encoder_o) (host : Mem)
    (mp : Mapping) (resourceId : Nat) (resourceInfo : le_resource_info_t)
    (data : List Nat) (numBytes b : Nat)
    (htype : resourceInfo.type = LeResourceType.eImage)
    (hfmt : numBytesPerTexel resourceInfo.image.format = some b)
    (hL1 : 1 ≤ resourceInfo.image.mipLevels) (hL : resourceInfo.image.mipLevels < 2 ^ 32) :
    (∀ fuel, cbe_write_to_image fuel self host (some mp) resourceId resourceInfo data numBytes
        = none ↔ fuel < resourceInfo.image.mipLevels - 1)
    ∧ (∀ rb ma s, s.region = 1 → s.mipLevel = 1 →
        (∀ fuel, fuel < resourceInfo.image.mipLevels - 1 →
          regionLoop rb ma resourceInfo.image.mipLevels fuel s = none)
        ∧ (∀ fuel, resourceInfo.image.mipLevels - 1 ≤ fuel →
          regionLoop rb ma resourceInfo.image.mipLevels fuel s
            = some (regionLoopAfter rb ma s (resourceInfo.image.mipLevels - 1)))
        ∧ (∀ j, j < resourceInfo.image.mipLevels - 1 →
            (regionLoopAfter rb ma s j).region = j + 1
            ∧ (regionLoopAfter rb ma s j).mipLevel = j + 1
            ∧ (regionLoopAfter rb ma s (j + 1)).host
                = (generate_mipmap (regionLoopAfter rb ma s j).host
                    (ma + (regionLoopAfter rb ma s j).srcRegionOffsetInBytes)
                    (ma + (regionLoopAfter rb ma s j).dstRegionOffsetInBytes)
                    (regionLoopAfter rb ma s j).srcWidth
                    (regionLoopAfter rb ma s j).srcHeight).1
            ∧ (regionLoopAfter rb ma s (j + 1)).srcRegionOffsetInBytes
                = (regionLoopAfter rb ma s j).dstRegionOffsetInBytes
            ∧ ((regionLoopAfter rb ma s (j + 1)).srcWidth,
                (regionLoopAfter rb ma s (j + 1)).srcHeight)
                = (generate_mipmap (regionLoopAfter rb ma s j).host
                    (ma + (regionLoopAfter rb ma s j).srcRegionOffsetInBytes)
                    (ma + (regionLoopAfter rb ma s j).dstRegionOffsetInBytes)
                    (regionLoopAfter rb ma s j).srcWidth
                    (regionLoopAfter rb ma s j).srcHeight).2)
        ∧ (regionLoopAfter rb ma s (resourceInfo.image.mipLevels - 1)).region
            = resourceInfo.image.mipLevels
        ∧ (∀ k, 1 ≤ k → k < resourceInfo.image.mipLevels →
            loadU32 (regionLoopAfter rb ma s (resourceInfo.image.mipLevels - 1)).arena
              (rb + sizeof_ImageWriteRegion * k + 4) = k)
        ∧ (∀ i, i < rb + sizeof_ImageWriteRegion
              ∨ rb + sizeof_ImageWriteRegion * resourceInfo.image.mipLevels ≤ i →
            (regionLoopAfter rb ma s (resourceInfo.image.mipLevels - 1)).arena i = s.arena i))
    ∧ (∀ fuel, resourceInfo.image.mipLevels - 1 ≤ fuel →
        ∃ res, cbe_write_to_image fuel self host (some mp) resourceId resourceInfo data numBytes
            = some res
          ∧ (∀ k, k < resourceInfo.image.mipLevels →
              (regionAt res.1.mCommandStream self.mCommandStreamSize k).dstMipLevel = k)
          ∧ (∀ i, self.mCommandStreamSize + sizeofCommand .eWriteToImage
                + sizeof_ImageWriteRegion * resourceInfo.image.mipLevels ≤ i →
              res.1.mCommandStream i = self.mCommandStream i))
    ∧ (resourceInfo.image.mipLevels = 1 →
        ∃ res, cbe_write_to_image 0 self host (some mp) resourceId resourceInfo data numBytes
            = some res
          ∧ res.2 = memcpy host mp.memAddr data numBytes) := by
  have hb0 := numBytesPerTexel_ne_zero _ _ hfmt
  have hget : getNumBytesRequiredForMipchain resourceInfo.image
      = some (mipchainLoop b resourceInfo.image.mipLevels resourceInfo.image.width
          resourceInfo.image.height 0) := by
    simp [getNumBytesRequiredForMipchain, hfmt, hb0]
  have hloop : ∀ rb ma (s : RegionLoop), s.region = 1 →
      (∀ fuel, fuel < resourceInfo.image.mipLevels - 1 →
        regionLoop rb ma resourceInfo.image.mipLevels fuel s = none)
      ∧ (∀ fuel, resourceInfo.image.mipLevels - 1 ≤ fuel →
        regionLoop rb ma resourceInfo.image.mipLevels fuel s
          = some (regionLoopAfter rb ma s (resourceInfo.image.mipLevels - 1))) := by
    intro rb ma s hr
    exact ⟨fun fuel hf => regionLoop_short rb ma _ fuel _ s (by omega) hf,
      fun fuel hf => regionLoop_iterate rb ma _ _ fuel s (by omega) hf⟩
  refine ⟨?_, ?_, ?_, ?_⟩
  · intro fuel
    simp only [cbe_write_to_image, htype, hget, ne_eq, not_true_eq_false, if_false]
    by_cases hf : fuel < resourceInfo.image.mipLevels - 1
    · rw [(hloop _ _ _ rfl).1 fuel hf]
      simp [hf]
    · rw [(hloop _ _ _ rfl).2 fuel (by omega)]
      simp [hf]
  · intro rb ma s hr hm
    refine ⟨(hloop rb ma s hr).1, (hloop rb ma s hr).2, ?_, ?_, ?_, ?_⟩
    · intro j hj
      refine ⟨by rw [regionLoopAfter_region, hr]; omega,
        by rw [regionLoopAfter_mipLevel _ _ _ _ (by omega), hm]; omega, ?_, ?_, ?_⟩
      · rw [regionLoopAfter_succ]
        rfl
      · rw [regionLoopAfter_succ]
        rfl
      · rw [regionLoopAfter_succ]
        rfl
    · rw [regionLoopAfter_region, hr]
      omega
    · intro k hk1 hk2
      simp only [sizeof_ImageWriteRegion]
      exact regionLoopAfter_levels rb ma s _ (by rw [hm, hr]) (by omega) k (by omega) (by omega)
    · intro i hi
      simp only [sizeof_ImageWriteRegion] at hi
      exact regionLoopAfter_frame rb ma s _ i (by omega)
  · intro fuel hf
    simp only [cbe_write_to_image, htype, hget, ne_eq, not_true_eq_false, if_false]
    rw [(hloop _ _ _ rfl).2 fuel hf]
    refine ⟨_, rfl, ?_, ?_⟩
    · intro k hk
      simp only [regionAt, loadRegion, sizeofCommand, sizeof_ImageWriteRegion, loadU32, storeU32,
        storeU64]
      simp (disch := omega) only [loadLE_storeLE_disj]
      by_cases hk0 : k = 0
      · subst hk0
        rw [loadLE_congr _ 4 (fun i _ _ => regionLoopAfter_frame _ _ _ _ i
          (Or.inl (by simp only [sizeofCommand]; omega)))]
        simp (disch := omega) [storeU32, sizeofCommand, loadLE_storeLE_disj, loadLE_storeLE_same]
      · have := regionLoopAfter_levels (self.mCommandStreamSize + sizeofCommand .eWriteToImage)
          mp.memAddr
          { arena := storeU32 (storeU32 (storeU32 (storeU32 (EMPLACE_CMD self .eWriteToImage)
              (self.mCommandStreamSize + sizeofCommand .eWriteToImage + 4) 0)
              (self.mCommandStreamSize + sizeofCommand .eWriteToImage + 8)
                resourceInfo.image.width)
              (self.mCommandStreamSize + sizeofCommand .eWriteToImage + 12)
                resourceInfo.image.height)
              (self.mCommandStreamSize + sizeofCommand .eWriteToImage) 0
            host := memcpy host mp.memAddr data numBytes
            region := 1
            mipLevel := 1
            dstRegionOffsetInBytes := numBytes
            srcRegionOffsetInBytes := 0
            srcWidth := resourceInfo.image.width
            srcHeight := resourceInfo.image.height }
          (resourceInfo.image.mipLevels - 1) rfl (by simp only []; omega) k
          (by simp only []; omega) (by simp only []; omega)
        simp only [loadU32, sizeofCommand] at this
        exact this
    · intro i hi
      simp only [sizeofCommand, sizeof_ImageWriteRegion] at hi
      simp only [storeU32, storeU64, storeLE, sizeofCommand]
      rw [if_neg (by omega), if_neg (by omega), if_neg (by omega), if_neg (by omega),
        if_neg (by omega), if_neg (by omega)]
      rw [regionLoopAfter_frame _ _ _ _ i (Or.inr (by simp only []; omega))]
      simp only [EMPLACE_CMD, storeU32, storeLE]
      rw [if_neg (by omega), if_neg (by omega), if_neg (by omega), if_neg (by omega)]
      split_ifs <;> first | rfl | omega
  · intro h1
    simp only [cbe_write_to_image, htype, hget, ne_eq, not_true_eq_false, if_false]
    rw [(hloop _ _ _ rfl).2 0 (by omega), h1]
    exact ⟨_, rfl, rfl⟩

theorem region_loop_runs_once_per_level_witness :
    (exampleImage.type = LeResourceType.eImage
      ∧ numBytesPerTexel exampleImage.image.format = some 4
      ∧ 1 ≤ exampleImage.image.mipLevels ∧ exampleImage.image.mipLevels < 2 ^ 32)
    ∧ ∀ fuel, cbe_write_to_image fuel freshEncoder zeroMem (some ⟨2000, 88⟩) 9 exampleImage
        (List.replicate 64 200) 64 = none ↔ fuel < exampleImage.image.mipLevels - 1 :=
  ⟨⟨rfl, rfl, by decide, by decide⟩,
    (region_loop_runs_once_per_level freshEncoder zeroMem ⟨2000, 88⟩ 9 exampleImage
      (List.replicate 64 200) 64 4 rfl rfl (by decide) (by decide)).1⟩

/-- C24: the two halving rules agree.  For every `d` the step of the budget loop of
`getNumBytesRequiredForMipchain` (`d > 2 ? d >> 1 : 1`) equals the step of
`generate_mipmap` (`d / 2`, replaced by 1 when that is 0), and both equal
`max 1 (d / 2)`; the budget loop advances its width and height by the first, the
generator returns the second as the extents of the level it produced, and so the byte
budget of an image is the byte width of a texel times the sum, over the requested
levels, of the sizes of the levels that repeated `generate_mipmap` calls produce
(in `size_t` arithmetic). -/
theorem halving_rules_agree (d : Nat) (imageInfo : ImageInfo) (b : Nat)
    (hb : numBytesPerTexel imageInfo.format = some b) :
    budgetStep d = generatorStep d
    ∧ budgetStep d = max 1 (d / 2)
    ∧ generatorStep d = max 1 (d / 2)
    ∧ (∀ bpt n h t, mipchainLoop bpt (n + 1) d h t
        = mipchainLoop bpt n (budgetStep d) (budgetStep h) (u64 (t + u64 (u64 (bpt * d) * h))))
    ∧ (∀ m pSrc pDst sh, (generate_mipmap m pSrc pDst d sh).2
        = (generatorStep d, generatorStep sh))
    ∧ (∀ k, budgetStep^[k] d = generatorStep^[k] d)
    ∧ getNumBytesRequiredForMipchain imageInfo
        = some (u64 (b * ((List.range imageInfo.mipLevels).map
            (fun k => generatorStep^[k] imageInfo.width
              * generatorStep^[k] imageInfo.height)).sum)) := by
  have hbg : ∀ d, budgetStep d = generatorStep d := fun d => by
    rw [budgetStep_eq, generatorStep_eq]
  refine ⟨hbg d, budgetStep_eq d, generatorStep_eq d, fun bpt n h t => mipchainLoop_step _ _ _ _ _,
    fun _ _ _ _ => rfl, ?_, ?_⟩
  · intro k
    have : budgetStep = generatorStep := funext hbg
    rw [this]
  · rw [getNumBytes_eq imageInfo b hb, chainTexels_eq_sum]
    rfl

theorem halving_rules_agree_witness :
    numBytesPerTexel exampleImage.image.format = some 4
    ∧ budgetStep 5 = generatorStep 5
    ∧ budgetStep 5 = max 1 (5 / 2)
    ∧ getNumBytesRequiredForMipchain exampleImage.image
        = some (u64 (4 * ((List.range exampleImage.image.mipLevels).map
            (fun k => generatorStep^[k] exampleImage.image.width
              * generatorStep^[k] exampleImage.image.height)).sum)) :=
  ⟨rfl, (halving_rules_agree 5 exampleImage.image 4 rfl).1,
    (halving_rules_agree 5 exampleImage.image 4 rfl).2.1,
    (halving_rules_agree 5 exampleImage.image 4 rfl).2.2.2.2.2.2⟩

end Island
